import Mathlib

/-!
# Mobius: alpha-fair allocation search over the convex hull of throughput vectors

A shallow embedding of the Go sources `mobius/mobius.go`, `mobius/search.go`,
`common/common.go`, `common/interestmap.go` and `vrp/vrp.go`.

Conventions of the embedding.

* `float64` is a linearly ordered field `R` (exact arithmetic).  Definitions are
  generic in `R`, so they evaluate over `ℚ`; statements about `math.Log` and
  `math.Pow` are made over `ℝ`.
* A Go `map[K]V` is an association list in which the first binding of a key is the
  live one; `range` visits every key once.
* A call that returns a Go `error`, panics or ends in `log.Fatalf` returns
  `Except.error` with the matching constructor of `Fault`.
* Functions of libraries outside the repository (`math`, `fmt`, `sort`, gonum) are
  the fields of `Lib`; the routing solver is the field `Solver` of `Mobius`.
-/

namespace MobiusSpec

/-- The ways a call can fail: a returned `error`, a run-time panic, `log.Fatalf`. -/
inductive Fault where
  | err (msg : String)
  | panic (msg : String)
  | fatal (msg : String)
deriving DecidableEq, Repr

/-! ## Go maps -/

/-- A Go map: an association list, the first binding of a key is the live one. -/
abbrev GoMap (K V : Type) := List (K × V)

namespace GoMap

variable {K V : Type} [DecidableEq K]

/-- The comma-ok lookup `v, ok := m[k]`. -/
def find : GoMap K V → K → Option V
  | [], _ => none
  | (k', v) :: m, k => if k' = k then some v else find m k

/-- The keys visited by `for k := range m`, each once. -/
def keys (m : GoMap K V) : List K := (m.map Prod.fst).dedup

/-- The values visited by `for _, v := range m`. -/
def values (m : GoMap K V) : List V := (keys m).filterMap (find m)

/-- The assignment `m[k] = v`. -/
def set (m : GoMap K V) (k : K) (v : V) : GoMap K V := (k, v) :: m

/-- The builtin `len(m)`. -/
def len (m : GoMap K V) : Nat := (keys m).length

/-- The read `m[k]` of a numeric map: the zero value when the key is absent. -/
def get [Zero V] (m : GoMap K V) (k : K) : V := (find m k).getD 0

end GoMap

/-! ## Data model (`common/task.go`, `common/vehicle.go`, `vrp/vrp.go`) -/

/-- The sentinel coordinate `common.INVALID_LOC`. -/
def INVALID_LOC : Int := -1

/-- Struct `common.Location`. -/
structure Location (R : Type) where
  Latitude : R
  Longitude : R
deriving DecidableEq

/-- Struct `common.Task`, the key of the interest map. -/
structure Task (R : Type) where
  AppID : Int
  Location : MobiusSpec.Location R
  Destination : MobiusSpec.Location R
  RequestTime : Int
deriving DecidableEq

/-- Struct `common.TaskData`. -/
structure TaskData (R : Type) where
  AppID : Int
  Location : MobiusSpec.Location R
  Destination : MobiusSpec.Location R
  Interest : R
  TaskTimeSeconds : R
  RequestTime : Int
  FulfillTime : Int
deriving DecidableEq

/-- Type `common.InterestMap`: `map[Task]TaskData`. -/
abbrev InterestMap (R : Type) := GoMap (Task R) (TaskData R)

/-- Struct `common.Vehicle`. -/
structure Vehicle (R : Type) where
  ID : Int
  Location : MobiusSpec.Location R
  Speed : R
deriving DecidableEq

/-- Struct `vrp.Route`. -/
structure Route (R : Type) where
  Path : List (TaskData R)
  TotalInterest : R
  TotalTime : Int
  VehicleStart : Location R
  VehicleEnd : Location R
deriving DecidableEq

/-- Type `vrp.Allocation`: `map[int]float64`, app id to allocated interest. -/
abbrev Allocation (R : Type) := GoMap Int R

/-- The anonymous struct `Stats` of `vrp.Schedule`. -/
structure Stats (R : Type) where
  Weights : GoMap Int R
  Alpha : R
  Bound : R
deriving DecidableEq

/-- Struct `vrp.Schedule`. -/
structure Schedule (R : Type) where
  Routes : List (Route R)
  Allocation : MobiusSpec.Allocation R
  Stats : MobiusSpec.Stats R
deriving DecidableEq

/-- The zero value of `vrp.Schedule` (`var s Schedule`). -/
def Schedule.zero {R : Type} [Zero R] : Schedule R :=
  { Routes := [], Allocation := [], Stats := { Weights := [], Alpha := 0, Bound := 0 } }

/-- Struct `fpoint`: a point on the frontier. -/
structure fpoint (R : Type) where
  schedule : Schedule R
  utility : R
  weights : GoMap Int R
deriving DecidableEq

/-- The entry type `ws_schedule` local to `choose_init_schedule`. -/
structure ws_schedule (R : Type) where
  schedule : Schedule R
  weighted_reward : R

/-- Library functions called by the sources and defined outside the repository. -/
structure Lib (R : Type) where
  /-- Function `math.Log`. -/
  Log : R → R
  /-- Function `math.Pow`. -/
  Pow : R → R → R
  /-- Function `fmt.Sprintf` with the verb `%0.2f`. -/
  Sprintf2 : R → String
  /-- Function `sort.Slice` on the slice of `choose_init_schedule`. -/
  SortSlice :
    (ws_schedule R → ws_schedule R → Bool) → List (ws_schedule R) → List (ws_schedule R)
  /-- The least-squares branch (QR or LQ) of gonum's `SolveVec` for a non-square system. -/
  LeastSquares : List (List R) → List R → Except Fault (List R)
  /-- Function `fmt.Sprintf` with the verb `%0.1f`. -/
  Sprintf1 : R → String
  /-- Function `sort.Slice` on the face of `SearchFrontier`. -/
  SortFace : (fpoint R → fpoint R → Bool) → List (fpoint R) → List (fpoint R)
  /-- Function `sort.Slice` on the task list of `RoundRobinSolver.next_task`. -/
  SortTasks :
    (TaskData R × Int → TaskData R × Int → Bool) → List (TaskData R × Int) →
      List (TaskData R × Int)

/-- The routing oracle behind `vrp.Solver`: `Set` followed by `SetInitialSchedule`
and `Solve`, as a function of the weighted interest map, the unweighted interest
map, the vehicles, the horizon, the capacity and the initial schedule. -/
abbrev Solver (R : Type) :=
  InterestMap R → InterestMap R → List (Vehicle R) → Int → Int → Schedule R → Schedule R

/-- Struct `Mobius` (the log directory and the CSV writer are left out). -/
structure Mobius (R : Type) where
  InterestMap : MobiusSpec.InterestMap R
  Solver : MobiusSpec.Solver R
  Vehicles : List (Vehicle R)
  Horizon : Int
  Capacity : Int
  Historical : Allocation R
  Alpha : R
  Discount : R
  app_ids : List Int
  num_apps : Nat
  min_app_id : Int
  heuristics : GoMap String (Schedule R)
  last_face : Option (List (fpoint R))

/-- Constant `EPSILON`: initial interest, in order to evaluate the utility function. -/
def EPSILON {R : Type} [LinearOrderedField R] : R := 1 / 10

section Code

variable {R : Type} [LinearOrderedField R]

/-! ## `common/interestmap.go`, `common/common.go` -/

/-- Method `InterestMap.GetApps`: the set of app ids of the tasks, sorted by `sort.Ints`. -/
def GetApps (im : InterestMap R) : List Int :=
  let apps : GoMap Int Unit := (GoMap.keys im).foldl (fun apps t => GoMap.set apps t.AppID ()) []
  (GoMap.keys apps).insertionSort (· ≤ ·)

/-- Method `InterestMap.Reweight`: multiply each interest by the weight of its app. -/
def Reweight (im : InterestMap R) (w : GoMap Int R) : InterestMap R :=
  (GoMap.keys im).foldl
    (fun imw t =>
      match GoMap.find im t with
      | some d => GoMap.set imw t { d with Interest := GoMap.get w t.AppID * d.Interest }
      | none => imw)
    []

/-- Function `common.GetMinMax`: min/max of a `[]float64` slice. -/
def GetMinMax (x : List R) : R × R :=
  x.foldl
    (fun (mm : R × R) a =>
      let max := if a > mm.2 then a else mm.2
      let min := if a < mm.1 then a else mm.1
      (min, max))
    (1000, 0)

/-! ## `mobius/mobius.go` -/

/-- Method `Mobius.Init`; `warm` is the bank that `warm_start` collects from its
parallel solves. -/
def Mobius.Init (s : Mobius R) (warm : GoMap String (Schedule R)) : Except Fault (Mobius R) :=
  let app_ids := GetApps s.InterestMap
  let num_apps := app_ids.length
  if num_apps < 1 then
    .error (.fatal "[mobius] found 0 apps; must have at least 1")
  else
    match app_ids with
    | [] => .error (.panic "index out of range")
    | min_app_id :: _ =>
      .ok { s with
        app_ids := app_ids
        num_apps := num_apps
        min_app_id := min_app_id
        heuristics := warm
        last_face := none }

/-- Function `weighted_reward`: weighted reward of an allocation under a weight map. -/
def weighted_reward (w : GoMap Int R) (allocation : Allocation R) : R :=
  (GoMap.keys allocation).foldl
    (fun reward id => reward + GoMap.get w id * GoMap.get allocation id) 0

/-- The exact-arithmetic reading of gonum's `x.SolveVec(A, b)` for a system with `n`
unknowns.  A square system goes through the LU factorisation, which fails exactly
when the matrix is singular and otherwise yields the unique solution (written here
by Cramer's rule); any other shape goes to the least-squares branch. -/
def SolveVec (L : Lib R) (n : Nat) (A : List (List R)) (b : List R) : Except Fault (List R) :=
  if A.length = n then
    let M : Matrix (Fin n) (Fin n) R := Matrix.of fun i j => (A.getD i.val []).getD j.val 0
    let v : Fin n → R := fun i => b.getD i.val 0
    if M.det = 0 then
      .error (.err "matrix singular or near-singular")
    else
      .ok (List.ofFn (M.det⁻¹ • M.adjugate.mulVec v))
  else
    L.LeastSquares A b

/-- The constraint matrix `A` of `compute_face_equation`, one row per face point. -/
def Mobius.face_rows (s : Mobius R) (face : List (fpoint R)) : List (List R) :=
  face.map fun f =>
    (s.app_ids.foldl
      (fun row id =>
        if id ≠ s.min_app_id then row ++ [-(GoMap.get f.schedule.Allocation id)] else row)
      [1])

/-- The right-hand side `b` of `compute_face_equation`. -/
def Mobius.face_rhs (s : Mobius R) (face : List (fpoint R)) : List R :=
  face.map fun f => GoMap.get f.schedule.Allocation s.min_app_id

/-- Method `Mobius.compute_face_equation`: the equation `(c, w)` of a face. -/
def Mobius.compute_face_equation (L : Lib R) (s : Mobius R) (face : List (fpoint R)) :
    Except Fault (R × List R) :=
  let uc := face.foldl
    (fun uc f => if GoMap.get f.schedule.Allocation s.min_app_id > 0 then true else uc) false
  if !uc then
    .error (.err "underconstrained in app1")
  else if (s.face_rows face).any (fun row => row.length ≠ s.num_apps) then
    .error (.panic "mat: bad row length")
  else
    match SolveVec L s.num_apps (s.face_rows face) (s.face_rhs face) with
    | .error (.err _) => .error (.err "underconstrained")
    | .error e => .error e
    | .ok weights =>
      match weights with
      | [] => .error (.panic "index out of range")
      | c :: rest => .ok (c, 1 :: rest)

/-- Function `valid_weights`: no component of the weight vector is negative. -/
def valid_weights (w : List R) : Bool :=
  w.all fun x => !decide (x < 0)

/-- The loop of `weight_vector_to_map` over `(idx, id)`; reading `weights[idx]`
past the end of the slice panics. -/
def weight_vector_to_map_loop (weights : List R) :
    List (Nat × Int) → GoMap Int R → Except Fault (GoMap Int R)
  | [], w => .ok w
  | (idx, id) :: rest, w =>
    match weights.get? idx with
    | some x => weight_vector_to_map_loop weights rest (GoMap.set w id x)
    | none => .error (.panic "index out of range")

/-- Method `Mobius.weight_vector_to_map`: weight vector (slice) to map by app id. -/
def Mobius.weight_vector_to_map (s : Mobius R) (weights : List R) : Except Fault (GoMap Int R) :=
  weight_vector_to_map_loop weights s.app_ids.enum []

/-- Method `Mobius.utility`: alpha-utility of an allocation. -/
def Mobius.utility (L : Lib R) (s : Mobius R) (a : Allocation R) : R :=
  let h : Allocation R := s.app_ids.foldl
    (fun h id => GoMap.set h id (s.Discount * GoMap.get s.Historical id + GoMap.get a id)) []
  if s.Alpha = 1 then
    (GoMap.values h).foldl
      (fun u x => if x > 0 then u + L.Log x else u + L.Log EPSILON) 0
  else
    (GoMap.values h).foldl
      (fun u x =>
        if x > 0 then u + L.Pow x (1 - s.Alpha) / (1 - s.Alpha)
        else u + L.Pow EPSILON (1 - s.Alpha) / (1 - s.Alpha)) 0

/-- Method `Mobius.choose_init_schedule`: best (highest weighted reward) schedule
from the bank of cached schedules.  The slice has one slot more than the bank, and
that slot keeps its zero value. -/
def Mobius.choose_init_schedule (L : Lib R) (s : Mobius R) (w : GoMap Int R) : Schedule R :=
  let schedules : List (ws_schedule R) :=
    (GoMap.values s.heuristics).map
        (fun h => { schedule := h, weighted_reward := weighted_reward w h.Allocation })
      ++ [{ schedule := Schedule.zero, weighted_reward := 0 }]
  let sorted := L.SortSlice (fun a b => decide (a.weighted_reward > b.weighted_reward)) schedules
  match sorted with
  | x :: _ => x.schedule
  | [] => Schedule.zero

/-- Function `assert_schedule_improved`. -/
def assert_schedule_improved (w : GoMap Int R) (final init : Allocation R) : Bool :=
  decide (weighted_reward w final ≥ weighted_reward w init)

/-- Method `Mobius.compute_schedule`: reweight the interest map and run the solver. -/
def Mobius.compute_schedule (L : Lib R) (s : Mobius R) (w : GoMap Int R) :
    Except Fault (Schedule R × R) :=
  if GoMap.len w ≠ s.num_apps then
    .error (.fatal "[mobius] cannot reweight InterestMap")
  else
    let imw := Reweight s.InterestMap w
    let initial_schedule := s.choose_init_schedule L w
    let schedule := s.Solver imw s.InterestMap s.Vehicles s.Horizon s.Capacity initial_schedule
    let schedule : Schedule R :=
      { schedule with Stats := { schedule.Stats with Weights := w, Alpha := s.Alpha } }
    .ok (schedule, s.utility L schedule.Allocation)

/-- Function `contains`: check if the current frontier contains the allocation. -/
def contains : List (fpoint R) → Allocation R → Bool
  | [], _ => false
  | p :: hull, allocation =>
    let found := (GoMap.keys p.schedule.Allocation).foldl
      (fun found id =>
        if GoMap.get allocation id ≠ GoMap.get p.schedule.Allocation id then false else found)
      true
    if found then true else contains hull allocation

/-- Method `Mobius.weight_tag`: tag built from the app weights. -/
def Mobius.weight_tag (L : Lib R) (s : Mobius R) (w : GoMap Int R) : String :=
  s.app_ids.foldl (fun tag id => tag ++ L.Sprintf2 (GoMap.get w id) ++ "_") ""

/-- Method `Mobius.find_extension`: find a feasible extension of the convex hull.
On success the new state (the bank has the new schedule) comes with the point. -/
def Mobius.find_extension (L : Lib R) (s : Mobius R) (face hull : List (fpoint R)) :
    Except Fault (Mobius R × fpoint R) :=
  match s.compute_face_equation L face with
  | .error (.err e) => .error (.err ("no extension found: " ++ e))
  | .error e => .error e
  | .ok (c, weights) =>
    if !valid_weights weights then
      .error (.err "no extension found (invalid weights)")
    else
      match s.weight_vector_to_map weights with
      | .error e => .error e
      | .ok w =>
        match s.compute_schedule L w with
        | .error e => .error e
        | .ok (schedule, utility) =>
          let wr := weighted_reward w schedule.Allocation
          if wr ≥ c && !contains hull schedule.Allocation then
            .ok ({ s with
                    heuristics :=
                      GoMap.set s.heuristics ("weight_" ++ s.weight_tag L w) schedule },
                 { schedule := schedule, utility := utility, weights := w })
          else
            .error (.err "no extension found: no better schedule")

/-! ## `mobius/search.go` -/

/-- Method `Mobius.compute_lagrangian`. -/
def Mobius.compute_lagrangian (L : Lib R) (s : Mobius R) (w : GoMap Int R) (c : R) : R :=
  let d := (GoMap.values w).foldl (fun d weight => d + L.Pow weight (1 - 1 / s.Alpha)) 0
  L.Pow (c / d) (-s.Alpha)

/-- Method `Mobius.compute_opt`: the optimal allocation on the hyperplane of a face. -/
def Mobius.compute_opt (L : Lib R) (s : Mobius R) (face : List (fpoint R)) :
    Except Fault (List R) :=
  match s.compute_face_equation L face with
  | .error (.err _) => .error (.err "error computing face equation")
  | .error e => .error e
  | .ok (c, weights) =>
    match s.weight_vector_to_map weights with
    | .error e => .error e
    | .ok w =>
      let lam := s.compute_lagrangian L w c
      if s.num_apps < s.app_ids.length then
        .error (.panic "index out of range")
      else
        .ok (s.app_ids.map (fun id => L.Pow (lam * GoMap.get w id) (-1 / s.Alpha))
              ++ List.replicate (s.num_apps - s.app_ids.length) 0)

/-- The loop of `opt_in_face` over `(i, id)`, leaving at the first invalid app. -/
def opt_in_face_loop (opt : List R) (app_allocs : GoMap Int (List R)) :
    List (Nat × Int) → Except Fault Bool
  | [] => .ok true
  | (i, id) :: rest =>
    let mm := GetMinMax ((GoMap.find app_allocs id).getD [])
    match opt.get? i with
    | none => .error (.panic "index out of range")
    | some x =>
      let valid := decide (x ≥ mm.1) && decide (x ≤ mm.2)
      if !valid then .ok false else opt_in_face_loop opt app_allocs rest

/-- Method `Mobius.opt_in_face`: does the optimal allocation lie within the face. -/
def Mobius.opt_in_face (s : Mobius R) (opt : List R) (app_allocs : GoMap Int (List R)) :
    Except Fault Bool :=
  opt_in_face_loop opt app_allocs s.app_ids.enum

/-- The map `app_id --> list of allocs` that `eval_face` builds from a face. -/
def Mobius.app_allocs (s : Mobius R) (face : List (fpoint R)) : GoMap Int (List R) :=
  face.enum.foldl
    (fun m (p : Nat × fpoint R) =>
      s.app_ids.foldl
        (fun m id =>
          let m1 := match GoMap.find m id with
            | some _ => m
            | none => GoMap.set m id (List.replicate face.length 0)
          GoMap.set m1 id
            (((GoMap.find m1 id).getD []).set p.1 (GoMap.get p.2.schedule.Allocation id)))
        m)
    []

/-- Method `Mobius.eval_face`: does the utility-maximizing solution lie in the face. -/
def Mobius.eval_face (L : Lib R) (s : Mobius R) (face : List (fpoint R)) : Except Fault Bool :=
  match s.compute_opt L face with
  | .error (.err _) => .ok false
  | .error e => .error e
  | .ok x_opt => s.opt_in_face x_opt (s.app_allocs face)

/-! ## `vrp/vrp.go` -/

/-- The zero value of `common.TaskData`. -/
def TaskData.zero : TaskData R :=
  { AppID := 0, Location := ⟨0, 0⟩, Destination := ⟨0, 0⟩, Interest := 0, TaskTimeSeconds := 0
    RequestTime := 0, FulfillTime := 0 }

/-- Method `Allocation.Total`: the sum of the allocations. -/
def Allocation.Total (a : Allocation R) : R :=
  (GoMap.values a).foldl (fun sum x => sum + x) 0

/-- The loop `for j, t = range route.Path` of `Trim`, from index `k` on: it counts
the task into `alloc` when neither coordinate of its destination is the sentinel
and leaves at the first task whose fulfill time exceeds `time`.  The result is the
last `j`, the last `t` and the allocation. -/
def trim_scan (time : Int) :
    Nat → List (TaskData R) → Nat × TaskData R → Allocation R → Nat × TaskData R × Allocation R
  | _, [], jt, alloc => (jt.1, jt.2, alloc)
  | k, t :: rest, _, alloc =>
    let alloc1 :=
      if t.Destination.Latitude ≠ (INVALID_LOC : R) ∧ t.Destination.Longitude ≠ (INVALID_LOC : R)
      then GoMap.set alloc t.AppID (GoMap.get alloc t.AppID + 1)
      else alloc
    if t.FulfillTime > time then (k, t, alloc1)
    else trim_scan time (k + 1) rest (k, t) alloc1

/-- The body of the loop of `Trim` for one route: a route with an empty path is
skipped (`none` for the allocation); otherwise the path is cut after index `j`, or
after `j + 1` when the destination latitude of task `j` is 0 and `j` is not the last
index, and the vehicle ends at the location of `t`. -/
def trim_route (time : Int) (route : Route R) (alloc : Allocation R) :
    Route R × Option (Allocation R) :=
  if route.Path.length = 0 then
    (route, none)
  else
    let r := trim_scan time 0 route.Path (0, TaskData.zero) alloc
    let j := r.1
    let t := r.2.1
    let j1 :=
      if ((route.Path.get? j).getD TaskData.zero).Destination.Latitude = 0
          ∧ j < route.Path.length - 1
      then j + 1 else j
    ({ route with Path := route.Path.take (j1 + 1), VehicleEnd := t.Location }, some r.2.2)

/-- The loop of `Trim` over the routes.  The flag tells whether some route had a
path, in which case `s.Allocation = alloc` was executed; the assignment shares the
map, so the schedule sees the counts of the later routes too. -/
def trim_routes (time : Int) :
    List (Route R) → Allocation R → Bool → List (Route R) × Allocation R × Bool
  | [], alloc, assigned => ([], alloc, assigned)
  | route :: routes, alloc, assigned =>
    match trim_route time route alloc with
    | (route1, none) =>
      let r := trim_routes time routes alloc assigned
      (route1 :: r.1, r.2)
    | (route1, some alloc1) =>
      let r := trim_routes time routes alloc1 true
      (route1 :: r.1, r.2)

/-- Method `Schedule.Trim`. -/
def Schedule.Trim (s : Schedule R) (time : Int) : Schedule R :=
  let alloc : MobiusSpec.Allocation R :=
    (GoMap.keys s.Allocation).foldl (fun alloc id => GoMap.set alloc id 0) []
  let r := trim_routes time s.Routes alloc false
  { s with Routes := r.1, Allocation := if r.2.2 then r.2.1 else s.Allocation }

/-- The zero value of `fpoint`. -/
def fpoint.zero : fpoint R :=
  { schedule := Schedule.zero, utility := 0, weights := [] }

/-! ## `mobius/mobius.go`, `mobius/search.go`, `mobius/trace.go`: the hull -/

/-- The body of the goroutine of `init_hull` for the app `i`: the solve with the
one-hot weights of `i`, fatal when nothing is allocated to `i`. -/
def Mobius.init_hull_point (L : Lib R) (s : Mobius R) (i : Int) : Except Fault (fpoint R) :=
  let weights : GoMap Int R :=
    s.app_ids.foldl (fun weights idx => GoMap.set weights idx (if idx = i then 1 else 0)) []
  match s.compute_schedule L weights with
  | .error e => .error e
  | .ok (schedule, _) =>
    if GoMap.get schedule.Allocation i = 0 then
      .error (.fatal "app, nothing allocated")
    else
      .ok { schedule := schedule, utility := s.utility L schedule.Allocation, weights := weights }

/-- The points of `init_hull` for a list of apps, in the order of the list. -/
def Mobius.init_hull_points (L : Lib R) (s : Mobius R) : List Int → Except Fault (List (fpoint R))
  | [] => .ok []
  | id :: ids =>
    match s.init_hull_point L id with
    | .error e => .error e
    | .ok p =>
      match Mobius.init_hull_points L s ids with
      | .error e => .error e
      | .ok ps => .ok (p :: ps)

/-- Method `Mobius.init_hull`: the hull of the single-app schedules.  The goroutines
deliver their points in any order; the embedding takes the order of `app_ids`. -/
def Mobius.init_hull (L : Lib R) (s : Mobius R) : Except Fault (List (fpoint R)) :=
  s.init_hull_points L s.app_ids

/-- Method `Mobius.assert_face_dim`: fatal when the face has fewer points than apps. -/
def Mobius.assert_face_dim (s : Mobius R) (face : List (fpoint R)) : Except Fault Unit :=
  if face.length < s.num_apps then .error (.fatal "[mobius] face has wrong dimension")
  else .ok ()

/-- The loop of `create_candidate_face` over `(i, face[i])`: `x[n] = face[i]` for
every `i` but `exclude_idx`; writing past the end of `x` panics. -/
def create_candidate_face_loop (exclude_idx : Nat) :
    List (Nat × fpoint R) → List (fpoint R) → Nat → Except Fault (List (fpoint R))
  | [], x, _ => .ok x
  | (i, f) :: rest, x, n =>
    if i ≠ exclude_idx then
      if n < x.length then create_candidate_face_loop exclude_idx rest (x.set n f) (n + 1)
      else .error (.panic "index out of range")
    else create_candidate_face_loop exclude_idx rest x n

/-- Function `create_candidate_face`: the new point, then the face without the
point at `exclude_idx`. -/
def create_candidate_face (fp : fpoint R) (face : List (fpoint R)) (exclude_idx : Nat) :
    Except Fault (List (fpoint R)) :=
  let x : List (fpoint R) := List.replicate face.length fpoint.zero
  if 0 < x.length then create_candidate_face_loop exclude_idx face.enum (x.set 0 fp) 1
  else .error (.panic "index out of range")

/-- The loop of `extend_hull_search` over the indices of the face: the first
candidate face that `eval_face` accepts, if any. -/
def Mobius.first_candidate (L : Lib R) (s : Mobius R) (fp : fpoint R) (face : List (fpoint R)) :
    List Nat → Except Fault (Option (List (fpoint R)))
  | [] => .ok none
  | idx :: rest =>
    match create_candidate_face fp face idx with
    | .error e => .error e
    | .ok x =>
      match s.eval_face L x with
      | .error e => .error e
      | .ok true => .ok (some x)
      | .ok false => Mobius.first_candidate L s fp face rest

/-- Method `Mobius.extend_hull_search`: extend the hull in the direction of the
alpha-fair solution.  The recursion is cut after `fuel` calls (`none`). -/
def Mobius.extend_hull_search (L : Lib R) :
    Nat → Mobius R → List (fpoint R) → List (fpoint R) →
      Option (Except Fault (Mobius R × List (fpoint R)))
  | 0, _, _, _ => none
  | fuel + 1, s, face, hull =>
    match s.assert_face_dim face with
    | .error e => some (.error e)
    | .ok _ =>
      match s.find_extension L face hull with
      | .error (.err _) => some (.ok (s, face))
      | .error e => some (.error e)
      | .ok (s1, fp) =>
        match s1.first_candidate L fp face (List.range face.length) with
        | .error e => some (.error e)
        | .ok (some x) => Mobius.extend_hull_search L fuel s1 x (hull ++ [fp])
        | .ok none => some (.ok (s1, face ++ [fp]))

/-- The comparison of `SearchFrontier`: higher utility first, then higher total
allocation. -/
def face_less (a b : fpoint R) : Bool :=
  if a.utility > b.utility then true
  else if a.utility < b.utility then false
  else decide (Allocation.Total a.schedule.Allocation > Allocation.Total b.schedule.Allocation)

/-- The first part of `SearchFrontier`: the face to choose from, which is the result
of the search when there is no `last_face` and the rescored `last_face` otherwise. -/
def Mobius.search_face (L : Lib R) (fuel : Nat) (s : Mobius R) :
    Option (Except Fault (Mobius R × List (fpoint R))) :=
  match s.last_face with
  | none =>
    match s.init_hull L with
    | .error e => some (.error e)
    | .ok hull =>
      match Mobius.extend_hull_search L fuel s hull hull with
      | none => none
      | some (.error e) => some (.error e)
      | some (.ok (s1, face)) =>
        match s1.assert_face_dim face with
        | .error e => some (.error e)
        | .ok _ => some (.ok (s1, face))
  | some face =>
    some (.ok (s, face.map fun p => { p with utility := s.utility L p.schedule.Allocation }))

/-- Method `Mobius.SearchFrontier`: search for the most alpha-fair allocation on the
convex hull; the face is sorted in place and the schedule of its first point is
returned. -/
def Mobius.SearchFrontier (L : Lib R) (fuel : Nat) (s : Mobius R) :
    Option (Except Fault (Mobius R × Schedule R)) :=
  match s.search_face L fuel with
  | none => none
  | some (.error e) => some (.error e)
  | some (.ok (s1, face)) =>
    match L.SortFace face_less face with
    | [] => some (.error (.panic "index out of range"))
    | p :: rest => some (.ok ({ s1 with last_face := some (p :: rest) }, p.schedule))

/-- Method `Mobius.extend_hull_trace`: extend the hull through every candidate
face.  The recursion is cut after `fuel` nested calls (`none`). -/
def Mobius.extend_hull_trace (L : Lib R) :
    Nat → Mobius R → List (fpoint R) → List (fpoint R) →
      Option (Except Fault (Mobius R × List (fpoint R)))
  | 0, _, _, _ => none
  | fuel + 1, s, face, hull =>
    match s.assert_face_dim face with
    | .error e => some (.error e)
    | .ok _ =>
      match s.find_extension L face hull with
      | .error (.err _) => some (.ok (s, face))
      | .error e => some (.error e)
      | .ok (s1, fp) =>
        (List.range face.length).foldl
          (fun acc idx =>
            match acc with
            | some (.ok (st, frontier)) =>
              match create_candidate_face fp face idx with
              | .error e => some (.error e)
              | .ok x =>
                match Mobius.extend_hull_trace L fuel st x (hull ++ [fp]) with
                | some (.ok (st1, fr)) => some (.ok (st1, frontier ++ fr))
                | other => other
            | other => other)
          (some (.ok (s1, [])))

/-- Method `Mobius.clean_hull`: keep one point per label, the label being built
from the weights of the point. -/
def Mobius.clean_hull (L : Lib R) (s : Mobius R) (hull : List (fpoint R)) : List (fpoint R) :=
  let found : GoMap String (fpoint R) :=
    hull.foldl
      (fun found h =>
        let label := s.app_ids.foldl
          (fun label id => label ++ L.Sprintf1 (GoMap.get h.weights id) ++ " ") ""
        GoMap.set found label h)
      []
  GoMap.values found

/-- Function `extract_schedules`. -/
def extract_schedules (hull : List (fpoint R)) : List (Schedule R) :=
  hull.map fun h => h.schedule

/-- Method `Mobius.TraceFrontier`: trace the convex hull of allocations. -/
def Mobius.TraceFrontier (L : Lib R) (fuel : Nat) (s : Mobius R) :
    Option (Except Fault (Mobius R × List (Schedule R))) :=
  match s.init_hull L with
  | .error e => some (.error e)
  | .ok hull =>
    match Mobius.extend_hull_trace L fuel s hull hull with
    | none => none
    | some (.error e) => some (.error e)
    | some (.ok (s1, hull1)) => some (.ok (s1, extract_schedules (s1.clean_hull L hull1)))

/-! ## `app/app.go` -/

/-- Interface `app.Application`, an application with its current state: `GetID`,
`GetInterestMap` and `Update` act on the state. -/
structure Application (R σ : Type) where
  state : σ
  GetID : σ → Int
  GetInterestMap : σ → InterestMap R
  Update : σ → List (TaskData R) → Int → σ

/-- Function `app.MergeInterestMaps`. -/
def MergeInterestMaps (ims : List (InterestMap R)) : InterestMap R :=
  ims.foldl
    (fun im x =>
      (GoMap.keys x).foldl (fun im t => GoMap.set im t ((GoMap.find x t).getD TaskData.zero)) im)
    []

/-! ## `mobius/scheduler.go` -/

/-- Struct `Scheduler` (the log directory is left out).  The solver is given as
the oracle it is after `Set` with the return-to-home locations `rth`. -/
structure Scheduler (R σ : Type) where
  Applications : List (Application R σ)
  Vehicles : List (Vehicle R)
  Home : List (Location R)
  Solver : Option (List (Location R)) → MobiusSpec.Solver R
  Alpha : R
  Discount : R
  Horizon : Int
  ReplanSec : Int
  MaxRounds : Int
  Capacity : Int
  RTH : Int
  Hull : Bool
  allocation : Allocation R

/-- The solvers of package `vrp` that `Run` and `warm_start` construct themselves,
taken as they answer: the bank that `warm_start` collects, the dedicate solver (fatal
for an unsupported solver type) and the round-robin solver. -/
structure Planners (R : Type) where
  WarmStart : Mobius R → GoMap String (Schedule R)
  Dedicate : InterestMap R → List (Vehicle R) → Int → Int → Option (List (Location R)) →
    Except Fault (Schedule R)
  RoundRobin : InterestMap R → List (Vehicle R) → Int → Int → Option (List (Location R)) →
    Except Fault (Schedule R)

/-- The conversion `int(x)` of a float: truncation toward zero. -/
def truncInt [FloorRing R] (x : R) : Int := if 0 ≤ x then ⌊x⌋ else ⌈x⌉

/-- Method `Scheduler.get_interest_map`: merge the interest maps of all apps and
cap tasks by capacity; returns `(im_all, im)`. -/
def Scheduler.get_interest_map [FloorRing R] {σ : Type} (s : Scheduler R σ) :
    InterestMap R × InterestMap R :=
  let ims := s.Applications.map fun a => a.GetInterestMap a.state
  let im_all := MergeInterestMaps ims
  let im : InterestMap R :=
    (GoMap.keys im_all).foldl
      (fun im t =>
        let d := (GoMap.find im_all t).getD TaskData.zero
        let d1 :=
          if s.Capacity > 0 ∧ truncInt d.Interest > s.Capacity then
            { d with Interest := (s.Capacity : R), TaskTimeSeconds := (s.Capacity : R) }
          else d
        GoMap.set im t d1)
      []
  (im_all, im)

/-- The loop of `update_vehicles` over `(i, route)`; a route without a vehicle
panics. -/
def update_vehicles_loop :
    List (Nat × Route R) → List (Vehicle R) → Except Fault (List (Vehicle R))
  | [], vehicles => .ok vehicles
  | (i, route) :: rest, vehicles =>
    match vehicles.get? i with
    | none => .error (.panic "index out of range")
    | some v => update_vehicles_loop rest (vehicles.set i { v with Location := route.VehicleEnd })

/-- Method `Scheduler.update_vehicles`: update the vehicle positions. -/
def Scheduler.update_vehicles {σ : Type} (s : Scheduler R σ) (schedule : Schedule R) :
    Except Fault (Scheduler R σ) :=
  match update_vehicles_loop schedule.Routes.enum s.Vehicles with
  | .error e => .error e
  | .ok vehicles => .ok { s with Vehicles := vehicles }

/-- The map of completed tasks by app that `update_apps` builds. -/
def app_tasks (schedule : Schedule R) (time : Int) : GoMap Int (List (TaskData R)) :=
  schedule.Routes.foldl
    (fun m route =>
      route.Path.foldl
        (fun m task =>
          let task1 := { task with FulfillTime := time + task.FulfillTime }
          if task1.Destination.Longitude ≠ (INVALID_LOC : R)
              ∧ task1.Destination.Latitude ≠ (INVALID_LOC : R)
          then GoMap.set m task1.AppID (((GoMap.find m task1.AppID).getD []) ++ [task1])
          else m)
        m)
    []

/-- Method `Scheduler.update_apps`: inform the apps of the completed tasks. -/
def Scheduler.update_apps {σ : Type} (s : Scheduler R σ) (schedule : Schedule R)
    (time : Int) : Scheduler R σ :=
  { s with
    Applications := s.Applications.map fun app =>
      { app with
        state := app.Update app.state
          ((GoMap.find (app_tasks schedule time) (app.GetID app.state)).getD [])
          (time + s.ReplanSec) } }

/-- The variables of the loop of `Run`; `trimmed` records the trimmed schedule of
every round so far, latest first. -/
structure RunState (R σ : Type) where
  s : Scheduler R σ
  sp : Mobius R
  im_all : InterestMap R
  im : InterestMap R
  round : Int
  budget_time : Int
  total_time : Int
  trimmed : List (Schedule R)

/-- The step "find schedule" of a round of `Run`: Mobius when `α > 0`, otherwise
the solver, the dedicate solver or the round-robin solver. -/
def Scheduler.find_schedule {σ : Type} (L : Lib R) (P : Planners R) (fuel : Nat)
    (s : Scheduler R σ) (sp : Mobius R) (rth : Option (List (Location R))) :
    Option (Except Fault (Mobius R × Schedule R)) :=
  if s.Alpha > 0 then
    match sp.Init (P.WarmStart sp) with
    | .error e => some (.error e)
    | .ok sp1 =>
      match sp1.SearchFrontier L fuel with
      | none => none
      | some (.error e) => some (.error e)
      | some (.ok (sp2, schedule)) =>
        if s.Hull then
          match sp2.TraceFrontier L fuel with
          | none => none
          | some (.error e) => some (.error e)
          | some (.ok (sp3, _)) => some (.ok (sp3, schedule))
        else some (.ok (sp2, schedule))
  else if s.Alpha = 0 then
    some (.ok (sp, sp.Solver sp.InterestMap sp.InterestMap s.Vehicles s.Horizon s.Capacity
      Schedule.zero))
  else if s.Alpha = -1 then
    match P.Dedicate sp.InterestMap sp.Vehicles sp.Horizon sp.Capacity rth with
    | .error e => some (.error e)
    | .ok schedule => some (.ok (sp, schedule))
  else if s.Alpha = -2 then
    match P.RoundRobin sp.InterestMap sp.Vehicles sp.Horizon sp.Capacity rth with
    | .error e => some (.error e)
    | .ok schedule => some (.ok (sp, schedule))
  else some (.ok (sp, Schedule.zero))

/-- The update of the cumulative allocation in `Run`:
`s.allocation[id] += a` for every entry of the schedule's allocation. -/
def accumulate (allocation schedule_allocation : Allocation R) : Allocation R :=
  (GoMap.keys schedule_allocation).foldl
    (fun allocation id =>
      GoMap.set allocation id (GoMap.get allocation id + GoMap.get schedule_allocation id))
    allocation

/-- One pass through the body of the loop of `Run`. -/
def Scheduler.round [FloorRing R] {σ : Type} (L : Lib R) (P : Planners R) (fuel : Nat)
    (st : RunState R σ) : Option (Except Fault (RunState R σ)) :=
  let s := st.s
  let gate : Bool := decide (s.RTH > 0 ∧ st.budget_time + s.Horizon ≥ s.RTH)
  let rth : Option (List (Location R)) := if gate then some s.Home else none
  let budget_time : Int := if gate then 0 else st.budget_time
  let sp : Mobius R :=
    { st.sp with
      InterestMap := st.im, Solver := s.Solver rth, Vehicles := s.Vehicles
      Historical := s.allocation }
  match s.find_schedule L P fuel sp rth with
  | none => none
  | some (.error e) => some (.error e)
  | some (.ok (sp1, schedule)) =>
    let schedule1 := schedule.Trim s.ReplanSec
    let s1 : Scheduler R σ := { s with allocation := accumulate s.allocation schedule1.Allocation }
    match s1.update_vehicles schedule1 with
    | .error e => some (.error e)
    | .ok s2 =>
      let s3 := s2.update_apps schedule1 st.total_time
      let ims := s3.get_interest_map
      some (.ok
        { s := s3, sp := sp1, im_all := ims.1, im := ims.2, round := st.round + 1
          budget_time := budget_time + s.ReplanSec, total_time := st.total_time + s.ReplanSec
          trimmed := schedule1 :: st.trimmed })

/-- The loop of `Run`, for at most `n` further rounds. -/
def Scheduler.run_loop [FloorRing R] {σ : Type} (L : Lib R) (P : Planners R) (fuel : Nat) :
    Nat → RunState R σ → Option (Except Fault (RunState R σ))
  | 0, st => some (.ok st)
  | n + 1, st =>
    if GoMap.len st.im_all > 0 ∧ st.round < st.s.MaxRounds then
      match Scheduler.round L P fuel st with
      | some (.ok st1) => Scheduler.run_loop L P fuel n st1
      | other => other
    else some (.ok st)

/-- Method `Scheduler.Run`: run Mobius for multiple rounds.  The loop makes at most
`MaxRounds` passes, since `round` starts at 0 and grows by one per pass. -/
def Scheduler.Run [FloorRing R] {σ : Type} (L : Lib R) (P : Planners R) (fuel : Nat)
    (s : Scheduler R σ) : Option (Except Fault (RunState R σ)) :=
  let s0 : Scheduler R σ := { s with allocation := [] }
  let ims := s0.get_interest_map
  let sp : Mobius R :=
    { InterestMap := ims.2, Solver := s0.Solver none, Vehicles := s0.Vehicles
      Horizon := s0.Horizon, Capacity := s0.Capacity, Historical := s0.allocation
      Alpha := s0.Alpha, Discount := s0.Discount, app_ids := [], num_apps := 0
      min_app_id := 0, heuristics := [], last_face := none }
  Scheduler.run_loop L P fuel s.MaxRounds.toNat
    { s := s0, sp := sp, im_all := ims.1, im := ims.2, round := 0, budget_time := 0
      total_time := 0, trimmed := [] }

/-! ## `mobius/mobius.go`: the frontier log -/

/-- The loop of `get_csv_row`: `row[id+1] = Sprintf("%0.2f", alloc[id])` for every
app id; an index outside the row panics. -/
def get_csv_row_loop (L : Lib R) (alloc : Allocation R) :
    List Int → List String → Except Fault (List String)
  | [], row => .ok row
  | id :: ids, row =>
    if 0 ≤ id + 1 ∧ (id + 1).toNat < row.length then
      get_csv_row_loop L alloc ids (row.set (id + 1).toNat (L.Sprintf2 (GoMap.get alloc id)))
    else .error (.panic "index out of range")

/-- Method `Mobius.get_csv_row`; the field `Dir` of the state is the argument `dir`. -/
def Mobius.get_csv_row (L : Lib R) (s : Mobius R) (dir solver : String) (alloc : Allocation R) :
    Except Fault (List String) :=
  let row : List String := List.replicate (2 + s.num_apps) ""
  get_csv_row_loop L alloc s.app_ids ((row.set 0 dir).set 1 solver)

/-! ## `vrp/roi.go` -/

/-- Struct `RoiSolver` (the field `solver` is not used). -/
structure RoiSolver (R : Type) where
  interest_map : InterestMap R
  vehicles : List (Vehicle R)
  budget : Int
  unweighted_interest_map : InterestMap R
  Alpha : R

/-- The value `x` of an entry of the allocation in `RoiSolver.utility`, with the
interest of the task `td` added when the task is of the app `id`. -/
def roi_entry (a : Allocation R) (td : Option (TaskData R)) (id : Int) : R :=
  match td with
  | some d => if d.AppID = id then GoMap.get a id + d.Interest else GoMap.get a id
  | none => GoMap.get a id

/-- Method `RoiSolver.utility`: the alpha-utility of an allocation, with the task
`td`, if any, incorporated (`EPSILON` of package `vrp` is 0.1 as well). -/
def RoiSolver.utility (L : Lib R) (r : RoiSolver R) (a : Allocation R)
    (td : Option (TaskData R)) : R :=
  if r.Alpha = 1 then
    (GoMap.keys a).foldl
      (fun u id =>
        if roi_entry a td id > 0 then u + L.Log (roi_entry a td id) else u + L.Log EPSILON)
      0
  else
    (GoMap.keys a).foldl
      (fun u id =>
        if roi_entry a td id > 0 then
          u + L.Pow (roi_entry a td id) (1 - r.Alpha) / (1 - r.Alpha)
        else u + L.Pow EPSILON (1 - r.Alpha) / (1 - r.Alpha))
      0

/-- The loop of `reweight_alpha` over the tasks: fatal when the utility with the
task is below the current utility. -/
def RoiSolver.reweight_alpha_loop (L : Lib R) (r : RoiSolver R) (im : InterestMap R)
    (h : Allocation R) (curr_util : R) :
    List (Task R) → InterestMap R → Except Fault (InterestMap R)
  | [], imw => .ok imw
  | task :: tasks, imw =>
    let data := (GoMap.find im task).getD TaskData.zero
    let next_util := r.utility L h (some data)
    if curr_util > next_util then
      .error (.fatal "[vrp] curr util > next util in ROI")
    else
      RoiSolver.reweight_alpha_loop L r im h curr_util tasks
        (GoMap.set imw task
          { AppID := data.AppID, Location := data.Location, Destination := ⟨0, 0⟩
            Interest := next_util - curr_util, TaskTimeSeconds := data.TaskTimeSeconds
            RequestTime := 0, FulfillTime := 0 })

/-- Method `RoiSolver.reweight_alpha`. -/
def RoiSolver.reweight_alpha (L : Lib R) (r : RoiSolver R) (im : InterestMap R)
    (h : Allocation R) : Except Fault (InterestMap R) :=
  r.reweight_alpha_loop L im h (r.utility L h none) (GoMap.keys im) []

/-! ## `vrp/rr.go` -/

/-- Method `InterestMap.FilterByApp`. -/
def FilterByApp (im : InterestMap R) (id : Int) : InterestMap R :=
  (GoMap.keys im).foldl
    (fun ima t =>
      if t.AppID = id then GoMap.set ima t ((GoMap.find im t).getD TaskData.zero) else ima)
    []

/-- Method `TaskData.GetTask`. -/
def TaskData.GetTask (t : TaskData R) : Task R :=
  { Location := t.Location, Destination := t.Destination, AppID := t.AppID
    RequestTime := t.RequestTime }

/-- The builtin `delete(m, k)`. -/
def GoMap.delete {K V : Type} [DecidableEq K] (m : GoMap K V) (k : K) : GoMap K V :=
  m.filter fun e => decide (e.1 ≠ k)

/-- Function `travel_time` of `vrp/cost.go`, taken as it answers: source,
destination, speed and task time. -/
abbrev TravelTime (R : Type) := Location R → Location R → R → R → Int

/-- Struct `RoundRobinSolver` (the field `solver` is not used); `rth` is `none`
for a nil slice. -/
structure RoundRobinSolver (R : Type) where
  interest_map : InterestMap R
  vehicles : List (Vehicle R)
  budget : Int
  rth : Option (List (Location R))

/-- Method `RoundRobinSolver.next_task`: the task of the app with the least travel
time; reading `tasks[0]` of an empty slice panics. -/
def RoundRobinSolver.next_task (L : Lib R) (tt : TravelTime R) (v : Vehicle R)
    (im : InterestMap R) (app_id : Int) : Except Fault (TaskData R × Int) :=
  let ima := FilterByApp im app_id
  let tasks : List (TaskData R × Int) :=
    (GoMap.keys ima).map fun task =>
      let data := (GoMap.find ima task).getD TaskData.zero
      (data, tt v.Location task.Location v.Speed data.TaskTimeSeconds)
  match L.SortTasks (fun a b => decide (a.2 < b.2)) tasks with
  | [] => .error (.panic "index out of range [0] with length 0")
  | t :: _ => .ok t

/-- Method `RoundRobinSolver.travel_time_home`. -/
def RoundRobinSolver.travel_time_home (tt : TravelTime R) (v : Vehicle R) (h loc : Location R) :
    Int :=
  tt loc h v.Speed 0

/-- The variables of the loop of `Solve` for one vehicle. -/
structure rr_vehicle (R : Type) where
  im : InterestMap R
  allocation : Allocation R
  vehicle : Vehicle R
  path : List (TaskData R)
  interest : R
  time : Int

/-- The loop `for _, app := range app_ids` of `Solve` for the vehicle `i`; the flag
tells whether `break out` was taken. -/
def RoundRobinSolver.visit_apps (L : Lib R) (tt : TravelTime R) (r : RoundRobinSolver R)
    (i : Nat) : List Int → rr_vehicle R → Except Fault (rr_vehicle R × Bool)
  | [], st => .ok (st, false)
  | app :: apps, st =>
    match RoundRobinSolver.next_task L tt st.vehicle st.im app with
    | .error e => .error e
    | .ok (next, t) =>
      let th : Except Fault Int :=
        match r.rth with
        | some rth =>
          match rth.get? i with
          | some h => .ok (RoundRobinSolver.travel_time_home tt st.vehicle h next.Location)
          | none => .error (.panic "index out of range")
        | none => .ok 0
      match th with
      | .error e => .error e
      | .ok th =>
        if st.time + t + th ≥ r.budget then .ok (st, true)
        else
          let gain := ((GoMap.find r.interest_map next.GetTask).getD TaskData.zero).Interest
          RoundRobinSolver.visit_apps L tt r i apps
            { im := GoMap.delete st.im next.GetTask
              allocation := GoMap.set st.allocation app (GoMap.get st.allocation app + gain)
              vehicle := { st.vehicle with Location := next.Location }
              path := st.path ++ [next]
              interest := st.interest + gain
              time := st.time + t }

/-- The loop `for time <= r.budget` of `Solve`, cut after `fuel` passes (`none`). -/
def RoundRobinSolver.fill (L : Lib R) (tt : TravelTime R) (r : RoundRobinSolver R) (i : Nat)
    (app_ids : List Int) : Nat → rr_vehicle R → Option (Except Fault (rr_vehicle R))
  | 0, _ => none
  | fuel + 1, st =>
    if st.time ≤ r.budget then
      match RoundRobinSolver.visit_apps L tt r i app_ids st with
      | .error e => some (.error e)
      | .ok (st1, true) => some (.ok st1)
      | .ok (st1, false) => RoundRobinSolver.fill L tt r i app_ids fuel st1
    else some (.ok st)

/-- The end of the loop body of `Solve` for the vehicle `i`: the route, whose end
is read from the last task of the path; reading it in an empty path panics. -/
def RoundRobinSolver.route (tt : TravelTime R) (r : RoundRobinSolver R) (i : Nat)
    (start : Location R) (st : rr_vehicle R) : Except Fault (Route R) :=
  match st.path.getLast? with
  | none => .error (.panic "index out of range [-1]")
  | some last =>
    match r.rth with
    | some rth =>
      match rth.get? i with
      | none => .error (.panic "index out of range")
      | some e =>
        .ok { Path := st.path, TotalInterest := st.interest
              TotalTime := st.time + RoundRobinSolver.travel_time_home tt st.vehicle e last.Location
              VehicleStart := start, VehicleEnd := e }
    | none =>
      .ok { Path := st.path, TotalInterest := st.interest, TotalTime := st.time
            VehicleStart := start, VehicleEnd := last.Location }

/-- The loop of `Solve` over the vehicles. -/
def RoundRobinSolver.solve_vehicles (L : Lib R) (tt : TravelTime R) (r : RoundRobinSolver R)
    (app_ids : List Int) (fuel : Nat) :
    List (Nat × Vehicle R) → InterestMap R → Schedule R → Option (Except Fault (Schedule R))
  | [], _, s => some (.ok s)
  | (i, vehicle) :: rest, im, s =>
    match RoundRobinSolver.fill L tt r i app_ids fuel
        { im := im, allocation := s.Allocation, vehicle := vehicle, path := [], interest := 0
          time := 0 } with
    | none => none
    | some (.error e) => some (.error e)
    | some (.ok st) =>
      match RoundRobinSolver.route tt r i vehicle.Location st with
      | .error e => some (.error e)
      | .ok route =>
        RoundRobinSolver.solve_vehicles L tt r app_ids fuel rest st.im
          { s with Routes := s.Routes ++ [route], Allocation := st.allocation }

/-- Method `RoundRobinSolver.Solve`. -/
def RoundRobinSolver.Solve (L : Lib R) (tt : TravelTime R) (fuel : Nat)
    (r : RoundRobinSolver R) : Option (Except Fault (Schedule R)) :=
  match RoundRobinSolver.solve_vehicles L tt r (GetApps r.interest_map) fuel r.vehicles.enum
      r.interest_map { Schedule.zero with Allocation := [] } with
  | some (.ok s) => some (.ok { s with Stats := { s.Stats with Alpha := -2 } })
  | other => other

/-! ## Notions of the specification -/

/-- The allocation of app `id` at the `i`-th point of a face (zero past the end). -/
def allocAt (face : List (fpoint R)) (i : Nat) (id : Int) : R :=
  ((face.get? i).map fun f => GoMap.get f.schedule.Allocation id).getD 0

/-- The points of a face, read at the apps `ids`, are affinely dependent: there are
coefficients, one per point and not all zero, that sum to zero and combine the
allocations of every app of `ids` to zero. -/
def AffinelyDependent (ids : List Int) (face : List (fpoint R)) : Prop :=
  ∃ μ : Nat → R, (∃ i, i < face.length ∧ μ i ≠ 0) ∧
    ∑ i in Finset.range face.length, μ i = 0 ∧
    ∀ id ∈ ids, ∑ i in Finset.range face.length, μ i * allocAt face i id = 0

/-- The function `φ` of the alpha-fair utility: `log x` when `α = 1`, otherwise
`x^(1−α)/(1−α)`. -/
def phi (L : Lib R) (alpha x : R) : R :=
  if alpha = 1 then L.Log x else L.Pow x (1 - alpha) / (1 - alpha)

/-- The argument of `φ` with the floor: `x` when positive, `ε = 0.1` otherwise. -/
def floored (x : R) : R := if x > 0 then x else EPSILON

/-- The utility as the specification writes it: the sum over the active app ids of
`φ` at the floored `δ·h_i + a_i`, missing entries counting as zero. -/
def utilitySpec (L : Lib R) (s : Mobius R) (a : Allocation R) : R :=
  ∑ id in s.app_ids.toFinset,
    phi L s.Alpha (floored (s.Discount * GoMap.get s.Historical id + GoMap.get a id))

/-- The allocation that gives the app `app_ids[i]` the `i`-th coordinate of `x`. -/
def Mobius.pointAllocation (s : Mobius R) (x : List R) : Allocation R := s.app_ids.zip x

/-- The contract of `sort.Slice` for the comparison of `choose_init_schedule`: the
sorted slice is a permutation of the slice, and no element has a higher weighted
reward than an element before it.  Nothing is promised about ties. -/
def Lib.SortsByReward (L : Lib R) : Prop :=
  ∀ l : List (ws_schedule R),
    (L.SortSlice (fun a b => decide (a.weighted_reward > b.weighted_reward)) l).Perm l ∧
    (L.SortSlice (fun a b => decide (a.weighted_reward > b.weighted_reward)) l).Pairwise
      (fun a b => b.weighted_reward ≤ a.weighted_reward)

/-- Two allocations are equal componentwise across all apps: every app id present
in either allocation has the same value in both. -/
def SameAllocation (a b : Allocation R) : Prop :=
  ∀ id, (id ∈ GoMap.keys a ∨ id ∈ GoMap.keys b) → GoMap.get a id = GoMap.get b id

/-- The contract of `sort.Slice` for the comparison of `SearchFrontier`: the sorted
face is a permutation of the face, and no point is less than a point before it. -/
def Lib.SortsFaces (L : Lib R) : Prop :=
  ∀ l : List (fpoint R),
    (L.SortFace face_less l).Perm l ∧
    (L.SortFace face_less l).Pairwise (fun a b => face_less b a = false)

/-- The index at which `Trim` cuts a path: that of the first task whose fulfill
time exceeds `time`, the last index when there is none. -/
def cutIndex (time : Int) : List (TaskData R) → Nat
  | [] => 0
  | [_] => 0
  | t :: t1 :: rest => if t.FulfillTime > time then 0 else cutIndex time (t1 :: rest) + 1

/-- The tasks of a path that `Trim` visits: those up to and including the cut. -/
def scanned (time : Int) (path : List (TaskData R)) : List (TaskData R) :=
  path.take (cutIndex time path + 1)

/-- The task counts for the allocation in `Trim`: neither coordinate of its
destination is the sentinel coordinate. -/
def counts (t : TaskData R) : Prop :=
  t.Destination.Latitude ≠ (INVALID_LOC : R) ∧ t.Destination.Longitude ≠ (INVALID_LOC : R)

instance (t : TaskData R) : Decidable (counts t) := by
  unfold counts; infer_instance

/-- The number of tasks of the app `id` in a list that count for the allocation. -/
def countFor (id : Int) (tasks : List (TaskData R)) : Nat :=
  (tasks.filter fun t => decide (counts t ∧ t.AppID = id)).length

/-- The destination of a task is not the sentinel location `(-1, -1)`. -/
def hasDestination (t : TaskData R) : Prop :=
  t.Destination ≠ ⟨(INVALID_LOC : R), (INVALID_LOC : R)⟩

/-- The value of a task in the last map of the list that contains the task. -/
def lastValue (ims : List (InterestMap R)) (t : Task R) : Option (TaskData R) :=
  match ims.reverse.find? fun x => decide (t ∈ GoMap.keys x) with
  | some x => GoMap.find x t
  | none => none

/-- The entry of `im` that `get_interest_map` makes of the entry `d` of `im_all`. -/
def capped [FloorRing R] (capacity : Int) (d : TaskData R) : TaskData R :=
  if capacity > 0 ∧ truncInt d.Interest > capacity then
    { d with Interest := (capacity : R), TaskTimeSeconds := (capacity : R) }
  else d

/-- The index of the last task that `Trim` keeps: the cut index, or the next index
when the destination latitude of the cut task is 0 and the cut task is not the
last task of the path. -/
def keepIndex (time : Int) (path : List (TaskData R)) : Nat :=
  if ((path.get? (cutIndex time path)).getD TaskData.zero).Destination.Latitude = 0
      ∧ cutIndex time path < path.length - 1
  then cutIndex time path + 1 else cutIndex time path

/-- One step of the count of `Trim`: `alloc[t.AppID] += 1` when the task counts. -/
def bump (alloc : Allocation R) (t : TaskData R) : Allocation R :=
  if counts t then GoMap.set alloc t.AppID (GoMap.get alloc t.AppID + 1) else alloc

/-- The tasks that `Trim` visits over all the routes of a schedule. -/
def scannedTasks (time : Int) (s : Schedule R) : List (TaskData R) :=
  s.Routes.flatMap fun r => scanned time r.Path

/-- The tasks of all the paths of a schedule. -/
def allTasks (s : Schedule R) : List (TaskData R) :=
  s.Routes.flatMap fun r => r.Path

/-- Some route of the schedule has a task. -/
def anyPath (s : Schedule R) : Bool :=
  s.Routes.any fun r => decide (r.Path.length ≠ 0)

/-- The route that `Trim` makes of a route: a route without tasks is left as it
is; otherwise the path is cut after the index `keepIndex` and the vehicle ends at
the location of the task at the cut index. -/
def trimmedRoute (time : Int) (r : Route R) : Route R :=
  if r.Path.length = 0 then r
  else
    { r with
      Path := r.Path.take (keepIndex time r.Path + 1)
      VehicleEnd := ((r.Path.get? (cutIndex time r.Path)).getD TaskData.zero).Location }

/-- Return-to-home is engaged in the round that starts in `st`: the test of `Run`
on `RTH`, `budget_time` and `Horizon`. -/
def rthEngaged {σ : Type} (st : RunState R σ) : Prop :=
  st.s.RTH > 0 ∧ st.budget_time + st.s.Horizon ≥ st.s.RTH

instance {σ : Type} (st : RunState R σ) : Decidable (rthEngaged st) := by
  unfold rthEngaged; infer_instance

/-- The Mobius state that a round of `Run` plans with, the solver being set with
the return-to-home locations `rth`. -/
def planState {σ : Type} (st : RunState R σ) (rth : Option (List (Location R))) : Mobius R :=
  { st.sp with
    InterestMap := st.im, Solver := st.s.Solver rth, Vehicles := st.s.Vehicles
    Historical := st.s.allocation }

/-- The tasks that `update_apps` passes to the application of id `id`: the tasks of
the schedule, in the order of the routes, of that app and with both destination
coordinates different from the sentinel, their fulfill times moved by `time`. -/
def dispatched (schedule : Schedule R) (time : Int) (id : Int) : List (TaskData R) :=
  ((allTasks schedule).filter fun t => decide (counts t ∧ t.AppID = id)).map
    fun t => { t with FulfillTime := time + t.FulfillTime }

/-- The weights of the solve of `init_hull` for the app `i`: one for `i`, zero for
the other app ids. -/
def oneHot (ids : List Int) (i : Int) : GoMap Int R :=
  ids.foldl (fun weights idx => GoMap.set weights idx (if idx = i then 1 else 0)) []

/-- The loop of `extend_hull_search` over the indices of the face, with the
candidate face written as the new point followed by the face without the point at
the index, and without any index check. -/
def Mobius.first_candidate_unchecked (L : Lib R) (s : Mobius R) (fp : fpoint R)
    (face : List (fpoint R)) : List Nat → Except Fault (Option (List (fpoint R)))
  | [] => .ok none
  | idx :: rest =>
    match s.eval_face L (fp :: face.eraseIdx idx) with
    | .error e => .error e
    | .ok true => .ok (some (fp :: face.eraseIdx idx))
    | .ok false => Mobius.first_candidate_unchecked L s fp face rest

/-- The search of `extend_hull_search` without the dimension assertion and without
the index checks of `create_candidate_face`. -/
def Mobius.search_unchecked (L : Lib R) :
    Nat → Mobius R → List (fpoint R) → List (fpoint R) →
      Option (Except Fault (Mobius R × List (fpoint R)))
  | 0, _, _, _ => none
  | fuel + 1, s, face, hull =>
    match s.find_extension L face hull with
    | .error (.err _) => some (.ok (s, face))
    | .error e => some (.error e)
    | .ok (s1, fp) =>
      match s1.first_candidate_unchecked L fp face (List.range face.length) with
      | .error e => some (.error e)
      | .ok (some x) => Mobius.search_unchecked L fuel s1 x (hull ++ [fp])
      | .ok none => some (.ok (s1, face ++ [fp]))

/-- The oracle answers, up to the value of every app, only with allocations of the
list `allocs`. -/
def SolverRange (solver : Solver R) (allocs : List (Allocation R)) : Prop :=
  ∀ imw im vehicles horizon capacity init,
    ∃ a ∈ allocs, ∀ id,
      GoMap.get (solver imw im vehicles horizon capacity init).Allocation id = GoMap.get a id

/-- The number of allocations of the list that `contains` does not find in the hull. -/
def unseen (hull : List (fpoint R)) (allocs : List (Allocation R)) : Nat :=
  allocs.countP fun a => !contains hull a

/-- Adding the interest `i` to the entry `x` keeps clear of the floor: the entry is
positive already, or the sum reaches `ε`, or the sum stays non-positive. -/
def safeStep (x i : R) : Prop := 0 < x ∨ EPSILON ≤ x + i ∨ x + i ≤ 0

/-- The tie rule of `sort.Slice` for the comparison of `choose_init_schedule`: a
slice in which no element has a higher weighted reward than an element before it
is already in order, no comparison asks for a swap, and the slice is left as it
is. -/
def Lib.KeepsOrdered (L : Lib R) : Prop :=
  ∀ l : List (ws_schedule R),
    l.Pairwise (fun a b => b.weighted_reward ≤ a.weighted_reward) →
    L.SortSlice (fun a b => decide (a.weighted_reward > b.weighted_reward)) l = l

/-! ## State invariant -/

/-- The state invariant that `Init` establishes: the app ids are strictly
increasing, `num_apps` is their number and `min_app_id` is the first of them. -/
structure Mobius.Initialized (s : Mobius R) : Prop where
  sorted : s.app_ids.Sorted (· < ·)
  num : s.num_apps = s.app_ids.length
  first : s.app_ids.head? = some s.min_app_id

end Code

/-! ## Library instances and sample data -/

/-- A library instance over `ℚ` for evaluating the code that calls neither
`math.Log` nor `math.Pow` (both are constant here); `sort.Slice` is an insertion
sort. -/
def ratLib : Lib ℚ :=
  { Log := fun _ => 0
    Pow := fun _ _ => 0
    Sprintf2 := fun _ => ""
    SortSlice := fun less l => l.insertionSort (fun a b => less b a = false)
    LeastSquares := fun _ _ => .error (.err "not a square system")
    Sprintf1 := fun _ => ""
    SortFace := fun less l => l.insertionSort (fun a b => less b a = false)
    SortTasks := fun less l => l.insertionSort (fun a b => less b a = false) }

/-- A task of app `app` at latitude `lat`, of interest one. -/
def sampleTask (app : Int) (lat : ℚ) : Task ℚ × TaskData ℚ :=
  ({ AppID := app, Location := ⟨lat, 0⟩, Destination := ⟨-1, -1⟩, RequestTime := 0 },
   { AppID := app, Location := ⟨lat, 0⟩, Destination := ⟨-1, -1⟩, Interest := 1,
     TaskTimeSeconds := 1, RequestTime := 0, FulfillTime := 0 })

/-- A schedule that carries the allocation `a` and nothing else. -/
def scheduleOf {R : Type} [Zero R] (a : Allocation R) : Schedule R :=
  { Schedule.zero with Allocation := a }

/-- A frontier point that carries the allocation `a` and nothing else. -/
def pointOf {R : Type} [Zero R] (a : Allocation R) : fpoint R :=
  { schedule := scheduleOf a, utility := 0, weights := [] }

/-- A state before `Init`: tasks of the apps 1 and 0, a solver that returns its
initial schedule. -/
def sampleState0 : Mobius ℚ :=
  { InterestMap := [sampleTask 1 5, sampleTask 0 3, sampleTask 1 7]
    Solver := fun _ _ _ _ _ init => init
    Vehicles := [], Horizon := 360, Capacity := 0, Historical := [], Alpha := 1, Discount := 1
    app_ids := [], num_apps := 0, min_app_id := 0, heuristics := [], last_face := none }

/-- The state `sampleState0` after `Init`. -/
def sampleState : Mobius ℚ :=
  { sampleState0 with app_ids := [0, 1], num_apps := 2, min_app_id := 0 }

/-- The face through the allocations `(2, 0)` and `(0, 2)`. -/
def sampleFace : List (fpoint ℚ) := [pointOf [(0, 2), (1, 0)], pointOf [(0, 0), (1, 2)]]

/-- The face through the allocations `(1, 1)` and `(2, 1)`: two different points
on a line parallel to the axis of the anchor app 0. -/
def parallelFace : List (fpoint ℚ) := [pointOf [(0, 1), (1, 1)], pointOf [(0, 2), (1, 1)]]

/-- The library over `ℝ`: `math.Log` is the real logarithm, `math.Pow` the real
power; `sort.Slice` is an insertion sort. -/
noncomputable def realLib : Lib ℝ :=
  { Log := Real.log
    Pow := fun x y => x ^ y
    Sprintf2 := fun _ => ""
    SortSlice := fun less l => l.insertionSort (fun a b => less b a = false)
    LeastSquares := fun _ _ => .error (.err "not a square system")
    Sprintf1 := fun _ => ""
    SortFace := fun less l => l.insertionSort (fun a b => less b a = false)
    SortTasks := fun less l => l.insertionSort (fun a b => less b a = false) }

/-- An initialized two-app state over `ℝ` with the given `α` and history, discount
one, and a solver that returns its initial schedule. -/
noncomputable def realState (alpha : ℝ) (hist : Allocation ℝ) : Mobius ℝ :=
  { InterestMap := []
    Solver := fun _ _ _ _ _ init => init
    Vehicles := [], Horizon := 360, Capacity := 0, Historical := hist, Alpha := alpha
    Discount := 1, app_ids := [0, 1], num_apps := 2, min_app_id := 0, heuristics := []
    last_face := none }

/-- The face through the allocations `(2, 0)` and `(0, 2)`, over `ℝ`. -/
noncomputable def realFace : List (fpoint ℝ) :=
  [pointOf [(0, 2), (1, 0)], pointOf [(0, 0), (1, 2)]]

/-- The face through the allocations `(3, 1)` and `(1, 3)`, over `ℝ`. -/
noncomputable def positiveFace : List (fpoint ℝ) :=
  [pointOf [(0, 3), (1, 1)], pointOf [(0, 1), (1, 3)]]

/-- The face through the allocations `(0.1, 0)` and `(0, 0.1)`, over `ℝ`. -/
noncomputable def tinyFace : List (fpoint ℝ) :=
  [pointOf [(0, 1 / 10), (1, 0)], pointOf [(0, 0), (1, 1 / 10)]]

/-- An initialized three-app state over `ℝ` with `α = 1`, no history, discount one. -/
noncomputable def realState3 : Mobius ℝ :=
  { InterestMap := []
    Solver := fun _ _ _ _ _ init => init
    Vehicles := [], Horizon := 360, Capacity := 0, Historical := [], Alpha := 1
    Discount := 1, app_ids := [0, 1, 2], num_apps := 3, min_app_id := 0, heuristics := []
    last_face := none }

/-- A face of three points on the plane `x₀ + x₁ + x₂ = 6000`, all of whose
allocations exceed 1000. -/
noncomputable def largeFace : List (fpoint ℝ) :=
  [pointOf [(0, 2100), (1, 1900), (2, 2000)], pointOf [(0, 2100), (1, 2000), (2, 1900)],
   pointOf [(0, 2200), (1, 2100), (2, 1700)]]

/-- The state `sampleState` with a solver that always returns the allocation
`(1, 1)`, a point of the line `x₀ + x₁ = 2`. -/
def onFaceState : Mobius ℚ :=
  { sampleState with Solver := fun _ _ _ _ _ _ => scheduleOf [(0, 1), (1, 1)] }

/-- The state `sampleState` with a bank of two schedules, of allocations `(1, 4)`
and `(3, 1)`. -/
def bankState : Mobius ℚ :=
  { sampleState with
    heuristics :=
      [("maxthp", scheduleOf [(0, 1), (1, 4)]), ("dedicate", scheduleOf [(0, 3), (1, 1)])] }

/-- The frontier point that `find_extension` returns in `onFaceState`. -/
def onFacePoint : fpoint ℚ :=
  { schedule :=
      { Routes := [], Allocation := [(0, 1), (1, 1)]
        Stats := { Weights := [(1, 1), (0, 1)], Alpha := 1, Bound := 0 } }
    utility := 0
    weights := [(1, 1), (0, 1)] }

/-- The state after `find_extension` in `onFaceState`: the bank holds the schedule
of `onFacePoint` under the label of its weights. -/
def onFaceState1 : Mobius ℚ :=
  { onFaceState with heuristics := [("weight___", onFacePoint.schedule)] }

/-- A hull of one point whose allocation has an entry for app 0 only. -/
def partialHull : List (fpoint ℚ) := [pointOf [(0, 5)]]

/-- The digits of `n` padded with zeros on the left to `width` characters. -/
def padDigits (width n : Nat) : String :=
  String.mk (List.replicate (width - (Nat.repr n).length) '0') ++ Nat.repr n

/-- The verb `%0.<digits>f` of `fmt.Sprintf` on an exact rational: the sign, the
integer part, a point and `digits` decimals, rounded half to even. -/
def fixedString (digits : Nat) (x : ℚ) : String :=
  let scaled : Nat := x.num.natAbs * 10 ^ digits
  let lower : Nat := scaled / x.den
  let rest : Nat := scaled % x.den
  let n : Nat :=
    if 2 * rest < x.den then lower
    else if x.den < 2 * rest then lower + 1
    else if lower % 2 = 0 then lower else lower + 1
  (if x.num < 0 then "-" else "") ++ Nat.repr (n / 10 ^ digits) ++ "."
    ++ padDigits digits (n % 10 ^ digits)

/-- The library `ratLib` with the decimal formatting of `fmt.Sprintf`. -/
def fmtLib : Lib ℚ :=
  { ratLib with Sprintf1 := fixedString 1, Sprintf2 := fixedString 2 }

/-- The state after `find_extension` in `onFaceState` with the library `fmtLib`. -/
def fmtState1 : Mobius ℚ :=
  { onFaceState with heuristics := [("weight_1.00_1.00_", onFacePoint.schedule)] }

/-- The state after a second `find_extension` on the same face, started in
`fmtState1`. -/
def fmtState2 : Mobius ℚ :=
  { onFaceState with
    heuristics :=
      [("weight_1.00_1.00_", onFacePoint.schedule), ("weight_1.00_1.00_", onFacePoint.schedule)] }

/-- The state `sampleState` with the face through `(2, 0)` and `(0, 2)` kept as
`last_face` from an earlier search. -/
def reuseState : Mobius ℚ :=
  { sampleState with last_face := some sampleFace }

/-- A task fulfilled at time 100 whose destination is `(0, 0)`. -/
def pickupTask : TaskData ℚ :=
  { AppID := 1, Location := ⟨1, 1⟩, Destination := ⟨0, 0⟩, Interest := 1, TaskTimeSeconds := 1
    RequestTime := 0, FulfillTime := 100 }

/-- A task fulfilled at time 200. -/
def dropoffTask : TaskData ℚ :=
  { AppID := 1, Location := ⟨2, 2⟩, Destination := ⟨3, 3⟩, Interest := 1, TaskTimeSeconds := 1
    RequestTime := 0, FulfillTime := 200 }

/-- A task fulfilled at time 300. -/
def laterTask : TaskData ℚ :=
  { AppID := 1, Location := ⟨4, 4⟩, Destination := ⟨5, 5⟩, Interest := 1, TaskTimeSeconds := 1
    RequestTime := 0, FulfillTime := 300 }

/-- The route of the three tasks. -/
def trimRoute : Route ℚ :=
  { Path := [pickupTask, dropoffTask, laterTask], TotalInterest := 3, TotalTime := 300
    VehicleStart := ⟨0, 0⟩, VehicleEnd := ⟨4, 4⟩ }

/-- A schedule of one vehicle with the three tasks, all of app 1. -/
def trimSample : Schedule ℚ :=
  { Routes := [trimRoute], Allocation := [(1, 3)]
    Stats := { Weights := [], Alpha := 1, Bound := 0 } }

/-- A task of app 1. -/
def capTask : Task ℚ :=
  { AppID := 1, Location := ⟨1, 1⟩, Destination := ⟨2, 2⟩, RequestTime := 0 }

/-- The data of `capTask`: interest 10 and service time 3. -/
def capData : TaskData ℚ :=
  { AppID := 1, Location := ⟨1, 1⟩, Destination := ⟨2, 2⟩, Interest := 10, TaskTimeSeconds := 3
    RequestTime := 0, FulfillTime := 0 }

/-- A second task of app 1. -/
def fracTask : Task ℚ :=
  { AppID := 1, Location := ⟨3, 3⟩, Destination := ⟨4, 4⟩, RequestTime := 0 }

/-- The data of `fracTask`: interest 5.5 and service time 1. -/
def fracData : TaskData ℚ :=
  { AppID := 1, Location := ⟨3, 3⟩, Destination := ⟨4, 4⟩, Interest := 11 / 2
    TaskTimeSeconds := 1, RequestTime := 0, FulfillTime := 0 }

/-- An application, without state, that always asks for the two tasks. -/
def capApp : Application ℚ Unit :=
  { state := (), GetID := fun _ => 1
    GetInterestMap := fun _ => [(capTask, capData), (fracTask, fracData)]
    Update := fun st _ _ => st }

/-- A scheduler of capacity 5 with the application `capApp` and one vehicle; its
solver always answers with the schedule `trimSample`. -/
def capScheduler : Scheduler ℚ Unit :=
  { Applications := [capApp], Vehicles := [{ ID := 0, Location := ⟨0, 0⟩, Speed := 1 }]
    Home := [], Solver := fun _ _ _ _ _ _ _ => trimSample, Alpha := 0, Discount := 1
    Horizon := 100, ReplanSec := 50, MaxRounds := 2, Capacity := 5, RTH := 0, Hull := false
    allocation := [(7, 7)] }

/-- The solvers of package `vrp` of the sample run: an empty bank and empty
schedules. -/
def capPlanners : Planners ℚ :=
  { WarmStart := fun _ => []
    Dedicate := fun _ _ _ _ _ => .ok Schedule.zero
    RoundRobin := fun _ _ _ _ _ => .ok Schedule.zero }

/-- The interest map `im_all` of `capScheduler`. -/
def capImAll : InterestMap ℚ := [(fracTask, fracData), (capTask, capData)]

/-- The interest map `im` of `capScheduler`. -/
def capIm : InterestMap ℚ :=
  [(capTask, { capData with Interest := 5, TaskTimeSeconds := 5 }), (fracTask, fracData)]

/-- The schedule `trimSample` trimmed at time 50. -/
def trimmedSample : Schedule ℚ :=
  { trimSample with
    Routes := [{ trimRoute with Path := [pickupTask, dropoffTask], VehicleEnd := ⟨1, 1⟩ }]
    Allocation := [(1, 1), (1, 0)] }

/-- The variables of `Run` for `capScheduler` before the first round. -/
def capState0 : RunState ℚ Unit :=
  { s := { capScheduler with allocation := [] }
    sp :=
      { InterestMap := capIm, Solver := capScheduler.Solver none
        Vehicles := [{ ID := 0, Location := ⟨0, 0⟩, Speed := 1 }], Horizon := 100, Capacity := 5
        Historical := [], Alpha := 0, Discount := 1, app_ids := [], num_apps := 0
        min_app_id := 0, heuristics := [], last_face := none }
    im_all := capImAll, im := capIm, round := 0, budget_time := 0, total_time := 0
    trimmed := [] }

/-- The variables of `Run` for `capScheduler` after the first round. -/
def capState1 : RunState ℚ Unit :=
  { s :=
      { capScheduler with
        Vehicles := [{ ID := 0, Location := ⟨1, 1⟩, Speed := 1 }]
        allocation := [(1, 1)] }
    sp := capState0.sp
    im_all := capImAll, im := capIm, round := 1, budget_time := 50, total_time := 50
    trimmed := [trimmedSample] }

/-- The variables of `Run` after the two rounds of `capScheduler`. -/
def capResult : RunState ℚ Unit :=
  { s :=
      { capScheduler with
        Vehicles := [{ ID := 0, Location := ⟨1, 1⟩, Speed := 1 }]
        allocation := [(1, 2), (1, 1)] }
    sp :=
      { InterestMap := capIm, Solver := capScheduler.Solver none
        Vehicles := [{ ID := 0, Location := ⟨1, 1⟩, Speed := 1 }], Horizon := 100, Capacity := 5
        Historical := [(1, 1)], Alpha := 0, Discount := 1, app_ids := [], num_apps := 0
        min_app_id := 0, heuristics := [], last_face := none }
    im_all := capImAll, im := capIm, round := 2, budget_time := 100, total_time := 100
    trimmed := [trimmedSample, trimmedSample] }

/-- The point of `init_hull` for app 0 in `onFaceState`. -/
def hullPoint0 : fpoint ℚ :=
  { schedule :=
      { Routes := [], Allocation := [(0, 1), (1, 1)]
        Stats := { Weights := [(1, 0), (0, 1)], Alpha := 1, Bound := 0 } }
    utility := 0
    weights := [(1, 0), (0, 1)] }

/-- The point of `init_hull` for app 1 in `onFaceState`. -/
def hullPoint1 : fpoint ℚ :=
  { schedule :=
      { Routes := [], Allocation := [(0, 1), (1, 1)]
        Stats := { Weights := [(1, 1), (0, 0)], Alpha := 1, Bound := 0 } }
    utility := 0
    weights := [(1, 1), (0, 0)] }

/-- The scheduler of scenario S5: `RTH = 100`, `Horizon = 60`, `ReplanSec = 60`; its
solver always answers with the empty schedule. -/
def rthScheduler : Scheduler ℚ Unit :=
  { capScheduler with
    Home := [⟨9, 9⟩], Solver := fun _ _ _ _ _ _ _ => Schedule.zero, Horizon := 60
    ReplanSec := 60, RTH := 100, allocation := [] }

/-- The variables of `Run` for `rthScheduler` before round 1. -/
def rthState0 : RunState ℚ Unit :=
  { s := rthScheduler
    sp :=
      { InterestMap := capIm, Solver := rthScheduler.Solver none
        Vehicles := [{ ID := 0, Location := ⟨0, 0⟩, Speed := 1 }], Horizon := 60, Capacity := 5
        Historical := [], Alpha := 0, Discount := 1, app_ids := [], num_apps := 0
        min_app_id := 0, heuristics := [], last_face := none }
    im_all := capImAll, im := capIm, round := 0, budget_time := 0, total_time := 0
    trimmed := [] }

/-- The variables of `Run` for `rthScheduler` after round 1. -/
def rthState1 : RunState ℚ Unit :=
  { rthState0 with round := 1, budget_time := 60, total_time := 60, trimmed := [Schedule.zero] }

/-- The variables of `Run` for `rthScheduler` after round 2. -/
def rthState2 : RunState ℚ Unit :=
  { rthState0 with
    sp := { rthState0.sp with Solver := rthScheduler.Solver (some [⟨9, 9⟩]) }
    round := 2, budget_time := 60, total_time := 120
    trimmed := [Schedule.zero, Schedule.zero] }

/-- An application of id 1 whose state is the list of the tasks it was told of. -/
def recApp : Application ℚ (List (TaskData ℚ)) :=
  { state := [], GetID := fun _ => 1, GetInterestMap := fun _ => []
    Update := fun st tasks _ => st ++ tasks }

/-- A scheduler with the application `recApp`. -/
def recScheduler : Scheduler ℚ (List (TaskData ℚ)) :=
  { Applications := [recApp], Vehicles := [], Home := []
    Solver := fun _ _ _ _ _ _ _ => Schedule.zero, Alpha := 0, Discount := 1, Horizon := 100
    ReplanSec := 50, MaxRounds := 1, Capacity := 0, RTH := 0, Hull := false, allocation := [] }

/-- A schedule of one route with one task of app 1, whose destination is the
sentinel location. -/
def sentinelSchedule : Schedule ℚ :=
  { Routes :=
      [{ Path := [(sampleTask 1 5).2], TotalInterest := 1, TotalTime := 0
         VehicleStart := ⟨0, 0⟩, VehicleEnd := ⟨5, 0⟩ }]
    Allocation := [], Stats := { Weights := [], Alpha := 0, Bound := 0 } }

/-- A pickup at `(1, 1)` fulfilled at time 100, with its delivery at `(2, 2)`. -/
def pairPickup : TaskData ℚ :=
  { AppID := 1, Location := ⟨1, 1⟩, Destination := ⟨2, 2⟩, Interest := 1, TaskTimeSeconds := 1
    RequestTime := 0, FulfillTime := 100 }

/-- The delivery of `pairPickup`, fulfilled at time 200; its own destination is the
sentinel location. -/
def pairDelivery : TaskData ℚ :=
  { AppID := 1, Location := ⟨2, 2⟩, Destination := ⟨-1, -1⟩, Interest := 1
    TaskTimeSeconds := 1, RequestTime := 0, FulfillTime := 200 }

/-- A schedule of one vehicle that picks up and delivers. -/
def pairSchedule : Schedule ℚ :=
  { Routes :=
      [{ Path := [pairPickup, pairDelivery], TotalInterest := 1, TotalTime := 200
         VehicleStart := ⟨0, 0⟩, VehicleEnd := ⟨2, 2⟩ }]
    Allocation := [(1, 1)], Stats := { Weights := [], Alpha := 1, Bound := 0 } }

/-- A schedule of one vehicle whose path is the pickup `pairPickup` alone. -/
def lonePickup : Schedule ℚ :=
  { Routes :=
      [{ Path := [pairPickup], TotalInterest := 1, TotalTime := 100
         VehicleStart := ⟨0, 0⟩, VehicleEnd := ⟨1, 1⟩ }]
    Allocation := [(1, 1)], Stats := { Weights := [], Alpha := 1, Bound := 0 } }

/-- The state `sampleState` with the app ids 2 and 3. -/
def highIdState : Mobius ℚ :=
  { sampleState with app_ids := [2, 3], num_apps := 2, min_app_id := 2 }

/-- The state `onFaceState` before `Init`. -/
def onFaceState0 : Mobius ℚ :=
  { sampleState0 with Solver := fun _ _ _ _ _ _ => scheduleOf [(0, 1), (1, 1)] }

/-- The ROI solver with `α = 1`. -/
noncomputable def roiSolver : RoiSolver ℝ :=
  { interest_map := [], vehicles := [], budget := 0, unweighted_interest_map := [], Alpha := 1 }

/-- A task of app 1. -/
noncomputable def roiTask : Task ℝ :=
  { AppID := 1, Location := ⟨1, 1⟩, Destination := ⟨2, 2⟩, RequestTime := 0 }

/-- The data of `roiTask` with the interest `i`. -/
noncomputable def roiData (i : ℝ) : TaskData ℝ :=
  { AppID := 1, Location := ⟨1, 1⟩, Destination := ⟨2, 2⟩, Interest := i, TaskTimeSeconds := 1
    RequestTime := 0, FulfillTime := 0 }

/-- A round-robin solver with the one task `capTask`, one vehicle and the budget 10,
without return-to-home. -/
def rrSolver : RoundRobinSolver ℚ :=
  { interest_map := [(capTask, capData)]
    vehicles := [{ ID := 0, Location := ⟨0, 0⟩, Speed := 1 }], budget := 10, rth := none }

/-- A travel time of 20 between any two places. -/
def slowTravel : TravelTime ℚ := fun _ _ _ _ => 20

/-- A travel time of 1 between any two places. -/
def fastTravel : TravelTime ℚ := fun _ _ _ _ => 1

/-! ## Facts about Go maps -/

section MapFacts

variable {K V : Type} [DecidableEq K]

theorem GoMap.find_eq_none_iff (m : GoMap K V) (k : K) :
    GoMap.find m k = none ↔ k ∉ GoMap.keys m := by
  induction m with
  | nil => simp [GoMap.find, GoMap.keys]
  | cons e m ih =>
    obtain ⟨k', v⟩ := e
    by_cases h : k' = k
    · simp [GoMap.find, GoMap.keys, h]
    · have h' : ¬ k = k' := fun e => h e.symm
      simpa [GoMap.find, GoMap.keys, h, h'] using ih

theorem GoMap.nodup_keys (m : GoMap K V) : (GoMap.keys m).Nodup :=
  List.nodup_dedup _

theorem GoMap.mem_keys_iff (m : GoMap K V) (k : K) :
    k ∈ GoMap.keys m ↔ ∃ v, (k, v) ∈ m := by
  simp [GoMap.keys]

theorem GoMap.get_eq_zero_of_not_mem [Zero V] (m : GoMap K V) (k : K)
    (h : k ∉ GoMap.keys m) : GoMap.get m k = 0 := by
  have := (GoMap.find_eq_none_iff m k).2 h
  simp [GoMap.get, this]

/-- In a list with pairwise different keys the lookup finds exactly the members. -/
theorem GoMap.find_eq_some_iff_mem (m : GoMap K V) (hm : (m.map Prod.fst).Nodup) (k : K) (v : V) :
    GoMap.find m k = some v ↔ (k, v) ∈ m := by
  induction m with
  | nil => simp [GoMap.find]
  | cons e m ih =>
    obtain ⟨k', v'⟩ := e
    rw [List.map_cons, List.nodup_cons] at hm
    by_cases h : k' = k
    · subst h
      have hnot : ∀ x, (k', x) ∉ m := fun x hx => hm.1 (List.mem_map.2 ⟨(k', x), hx, rfl⟩)
      simp only [GoMap.find, if_true, Option.some.injEq, List.mem_cons, Prod.mk.injEq, true_and]
      constructor
      · intro e; exact Or.inl e.symm
      · rintro (e | e)
        · exact e.symm
        · exact absurd e (hnot v)
    · have h' : ¬ k = k' := fun e => h e.symm
      simp [GoMap.find, h, h', ih hm.2]

end MapFacts

section SumFacts

variable {R : Type} [LinearOrderedField R]

theorem foldl_add_eq_sum {α : Type} (f : α → R) (l : List α) (a : R) :
    l.foldl (fun acc x => acc + f x) a = a + (l.map f).sum := by
  induction l generalizing a with
  | nil => simp
  | cons x l ih => simp [ih, add_assoc]

/-- The weighted reward is the sum over the keys of the allocation. -/
theorem weighted_reward_eq_sum (w : GoMap Int R) (a : Allocation R) :
    weighted_reward w a
      = ∑ id in (GoMap.keys a).toFinset, GoMap.get w id * GoMap.get a id := by
  unfold weighted_reward
  rw [foldl_add_eq_sum (fun id => GoMap.get w id * GoMap.get a id), zero_add,
    List.sum_toFinset _ (GoMap.nodup_keys a)]

/-- The weighted reward only sees the apps that carry a weight: it is the sum over
any duplicate-free list of ids that covers the keys of the weight map. -/
theorem weighted_reward_eq_sum_ids (w : GoMap Int R) (a : Allocation R) (ids : List Int)
    (hnd : ids.Nodup) (hw : ∀ id, id ∉ ids → GoMap.get w id = 0) :
    weighted_reward w a = (ids.map fun id => GoMap.get w id * GoMap.get a id).sum := by
  rw [weighted_reward_eq_sum, ← List.sum_toFinset _ hnd]
  have h1 : ∑ id in (GoMap.keys a).toFinset, GoMap.get w id * GoMap.get a id
      = ∑ id in (GoMap.keys a).toFinset ∪ ids.toFinset, GoMap.get w id * GoMap.get a id := by
    apply Finset.sum_subset Finset.subset_union_left
    intro x _ hx
    have : x ∉ GoMap.keys a := by simpa using hx
    rw [GoMap.get_eq_zero_of_not_mem a x this, mul_zero]
  have h2 : ∑ id in ids.toFinset, GoMap.get w id * GoMap.get a id
      = ∑ id in (GoMap.keys a).toFinset ∪ ids.toFinset, GoMap.get w id * GoMap.get a id := by
    apply Finset.sum_subset Finset.subset_union_right
    intro x _ hx
    have : x ∉ ids := by simpa using hx
    rw [hw x this, zero_mul]
  rw [h1, h2]

end SumFacts


section StateFacts

variable {R : Type} [LinearOrderedField R]

theorem GetApps_sorted (im : InterestMap R) : (GetApps im).Sorted (· < ·) := by
  unfold GetApps
  apply List.Sorted.lt_of_le
  · exact List.sorted_insertionSort _ _
  · exact (List.perm_insertionSort _ _).nodup_iff.2 (GoMap.nodup_keys _)

theorem Mobius.Init_initialized (s0 s : Mobius R) (warm : GoMap String (Schedule R))
    (h : s0.Init warm = .ok s) : s.Initialized := by
  unfold Mobius.Init at h
  have hs := GetApps_sorted s0.InterestMap
  dsimp only at h
  split at h
  · cases h
  · split at h
    · cases h
    · rename_i m rest heq
      simp only [Except.ok.injEq] at h
      subst h
      exact ⟨hs, rfl, by simp [heq]⟩

theorem Mobius.Init_app_ids (s0 s : Mobius R) (warm : GoMap String (Schedule R))
    (h : s0.Init warm = .ok s) : s.app_ids = GetApps s0.InterestMap := by
  unfold Mobius.Init at h
  dsimp only at h
  split at h
  · cases h
  · split at h
    · cases h
    · rename_i m rest heq
      simp only [Except.ok.injEq] at h
      subst h
      rfl

omit [LinearOrderedField R] in
theorem Mobius.Initialized.ids_eq (s : Mobius R) (h : s.Initialized) :
    ∃ rest, s.app_ids = s.min_app_id :: rest ∧ s.min_app_id ∉ rest ∧ rest.Nodup
      ∧ ∀ id ∈ rest, s.min_app_id < id := by
  have hf := h.first
  have hs := h.sorted
  cases hids : s.app_ids with
  | nil => simp [hids] at hf
  | cons a rest =>
    rw [hids] at hf hs
    simp only [List.head?_cons, Option.some.injEq] at hf
    subst hf
    rw [List.sorted_cons] at hs
    refine ⟨rest, rfl, ?_, hs.2.nodup, hs.1⟩
    intro hmem
    exact lt_irrefl _ (hs.1 _ hmem)

omit [LinearOrderedField R] in
/-- With enough weights, `weight_vector_to_map` pairs the ids with the weights. -/
theorem weight_vector_to_map_loop_eq (weights : List R) (ids : List Int) (k : Nat)
    (acc : GoMap Int R) (hlen : k + ids.length ≤ weights.length) :
    weight_vector_to_map_loop weights (ids.enumFrom k) acc
      = .ok ((ids.zip (weights.drop k)).reverse ++ acc) := by
  induction ids generalizing k acc with
  | nil => simp [weight_vector_to_map_loop]
  | cons id ids ih =>
    simp only [List.length_cons] at hlen
    have hk : k < weights.length := by omega
    have hd : weights.drop k = weights[k] :: weights.drop (k + 1) :=
      List.drop_eq_getElem_cons hk
    simp only [List.enumFrom_cons, weight_vector_to_map_loop, List.get?_eq_getElem?,
      List.getElem?_eq_getElem hk]
    rw [ih (k + 1) _ (by omega), hd]
    simp only [List.zip_cons_cons, List.reverse_cons, List.append_assoc, List.singleton_append,
      GoMap.set]

omit [LinearOrderedField R] in
theorem Mobius.weight_vector_to_map_eq (s : Mobius R) (weights : List R)
    (hlen : s.app_ids.length ≤ weights.length) :
    s.weight_vector_to_map weights = .ok (s.app_ids.zip weights).reverse := by
  unfold Mobius.weight_vector_to_map
  rw [List.enum, weight_vector_to_map_loop_eq weights s.app_ids 0 [] (by omega)]
  simp

end StateFacts


section FaceFacts

variable {R : Type} [LinearOrderedField R]

omit [LinearOrderedField R] in
theorem face_row_foldl (g : Int → R) (m : Int) (ids : List Int) (acc : List R) :
    ids.foldl (fun row id => if id ≠ m then row ++ [g id] else row) acc
      = acc ++ (ids.filter (fun id => decide (id ≠ m))).map g := by
  induction ids generalizing acc with
  | nil => simp
  | cons id ids ih =>
    rw [List.foldl_cons]
    by_cases h : id = m
    · rw [if_neg (not_not.2 h), ih, List.filter_cons_of_neg (by simpa using h)]
    · rw [if_pos h, ih, List.filter_cons_of_pos (by simpa using h), List.map_cons,
        List.append_assoc]
      rfl

/-- The row of an initialized state: a one, then the negated allocations of the
apps after the anchor. -/
theorem Mobius.face_rows_eq (s : Mobius R) (rest : List Int)
    (hids : s.app_ids = s.min_app_id :: rest) (hnot : s.min_app_id ∉ rest)
    (face : List (fpoint R)) :
    s.face_rows face
      = face.map fun f => 1 :: rest.map fun id => -(GoMap.get f.schedule.Allocation id) := by
  unfold Mobius.face_rows
  apply List.map_congr_left
  intro f _
  rw [face_row_foldl (fun id => -(GoMap.get f.schedule.Allocation id)), hids]
  have : (rest.filter fun id => decide (id ≠ s.min_app_id)) = rest := by
    apply List.filter_eq_self.2
    intro a ha
    exact decide_eq_true fun e : a = s.min_app_id => hnot (e ▸ ha)
  rw [List.filter_cons_of_neg (by simp), this]
  rfl

/-- A square `SolveVec` that succeeds returns a solution of the system. -/
theorem SolveVec_square (L : Lib R) (n : Nat) (A : List (List R)) (b x : List R)
    (hA : A.length = n) (h : SolveVec L n A b = .ok x) :
    ∃ sol : Fin n → R, x = List.ofFn sol ∧
      ∀ i : Fin n, ∑ j : Fin n, (A.getD i.val []).getD j.val 0 * sol j = b.getD i.val 0 := by
  unfold SolveVec at h
  rw [if_pos hA] at h
  dsimp only at h
  split at h
  · cases h
  · rename_i hdet
    simp only [Except.ok.injEq] at h
    refine ⟨_, h.symm, ?_⟩
    intro i
    set M : Matrix (Fin n) (Fin n) R := Matrix.of fun i j => (A.getD i.val []).getD j.val 0
    set v : Fin n → R := fun i => b.getD i.val 0
    have hmul : M.mulVec (M.det⁻¹ • M.adjugate.mulVec v) = v := by
      rw [Matrix.mulVec_smul, Matrix.mulVec_mulVec, Matrix.mul_adjugate, Matrix.smul_mulVec_assoc,
        Matrix.one_mulVec, smul_smul, inv_mul_cancel₀ hdet, one_smul]
    have := congrFun hmul i
    simpa [Matrix.mulVec, Matrix.dotProduct, M, v] using this

theorem zip_ofFn_sum (rest : List Int) (g : Fin rest.length → R) (F : Int → R → R) :
    ((rest.zip (List.ofFn g)).map fun p => F p.1 p.2).sum = ∑ j, F (rest.get j) (g j) := by
  induction rest with
  | nil => simp
  | cons id rest ih =>
    rw [List.ofFn_succ, List.zip_cons_cons, List.map_cons, List.sum_cons,
      ih (fun j => g j.succ)]
    exact (Fin.sum_univ_succ (fun j : Fin (rest.length + 1) => F ((id :: rest).get j) (g j))).symm

/-- The solved system, read row by row: for every face point the anchor
allocation plus the weighted allocations of the other apps is the constant. -/
theorem solve_rows_dot (L : Lib R) (rest : List Int) (anchor : Int) (face : List (fpoint R))
    (n : Nat) (hn : n = rest.length + 1) (hK : face.length = n) (x : List R)
    (h : SolveVec L n
        (face.map fun f => 1 :: rest.map fun id => -(GoMap.get f.schedule.Allocation id))
        (face.map fun f => GoMap.get f.schedule.Allocation anchor) = .ok x) :
    ∃ c tl, x = c :: tl ∧ tl.length = rest.length ∧
      ∀ f ∈ face,
        GoMap.get f.schedule.Allocation anchor
          + ((rest.zip tl).map fun p => p.2 * GoMap.get f.schedule.Allocation p.1).sum = c := by
  subst hn
  obtain ⟨sol, hx, hrow⟩ := SolveVec_square L _ _ _ x (by simpa using hK) h
  refine ⟨sol 0, List.ofFn fun j => sol j.succ, ?_, by simp, ?_⟩
  · rw [hx, List.ofFn_succ]
  · intro f hf
    obtain ⟨i, hi, rfl⟩ := List.mem_iff_getElem.1 hf
    have hi' : i < rest.length + 1 := hK ▸ hi
    have hr := hrow ⟨i, hi'⟩
    rw [zip_ofFn_sum rest (fun j => sol j.succ)
      (fun id x => x * GoMap.get face[i].schedule.Allocation id)]
    rw [Fin.sum_univ_succ] at hr
    simp only [Fin.val_zero, Fin.val_succ, List.getD_eq_getElem?_getD, List.getElem?_map,
      List.getElem?_eq_getElem hi, Option.map_some', Option.getD_some, List.getElem?_cons_zero,
      List.getElem?_cons_succ, one_mul] at hr
    have hsum : ∑ j : Fin rest.length,
          ((rest[j.val]?).map fun id => -(GoMap.get face[i].schedule.Allocation id)).getD 0
            * sol j.succ
        = - ∑ j : Fin rest.length,
            sol j.succ * GoMap.get face[i].schedule.Allocation (rest.get j) := by
      rw [← Finset.sum_neg_distrib]
      apply Finset.sum_congr rfl
      intro j _
      rw [List.getElem?_eq_getElem j.isLt]
      simp [mul_comm]
    rw [hsum] at hr
    linarith

end FaceFacts


section WeightFacts

variable {R : Type} [LinearOrderedField R]

/-- Reading the map that `weight_vector_to_map` builds from duplicate-free ids. -/
theorem get_zip_reverse (ids : List Int) (ws : List R) (hnd : ids.Nodup)
    (hlen : ids.length ≤ ws.length) :
    (∀ p ∈ ids.zip ws, GoMap.get (ids.zip ws).reverse p.1 = p.2)
      ∧ ∀ id, id ∉ ids → GoMap.get (ids.zip ws).reverse id = 0 := by
  have hfst : ((ids.zip ws).reverse.map Prod.fst) = ids.reverse := by
    rw [List.map_reverse, List.map_fst_zip _ _ hlen]
  constructor
  · intro p hp
    have hk : ((ids.zip ws).reverse.map Prod.fst).Nodup := by
      rw [hfst]; exact List.nodup_reverse.2 hnd
    have := (GoMap.find_eq_some_iff_mem (ids.zip ws).reverse hk p.1 p.2).2
      (List.mem_reverse.2 hp)
    simp [GoMap.get, this]
  · intro id hid
    apply GoMap.get_eq_zero_of_not_mem
    rw [GoMap.keys, hfst]
    simpa using hid

/-- The weighted reward under the map of `weight_vector_to_map` is the dot product
of the weight vector with the allocation, app by app. -/
theorem weighted_reward_zip (ids : List Int) (ws : List R) (hnd : ids.Nodup)
    (hlen : ids.length ≤ ws.length) (a : Allocation R) :
    weighted_reward (ids.zip ws).reverse a
      = ((ids.zip ws).map fun p => p.2 * GoMap.get a p.1).sum := by
  obtain ⟨h1, h2⟩ := get_zip_reverse ids ws hnd hlen
  rw [weighted_reward_eq_sum_ids _ a ids hnd h2]
  have e : (ids.map fun id => GoMap.get (ids.zip ws).reverse id * GoMap.get a id)
      = (ids.zip ws).map fun p => GoMap.get (ids.zip ws).reverse p.1 * GoMap.get a p.1 := by
    have := congrArg (List.map fun id => GoMap.get (ids.zip ws).reverse id * GoMap.get a id)
      (List.map_fst_zip ids ws hlen)
    rw [List.map_map] at this
    exact this.symm
  rw [e]
  congr 1
  apply List.map_congr_left
  intro p hp
  rw [h1 p hp]

omit [LinearOrderedField R] in
theorem uc_foldl (P : fpoint R → Prop) [DecidablePred P] (face : List (fpoint R)) (b : Bool) :
    face.foldl (fun uc f => if P f then true else uc) b
      = (b || face.any fun f => decide (P f)) := by
  induction face generalizing b with
  | nil => simp
  | cons f face ih =>
    rw [List.foldl_cons, ih]
    by_cases h : P f <;> simp [h]

/-- What a successful `compute_face_equation` went through. -/
theorem Mobius.compute_face_equation_inv (L : Lib R) (s : Mobius R) (face : List (fpoint R))
    (c : R) (weights : List R) (h : s.compute_face_equation L face = .ok (c, weights)) :
    (∃ f ∈ face, GoMap.get f.schedule.Allocation s.min_app_id > 0) ∧
      ∃ tl, weights = 1 :: tl ∧
        SolveVec L s.num_apps (s.face_rows face) (s.face_rhs face) = .ok (c :: tl) := by
  unfold Mobius.compute_face_equation at h
  dsimp only at h
  rw [uc_foldl (fun f => GoMap.get f.schedule.Allocation s.min_app_id > 0)] at h
  split at h
  · cases h
  · rename_i huc
    split at h
    · cases h
    · split at h
      · cases h
      · cases h
      · rename_i x hx
        split at h
        · cases h
        · rename_i c' rest
          simp only [Except.ok.injEq, Prod.mk.injEq] at h
          obtain ⟨rfl, rfl⟩ := h
          refine ⟨?_, rest, rfl, hx⟩
          simpa using huc

/-- The face equation of an initialized state on a face of `num_apps` points. -/
theorem Mobius.face_equation_spec (L : Lib R) (s : Mobius R) (hs : s.Initialized)
    (face : List (fpoint R)) (hK : face.length = s.num_apps) (c : R) (weights : List R)
    (h : s.compute_face_equation L face = .ok (c, weights)) :
    weights.length = s.num_apps ∧ weights.head? = some 1 ∧
      ∀ f ∈ face,
        ((s.app_ids.zip weights).map fun p => p.2 * GoMap.get f.schedule.Allocation p.1).sum
          = c := by
  obtain ⟨rest, hids, hnot, _, _⟩ := hs.ids_eq
  obtain ⟨_, tl, rfl, hsolve⟩ := s.compute_face_equation_inv L face c weights h
  rw [s.face_rows_eq rest hids hnot face, Mobius.face_rhs] at hsolve
  have hn : s.num_apps = rest.length + 1 := by rw [hs.num, hids]; rfl
  obtain ⟨c', tl', hx, hlen, hdot⟩ :=
    solve_rows_dot L rest s.min_app_id face s.num_apps hn hK _ hsolve
  simp only [List.cons.injEq] at hx
  obtain ⟨rfl, rfl⟩ := hx
  refine ⟨by simp [hlen, hn], rfl, ?_⟩
  intro f hf
  rw [hids, List.zip_cons_cons, List.map_cons, List.sum_cons, one_mul]
  exact hdot f hf

end WeightFacts

/-! ## C1: soundness of the face equation -/

section C1

variable {R : Type} [LinearOrderedField R]

/-- C1. Face-equation soundness: in a state produced by `Init`, whenever
`compute_face_equation` succeeds on a face of `num_apps` points, the returned
weight vector has `num_apps` components, the weight map that
`weight_vector_to_map` builds from it has the value 1 at the anchor app (the first
and smallest of the sorted app ids of `GetApps`), and the weighted reward `w · a`
of the allocation of every point of the face equals the returned constant `c`. -/
theorem C1_face_equation_sound (L : Lib R) (s0 s : Mobius R) (warm : GoMap String (Schedule R))
    (hinit : s0.Init warm = .ok s) (face : List (fpoint R)) (hK : face.length = s.num_apps)
    (c : R) (weights : List R) (h : s.compute_face_equation L face = .ok (c, weights)) :
    s.app_ids = GetApps s0.InterestMap ∧ s.num_apps = s.app_ids.length ∧
      s.app_ids.head? = some s.min_app_id ∧ (∀ id ∈ s.app_ids, s.min_app_id ≤ id) ∧
      weights.length = s.num_apps ∧
      ∃ w, s.weight_vector_to_map weights = .ok w ∧ GoMap.get w s.min_app_id = 1 ∧
        ∀ f ∈ face, weighted_reward w f.schedule.Allocation = c := by
  have hs := Mobius.Init_initialized s0 s warm hinit
  obtain ⟨rest, hids, _, _, hlt⟩ := hs.ids_eq
  obtain ⟨hlen, hhead, hdot⟩ := s.face_equation_spec L hs face hK c weights h
  have hle : s.app_ids.length ≤ weights.length := by rw [hlen, hs.num]
  refine ⟨Mobius.Init_app_ids s0 s warm hinit, hs.num, hs.first, ?_, hlen,
    (s.app_ids.zip weights).reverse, s.weight_vector_to_map_eq weights hle, ?_, ?_⟩
  · intro id hid
    rw [hids] at hid
    rcases List.mem_cons.1 hid with e | e
    · exact le_of_eq e.symm
    · exact le_of_lt (hlt id e)
  · cases weights with
    | nil => simp at hhead
    | cons x tl =>
      simp only [List.head?_cons, Option.some.injEq] at hhead
      subst hhead
      have := (get_zip_reverse s.app_ids (1 :: tl) hs.sorted.nodup hle).1 (s.min_app_id, 1)
        (by rw [hids]; simp)
      simpa using this
  · intro f hf
    rw [weighted_reward_zip s.app_ids weights hs.sorted.nodup hle]
    exact hdot f hf

theorem sample_init : sampleState0.Init [] = .ok sampleState := by rfl

theorem sample_face_equation :
    sampleState.compute_face_equation ratLib sampleFace = .ok (2, [1, 1]) := by
  simp [Mobius.compute_face_equation, SolveVec, Mobius.face_rows, Mobius.face_rhs, sampleState,
    sampleState0, sampleFace, pointOf, scheduleOf, GoMap.get, GoMap.find, Matrix.det_fin_two,
    Matrix.adjugate_fin_two, Schedule.zero, Matrix.mulVec, Matrix.dotProduct, Fin.sum_univ_two,
    List.ofFn_succ]
  norm_num

/-- C1 at the face through `(2, 0)` and `(0, 2)` of a two-app state: the equation
is `x₀ + x₁ = 2`. -/
theorem C1_face_equation_sound_witness :
    sampleState0.Init [] = .ok sampleState ∧ sampleFace.length = sampleState.num_apps ∧
      sampleState.compute_face_equation ratLib sampleFace = .ok (2, [1, 1]) ∧
      ([1, 1] : List ℚ).length = sampleState.num_apps ∧
      ∃ w, sampleState.weight_vector_to_map [1, 1] = .ok w ∧
        GoMap.get w sampleState.min_app_id = 1 ∧
        ∀ f ∈ sampleFace, weighted_reward w f.schedule.Allocation = 2 :=
  ⟨sample_init, rfl, sample_face_equation,
    (C1_face_equation_sound ratLib sampleState0 sampleState [] sample_init sampleFace rfl 2 [1, 1]
      sample_face_equation).2.2.2.2⟩

end C1

/-! ## C2: when the face equation exists -/

section C2

variable {R : Type} [LinearOrderedField R]

theorem face_entry_zero (rest : List Int) (face : List (fpoint R)) (i : Nat)
    (hi : i < face.length) :
    ((face.map fun f => 1 :: rest.map fun id => -(GoMap.get f.schedule.Allocation id)).getD i
      []).getD 0 0 = (1 : R) := by
  simp [List.getD_eq_getElem?_getD, List.getElem?_eq_getElem hi]

theorem face_entry_succ (rest : List Int) (face : List (fpoint R)) (i j : Nat)
    (hi : i < face.length) (hj : j < rest.length) :
    ((face.map fun f => 1 :: rest.map fun id => -(GoMap.get f.schedule.Allocation id)).getD i
      []).getD (j + 1) 0 = -allocAt face i rest[j] := by
  simp [List.getD_eq_getElem?_getD, List.getElem?_eq_getElem hi, List.getElem?_eq_getElem hj,
    allocAt]

/-- The constraint matrix is singular exactly when the face points, read at the apps
after the anchor, are affinely dependent. -/
theorem det_eq_zero_iff_affinelyDependent (rest : List Int) (face : List (fpoint R)) (n : Nat)
    (hface : face.length = n) (hn : n = rest.length + 1) :
    (Matrix.of fun (i j : Fin n) =>
        ((face.map fun f => 1 :: rest.map fun id => -(GoMap.get f.schedule.Allocation id)).getD
          i.val []).getD j.val 0).det = 0
      ↔ AffinelyDependent rest face := by
  subst hn
  rw [← Matrix.exists_vecMul_eq_zero_iff]
  unfold AffinelyDependent
  rw [hface]
  have hlt : ∀ i : Fin (rest.length + 1), i.val < face.length := fun i => by
    rw [hface]; exact i.isLt
  constructor
  · rintro ⟨v, hv, hmul⟩
    refine ⟨fun i => if h : i < rest.length + 1 then v ⟨i, h⟩ else 0, ?_, ?_, ?_⟩
    · obtain ⟨i, hi⟩ := Function.ne_iff.1 hv
      exact ⟨i.val, i.isLt, by simpa using hi⟩
    · have h0 := congrFun hmul 0
      simp only [Matrix.vecMul, Matrix.dotProduct, Matrix.of_apply, Pi.zero_apply,
        Fin.val_zero] at h0
      rw [Finset.sum_range]
      refine Eq.trans (Finset.sum_congr rfl fun i _ => ?_) h0
      rw [face_entry_zero rest face i.val (hlt i)]
      simp
    · intro id hid
      obtain ⟨j, hj, rfl⟩ := List.mem_iff_getElem.1 hid
      have hj1 := congrFun hmul ⟨j + 1, by omega⟩
      simp only [Matrix.vecMul, Matrix.dotProduct, Matrix.of_apply, Pi.zero_apply] at hj1
      rw [Finset.sum_range]
      have key : ∀ i : Fin (rest.length + 1),
          (if h : i.val < rest.length + 1 then v ⟨i.val, h⟩ else 0) * allocAt face i.val rest[j]
            = -(v i *
              ((face.map fun f =>
                1 :: rest.map fun id => -(GoMap.get f.schedule.Allocation id)).getD i.val
                  []).getD (j + 1) 0) := by
        intro i
        rw [face_entry_succ rest face i.val j (hlt i) hj]
        simp
      rw [Finset.sum_congr rfl fun i _ => key i, Finset.sum_neg_distrib, hj1, neg_zero]
  · rintro ⟨μ, ⟨i, hi, hμ⟩, hsum, hid⟩
    refine ⟨fun i => μ i.val, ?_, ?_⟩
    · intro h
      exact hμ (congrFun h ⟨i, hi⟩)
    · funext j
      simp only [Matrix.vecMul, Matrix.dotProduct, Matrix.of_apply, Pi.zero_apply]
      rw [Finset.sum_range] at hsum
      refine Fin.cases ?_ (fun j => ?_) j
      · refine Eq.trans (Finset.sum_congr rfl fun i _ => ?_) hsum
        rw [Fin.val_zero, face_entry_zero rest face i.val (hlt i), mul_one]
      · have hz := hid rest[j.val] (List.getElem_mem _)
        rw [Finset.sum_range] at hz
        have key : ∀ i : Fin (rest.length + 1),
            μ i.val *
              ((face.map fun f =>
                1 :: rest.map fun id => -(GoMap.get f.schedule.Allocation id)).getD i.val
                  []).getD (j.succ).val 0
              = -(μ i.val * allocAt face i.val rest[j.val]) := by
          intro i
          rw [Fin.val_succ, face_entry_succ rest face i.val j.val (hlt i) j.isLt]
          ring
        rw [Finset.sum_congr rfl fun i _ => key i, Finset.sum_neg_distrib, hz, neg_zero]

/-- In an initialized state, on a face of `num_apps` points one of which has a
positive anchor allocation, `compute_face_equation` is decided by the determinant
of the constraint matrix. -/
theorem Mobius.compute_face_equation_cases (L : Lib R) (s : Mobius R) (hs : s.Initialized)
    (face : List (fpoint R)) (hK : face.length = s.num_apps)
    (hu : ∃ f ∈ face, 0 < GoMap.get f.schedule.Allocation s.min_app_id) :
    (AffinelyDependent s.app_ids.tail face →
        s.compute_face_equation L face = .error (.err "underconstrained")) ∧
      (¬ AffinelyDependent s.app_ids.tail face →
        ∃ c weights, s.compute_face_equation L face = .ok (c, weights)) := by
  obtain ⟨rest, hids, hnot, _, _⟩ := hs.ids_eq
  have hn : s.num_apps = rest.length + 1 := by rw [hs.num, hids]; rfl
  have htail : s.app_ids.tail = rest := by rw [hids]; rfl
  have hdet := det_eq_zero_iff_affinelyDependent rest face s.num_apps hK hn
  have huc : (face.any fun f => decide (GoMap.get f.schedule.Allocation s.min_app_id > 0))
      = true := by
    obtain ⟨f, hf, hpos⟩ := hu
    exact List.any_eq_true.2 ⟨f, hf, decide_eq_true hpos⟩
  have hrows : ((s.face_rows face).any fun row => decide (row.length ≠ s.num_apps)) = false := by
    rw [s.face_rows_eq rest hids hnot face]
    apply Bool.eq_false_iff.2
    intro h
    obtain ⟨row, hrow, hlen⟩ := List.any_eq_true.1 h
    obtain ⟨f, _, rfl⟩ := List.mem_map.1 hrow
    simp [hn] at hlen
  have hlen : (s.face_rows face).length = s.num_apps := by
    rw [Mobius.face_rows, List.length_map, hK]
  have hcfe : s.compute_face_equation L face
      = match SolveVec L s.num_apps (s.face_rows face) (s.face_rhs face) with
        | .error (.err _) => .error (.err "underconstrained")
        | .error e => .error e
        | .ok weights =>
          match weights with
          | [] => .error (.panic "index out of range")
          | c :: rest => .ok (c, 1 :: rest) := by
    unfold Mobius.compute_face_equation
    dsimp only
    rw [uc_foldl (fun f => GoMap.get f.schedule.Allocation s.min_app_id > 0), huc, hrows]
    rfl
  rw [hcfe, htail]
  unfold SolveVec
  rw [if_pos hlen]
  dsimp only
  rw [s.face_rows_eq rest hids hnot face]
  constructor
  · intro hdep
    rw [if_pos (hdet.2 hdep)]
  · intro hdep
    rw [if_neg (fun h => hdep (hdet.1 h))]
    generalize hsol : ((Matrix.of fun (i j : Fin s.num_apps) =>
        ((face.map fun f => 1 :: rest.map fun id => -(GoMap.get f.schedule.Allocation id)).getD
          i.val []).getD j.val 0).det⁻¹ • (Matrix.of fun (i j : Fin s.num_apps) =>
        ((face.map fun f => 1 :: rest.map fun id => -(GoMap.get f.schedule.Allocation id)).getD
          i.val []).getD j.val 0).adjugate.mulVec fun i => (s.face_rhs face).getD i.val 0) = sol
    have hne : List.ofFn sol ≠ [] := by
      intro h
      have := congrArg List.length h
      simp [hn] at this
    cases hx : List.ofFn sol with
    | nil => exact absurd hx hne
    | cons c tl => exact ⟨c, 1 :: tl, rfl⟩

theorem AffinelyDependent.mono (ids ids' : List Int) (face : List (fpoint R))
    (hsub : ∀ id ∈ ids', id ∈ ids) (h : AffinelyDependent ids face) :
    AffinelyDependent ids' face := by
  obtain ⟨μ, h1, h2, h3⟩ := h
  exact ⟨μ, h1, h2, fun id hid => h3 id (hsub id hid)⟩

/-- C2 (amended). Face-equation completeness: in an initialized state, on a face of
`num_apps` points, `compute_face_equation` returns the error "underconstrained in
app1" when every point has a non-positive anchor allocation; otherwise it returns
the error "underconstrained" when the points, read at the apps after the anchor,
are affinely dependent, and returns an equation when they are not.  Points that are
affinely dependent in all coordinates are also dependent with the anchor dropped. -/
theorem C2_face_equation_complete (L : Lib R) (s : Mobius R) (hs : s.Initialized)
    (face : List (fpoint R)) (hK : face.length = s.num_apps) :
    ((∀ f ∈ face, GoMap.get f.schedule.Allocation s.min_app_id ≤ 0) →
        s.compute_face_equation L face = .error (.err "underconstrained in app1")) ∧
      ((∃ f ∈ face, 0 < GoMap.get f.schedule.Allocation s.min_app_id) →
        AffinelyDependent s.app_ids.tail face →
        s.compute_face_equation L face = .error (.err "underconstrained")) ∧
      ((∃ f ∈ face, 0 < GoMap.get f.schedule.Allocation s.min_app_id) →
        ¬ AffinelyDependent s.app_ids.tail face →
        ∃ c weights, s.compute_face_equation L face = .ok (c, weights)) ∧
      (AffinelyDependent s.app_ids face → AffinelyDependent s.app_ids.tail face) := by
  refine ⟨?_, fun hu => (s.compute_face_equation_cases L hs face hK hu).1,
    fun hu => (s.compute_face_equation_cases L hs face hK hu).2,
    AffinelyDependent.mono _ _ face fun id hid => List.mem_of_mem_tail hid⟩
  intro hall
  have huc : (face.any fun f => decide (GoMap.get f.schedule.Allocation s.min_app_id > 0))
      = false := by
    apply Bool.eq_false_iff.2
    intro h
    obtain ⟨f, hf, hpos⟩ := List.any_eq_true.1 h
    exact absurd (of_decide_eq_true hpos) (not_lt.2 (hall f hf))
  unfold Mobius.compute_face_equation
  dsimp only
  rw [uc_foldl (fun f => GoMap.get f.schedule.Allocation s.min_app_id > 0), huc]
  rfl

theorem sample_initialized : sampleState.Initialized :=
  Mobius.Init_initialized sampleState0 sampleState [] sample_init

/-- C2 (amended) at the two-app state and the face through `(2, 0)` and `(0, 2)`. -/
theorem C2_face_equation_complete_witness :
    sampleState.Initialized ∧ sampleFace.length = sampleState.num_apps ∧
      ((∀ f ∈ sampleFace, GoMap.get f.schedule.Allocation sampleState.min_app_id ≤ 0) →
        sampleState.compute_face_equation ratLib sampleFace
          = .error (.err "underconstrained in app1")) ∧
      ((∃ f ∈ sampleFace, 0 < GoMap.get f.schedule.Allocation sampleState.min_app_id) →
        AffinelyDependent sampleState.app_ids.tail sampleFace →
        sampleState.compute_face_equation ratLib sampleFace = .error (.err "underconstrained")) ∧
      ((∃ f ∈ sampleFace, 0 < GoMap.get f.schedule.Allocation sampleState.min_app_id) →
        ¬ AffinelyDependent sampleState.app_ids.tail sampleFace →
        ∃ c weights, sampleState.compute_face_equation ratLib sampleFace = .ok (c, weights)) ∧
      (AffinelyDependent sampleState.app_ids sampleFace →
        AffinelyDependent sampleState.app_ids.tail sampleFace) :=
  ⟨sample_initialized, rfl,
    C2_face_equation_complete ratLib sampleState sample_initialized sampleFace rfl⟩

/-- C2 as stated fails: the allocations `(1, 1)` and `(2, 1)` are nonnegative,
affinely independent and have a positive anchor component, yet
`compute_face_equation` returns the underconstrained error, because the line
through them has no equation with anchor weight 1. -/
theorem C2_counterexample :
    sampleState.Initialized ∧ parallelFace.length = sampleState.num_apps ∧
      (∀ f ∈ parallelFace, ∀ id, 0 ≤ GoMap.get f.schedule.Allocation id) ∧
      (∃ f ∈ parallelFace, 0 < GoMap.get f.schedule.Allocation sampleState.min_app_id) ∧
      ¬ AffinelyDependent sampleState.app_ids parallelFace ∧
      sampleState.compute_face_equation ratLib parallelFace
        = .error (.err "underconstrained") := by
  refine ⟨sample_initialized, rfl, ?_, ?_, ?_, ?_⟩
  · intro f hf id
    simp only [parallelFace, List.mem_cons, List.mem_singleton, List.not_mem_nil, or_false] at hf
    rcases hf with rfl | rfl
    · by_cases h0 : id = 0
      · subst h0; simp [pointOf, scheduleOf, GoMap.get, GoMap.find]
      · by_cases h1 : id = 1
        · subst h1; simp [pointOf, scheduleOf, GoMap.get, GoMap.find]
        · simp [pointOf, scheduleOf, GoMap.get, GoMap.find, Ne.symm h0, Ne.symm h1]
    · by_cases h0 : id = 0
      · subst h0; simp [pointOf, scheduleOf, GoMap.get, GoMap.find]
      · by_cases h1 : id = 1
        · subst h1; simp [pointOf, scheduleOf, GoMap.get, GoMap.find]
        · simp [pointOf, scheduleOf, GoMap.get, GoMap.find, Ne.symm h0, Ne.symm h1]
  · exact ⟨pointOf [(0, 1), (1, 1)], by simp [parallelFace],
      by simp [pointOf, scheduleOf, GoMap.get, GoMap.find, sampleState, sampleState0]⟩
  · rintro ⟨μ, ⟨i, hi, hμ⟩, hsum, hid⟩
    have h0 := hid 0 (by simp [sampleState, sampleState0])
    simp [parallelFace, Finset.sum_range_succ, allocAt, pointOf, scheduleOf, GoMap.get,
      GoMap.find] at hsum h0 hi
    have hμ1 : μ 1 = 0 := by linarith
    have hμ0 : μ 0 = 0 := by linarith
    interval_cases i
    · exact hμ hμ0
    · exact hμ hμ1
  · simp [Mobius.compute_face_equation, SolveVec, Mobius.face_rows, Mobius.face_rhs, sampleState,
      sampleState0, parallelFace, pointOf, scheduleOf, GoMap.get, GoMap.find, Matrix.det_fin_two,
      Schedule.zero]

end C2

/-! ## C3, C4: the alpha-fair utility -/

section C4

variable {R : Type} [LinearOrderedField R]

omit [LinearOrderedField R] in
theorem foldl_set_eq (f : Int → R) (ids : List Int) (acc : GoMap Int R) :
    ids.foldl (fun h id => GoMap.set h id (f id)) acc
      = (ids.map fun id => (id, f id)).reverse ++ acc := by
  induction ids generalizing acc with
  | nil => rfl
  | cons id ids ih =>
    rw [List.foldl_cons, ih, List.map_cons, List.reverse_cons, List.append_assoc]
    rfl

omit [LinearOrderedField R] in
theorem find_graph (f : Int → R) (l : List Int) (k : Int) (hk : k ∈ l) :
    GoMap.find (l.map fun id => (id, f id)) k = some (f k) := by
  induction l with
  | nil => simp at hk
  | cons id l ih =>
    by_cases h : id = k
    · simp [GoMap.find, h]
    · have : k ∈ l := by
        rcases List.mem_cons.1 hk with e | e
        · exact absurd e.symm h
        · exact e
      simp [GoMap.find, h, ih this]

omit [LinearOrderedField R] in
/-- The values of the map `h` that `utility` builds. -/
theorem values_graph (f : Int → R) (ids : List Int) :
    GoMap.values ((ids.map fun id => (id, f id)).reverse) = (ids.reverse.dedup).map f := by
  rw [← List.map_reverse]
  unfold GoMap.values GoMap.keys
  rw [List.map_map]
  have hfst : (Prod.fst ∘ fun id : Int => (id, f id)) = id := by funext x; rfl
  rw [hfst, List.map_id]
  generalize hl : ids.reverse = l
  have : ∀ l' : List Int, (∀ k ∈ l', k ∈ l) →
      l'.filterMap (GoMap.find (l.map fun id => (id, f id))) = l'.map f := by
    intro l' hsub
    induction l' with
    | nil => rfl
    | cons k l' ih =>
      rw [List.filterMap_cons, find_graph f l k (hsub k (List.mem_cons_self _ _))]
      simp [ih fun k hk => hsub k (List.mem_cons_of_mem _ hk)]
  exact this _ fun k hk => List.mem_dedup.1 hk

theorem utility_eq_sum (L : Lib R) (s : Mobius R) (a : Allocation R) :
    s.utility L a = utilitySpec L s a := by
  have hfin : (s.app_ids.reverse.dedup).toFinset = s.app_ids.toFinset := by
    ext x; simp
  unfold Mobius.utility utilitySpec
  dsimp only
  rw [foldl_set_eq, List.append_nil, values_graph]
  split
  · rename_i h1
    have hstep : (fun (u : R) x => if x > 0 then u + L.Log x else u + L.Log EPSILON)
        = fun u x => u + phi L s.Alpha (floored x) := by
      funext u x
      unfold phi floored
      rw [if_pos h1]
      split <;> rfl
    rw [hstep, foldl_add_eq_sum (fun x => phi L s.Alpha (floored x)), zero_add, List.map_map,
      ← List.sum_toFinset _ (List.nodup_dedup _), hfin]
    rfl
  · rename_i h1
    have hstep : (fun (u : R) x =>
          if x > 0 then u + L.Pow x (1 - s.Alpha) / (1 - s.Alpha)
          else u + L.Pow EPSILON (1 - s.Alpha) / (1 - s.Alpha))
        = fun u x => u + phi L s.Alpha (floored x) := by
      funext u x
      unfold phi floored
      rw [if_neg h1]
      split <;> rfl
    rw [hstep, foldl_add_eq_sum (fun x => phi L s.Alpha (floored x)), zero_add, List.map_map,
      ← List.sum_toFinset _ (List.nodup_dedup _), hfin]
    rfl

/-- C4. Utility definition: `Mobius.utility` equals the sum, over exactly the active
app ids, of `φ` at `δ·h_i + a_i` when that is positive and at `ε = 0.1` otherwise,
with `φ(x) = log x` when `α = 1` and `x^(1−α)/(1−α)` otherwise; an entry missing
from a map reads as 0. -/
theorem C4_utility_definition (L : Lib R) (s : Mobius R) (a : Allocation R) :
    s.utility L a
        = ∑ id in s.app_ids.toFinset,
            phi L s.Alpha (floored (s.Discount * GoMap.get s.Historical id + GoMap.get a id))
      ∧ (∀ x : R, floored x = if x > 0 then x else 1 / 10)
      ∧ (∀ x : R, phi L s.Alpha x
          = if s.Alpha = 1 then L.Log x else L.Pow x (1 - s.Alpha) / (1 - s.Alpha))
      ∧ ∀ (m : Allocation R) (id : Int), id ∉ GoMap.keys m → GoMap.get m id = 0 :=
  ⟨utility_eq_sum L s a, fun _ => rfl, fun _ => rfl, GoMap.get_eq_zero_of_not_mem⟩

end C4

section C3

theorem GoMap.get_set_self {R : Type} [Zero R] (m : GoMap Int R) (k : Int) (v : R) :
    GoMap.get (GoMap.set m k v) k = v := by
  simp [GoMap.get, GoMap.set, GoMap.find]

theorem GoMap.get_set_of_ne {R : Type} [Zero R] (m : GoMap Int R) (k j : Int) (v : R)
    (h : k ≠ j) : GoMap.get (GoMap.set m k v) j = GoMap.get m j := by
  simp [GoMap.get, GoMap.set, GoMap.find, h]

/-- Over the reals `φ` is strictly increasing on the positive numbers. -/
theorem phi_strictMono (L : Lib ℝ) (hlog : L.Log = Real.log) (hpow : L.Pow = fun x y => x ^ y)
    (alpha x y : ℝ) (hx : 0 < x) (hxy : x < y) : phi L alpha x < phi L alpha y := by
  unfold phi
  rw [hlog, hpow]
  split
  · exact Real.log_lt_log hx hxy
  · rename_i h1
    rcases lt_or_gt_of_ne h1 with h | h
    · have hz : 0 < 1 - alpha := by linarith
      exact div_lt_div_of_pos_right (Real.rpow_lt_rpow hx.le hxy hz) hz
    · have hz : 1 - alpha < 0 := by linarith
      exact div_lt_div_of_neg_of_lt hz (Real.rpow_lt_rpow_of_neg hx hxy hz)

/-- C3 (amended). Utility monotonicity: raising the allocation of one active app
from `x` to `y > x`, all else fixed, strictly raises `Mobius.utility` whenever the
argument `δ·h_i + x` is positive (so that the `ε` floor does not apply). -/
theorem C3_utility_monotone (L : Lib ℝ) (hlog : L.Log = Real.log)
    (hpow : L.Pow = fun x y => x ^ y) (s : Mobius ℝ) (a : Allocation ℝ) (id : Int)
    (hid : id ∈ s.app_ids) (y : ℝ) (hxy : GoMap.get a id < y)
    (hpos : 0 < s.Discount * GoMap.get s.Historical id + GoMap.get a id) :
    s.utility L a < s.utility L (GoMap.set a id y) := by
  rw [utility_eq_sum, utility_eq_sum]
  unfold utilitySpec
  apply Finset.sum_lt_sum
  · intro j _
    by_cases h : id = j
    · subst h
      rw [GoMap.get_set_self]
      have hpos' : 0 < s.Discount * GoMap.get s.Historical id + y := by linarith
      rw [floored, floored, if_pos hpos, if_pos hpos']
      exact (phi_strictMono L hlog hpow _ _ _ hpos (by linarith)).le
    · rw [GoMap.get_set_of_ne a id j y h]
  · refine ⟨id, List.mem_toFinset.2 hid, ?_⟩
    rw [GoMap.get_set_self]
    have hpos' : 0 < s.Discount * GoMap.get s.Historical id + y := by linarith
    rw [floored, floored, if_pos hpos, if_pos hpos']
    exact phi_strictMono L hlog hpow _ _ _ hpos (by linarith)

/-- C3 (amended) with `α = 2`, no history: raising app 0 from 1 to 2. -/
theorem C3_utility_monotone_witness :
    realLib.Log = Real.log ∧ (realLib.Pow = fun x y => x ^ y) ∧
      (0 : Int) ∈ (realState 2 []).app_ids ∧
      GoMap.get ([(0, 1), (1, 1)] : Allocation ℝ) 0 < 2 ∧
      0 < (realState 2 []).Discount * GoMap.get (realState 2 []).Historical 0
            + GoMap.get ([(0, 1), (1, 1)] : Allocation ℝ) 0 ∧
      (realState 2 []).utility realLib [(0, 1), (1, 1)]
        < (realState 2 []).utility realLib (GoMap.set [(0, 1), (1, 1)] 0 2) :=
  have h1 : (0 : Int) ∈ (realState 2 []).app_ids := by simp [realState]
  have h2 : GoMap.get ([(0, 1), (1, 1)] : Allocation ℝ) 0 < 2 := by
    simp [GoMap.get, GoMap.find]
  have h3 : 0 < (realState 2 []).Discount * GoMap.get (realState 2 []).Historical 0
      + GoMap.get ([(0, 1), (1, 1)] : Allocation ℝ) 0 := by
    simp [GoMap.get, GoMap.find, realState]
  ⟨rfl, rfl, h1, h2, h3,
    C3_utility_monotone realLib rfl rfl (realState 2 []) [(0, 1), (1, 1)] 0 h1 2 h2 h3⟩

/-- C3 as stated fails at `x = 0`: with `α = 1`, `δ = 1` and no history, raising
app 0 from 0 to 0.05 lowers the utility, since the zero argument is floored to
`ε = 0.1` and `log 0.05 < log 0.1`. -/
theorem C3_counterexample :
    (0 : ℝ) < (realState 1 []).Alpha ∧ 0 ≤ (realState 1 []).Discount ∧
      (realState 1 []).Discount ≤ 1 ∧
      (∀ id, 0 ≤ GoMap.get (realState 1 []).Historical id) ∧
      (0 : Int) ∈ (realState 1 []).app_ids ∧
      0 ≤ GoMap.get ([(0, 0), (1, 1)] : Allocation ℝ) 0 ∧
      GoMap.get ([(0, 0), (1, 1)] : Allocation ℝ) 0 < 1 / 20 ∧
      (realState 1 []).utility realLib (GoMap.set [(0, 0), (1, 1)] 0 (1 / 20))
        < (realState 1 []).utility realLib [(0, 0), (1, 1)] := by
  refine ⟨by simp [realState], by simp [realState], by simp [realState],
    fun id => by simp [realState, GoMap.get, GoMap.find], by simp [realState],
    by simp [GoMap.get, GoMap.find], by simp [GoMap.get, GoMap.find], ?_⟩
  rw [utility_eq_sum, utility_eq_sum]
  simp [utilitySpec, realState, realLib, phi, floored, GoMap.get, GoMap.find, GoMap.set, EPSILON]
  apply Real.log_lt_log <;> norm_num

end C3

/-! ## C5: the per-face optimum lies on the hyperplane -/

section C5

variable {R : Type} [LinearOrderedField R]

theorem GoMap.values_eq_map_get (m : GoMap Int R) :
    GoMap.values m = (GoMap.keys m).map (GoMap.get m) := by
  unfold GoMap.values
  have : ∀ l : List Int, (∀ k ∈ l, k ∈ GoMap.keys m) →
      l.filterMap (GoMap.find m) = l.map (GoMap.get m) := by
    intro l hl
    induction l with
    | nil => rfl
    | cons k l ih =>
      have hk : GoMap.find m k ≠ none := fun h =>
        (GoMap.find_eq_none_iff m k).1 h (hl k (List.mem_cons_self _ _))
      obtain ⟨v, hv⟩ := Option.ne_none_iff_exists'.1 hk
      rw [List.filterMap_cons, hv, List.map_cons, ih fun k hk => hl k (List.mem_cons_of_mem _ hk)]
      simp [GoMap.get, hv]
  exact this _ fun k hk => hk

/-- A sum over the values of the map of `weight_vector_to_map` is the sum over the
weight vector. -/
theorem sum_values_zip (ids : List Int) (ws : List R) (hnd : ids.Nodup)
    (hlen : ids.length ≤ ws.length) (g : R → R) :
    ((GoMap.values (ids.zip ws).reverse).map g).sum = ((ids.zip ws).map fun p => g p.2).sum := by
  obtain ⟨h1, _⟩ := get_zip_reverse ids ws hnd hlen
  have hkeys : GoMap.keys (ids.zip ws).reverse = ids.reverse := by
    rw [GoMap.keys, List.map_reverse, List.map_fst_zip _ _ hlen]
    exact (List.nodup_reverse.2 hnd).dedup
  rw [GoMap.values_eq_map_get, hkeys, List.map_map, List.map_reverse, List.sum_reverse]
  have e : (ids.map (g ∘ GoMap.get (ids.zip ws).reverse))
      = (ids.zip ws).map fun p => g (GoMap.get (ids.zip ws).reverse p.1) := by
    have := congrArg (List.map (g ∘ GoMap.get (ids.zip ws).reverse))
      (List.map_fst_zip ids ws hlen)
    rw [List.map_map] at this
    exact this.symm
  rw [e]
  congr 1
  apply List.map_congr_left
  intro p hp
  rw [h1 p hp]

/-- The result of `compute_opt` in an initialized state, in terms of the face
equation `(c, weights)`. -/
theorem Mobius.compute_opt_eq (L : Lib R) (s : Mobius R) (hs : s.Initialized)
    (face : List (fpoint R)) (hK : face.length = s.num_apps) (c : R) (weights : List R)
    (hfe : s.compute_face_equation L face = .ok (c, weights)) :
    s.compute_opt L face
      = .ok ((s.app_ids.zip weights).map fun p =>
          L.Pow (L.Pow (c / ((s.app_ids.zip weights).map fun q =>
            L.Pow q.2 (1 - 1 / s.Alpha)).sum) (-s.Alpha) * p.2) (-1 / s.Alpha)) := by
  obtain ⟨hlen, _, _⟩ := s.face_equation_spec L hs face hK c weights hfe
  have hle : s.app_ids.length ≤ weights.length := by rw [hlen, hs.num]
  obtain ⟨h1, _⟩ := get_zip_reverse s.app_ids weights hs.sorted.nodup hle
  unfold Mobius.compute_opt
  rw [hfe]
  dsimp only
  rw [s.weight_vector_to_map_eq weights hle]
  dsimp only
  rw [if_neg (by rw [hs.num]; exact lt_irrefl _), hs.num, Nat.sub_self, List.replicate_zero,
    List.append_nil]
  unfold Mobius.compute_lagrangian
  dsimp only
  rw [foldl_add_eq_sum (fun weight => L.Pow weight (1 - 1 / s.Alpha)), zero_add,
    sum_values_zip s.app_ids weights hs.sorted.nodup hle]
  congr 1
  have e : ∀ F : Int → R, s.app_ids.map F = (s.app_ids.zip weights).map fun p => F p.1 := by
    intro F
    have := congrArg (List.map F) (List.map_fst_zip s.app_ids weights hle)
    rw [List.map_map] at this
    exact this.symm
  rw [e]
  apply List.map_congr_left
  intro p hp
  rw [h1 p hp]

/-- The Lagrangian point, one coordinate: `w · (λ w)^(−1/α) = (c/d) · w^(1−1/α)`
for `λ = (c/d)^(−α)`. -/
theorem weight_mul_opt (c d alpha w : ℝ) (hc : 0 < c) (hd : 0 < d) (ha : 0 < alpha)
    (hw : 0 < w) :
    w * ((c / d) ^ (-alpha) * w) ^ (-1 / alpha) = c / d * w ^ (1 - 1 / alpha) := by
  have hcd : 0 < c / d := div_pos hc hd
  have hlam : 0 ≤ (c / d) ^ (-alpha) := Real.rpow_nonneg hcd.le _
  have h1 : ((c / d) ^ (-alpha)) ^ (-1 / alpha) = c / d := by
    rw [← Real.rpow_mul hcd.le]
    have : -alpha * (-1 / alpha) = 1 := by field_simp
    rw [this, Real.rpow_one]
  have h2 : w * w ^ (-1 / alpha) = w ^ (1 - 1 / alpha) := by
    have : (1 : ℝ) - 1 / alpha = 1 + -1 / alpha := by ring
    rw [this, Real.rpow_add hw, Real.rpow_one]
  rw [Real.mul_rpow hlam hw.le, h1, ← h2]
  ring

/-- The dot product of the weights with the Lagrangian point is `c`. -/
theorem dot_opt (Z : List (Int × ℝ)) (c alpha : ℝ) (hc : 0 < c) (ha : 0 < alpha)
    (hZ : Z ≠ []) (hw : ∀ p ∈ Z, 0 < p.2) :
    (Z.map fun p =>
        p.2 * ((c / (Z.map fun q => q.2 ^ (1 - 1 / alpha)).sum) ^ (-alpha) * p.2)
          ^ (-1 / alpha)).sum = c := by
  have hd : 0 < (Z.map fun q => q.2 ^ (1 - 1 / alpha)).sum := by
    apply List.sum_pos
    · intro x hx
      obtain ⟨p, hp, rfl⟩ := List.mem_map.1 hx
      exact Real.rpow_pos_of_pos (hw p hp) _
    · simpa using hZ
  have e : (Z.map fun p =>
        p.2 * ((c / (Z.map fun q => q.2 ^ (1 - 1 / alpha)).sum) ^ (-alpha) * p.2)
          ^ (-1 / alpha))
      = Z.map fun p => c / (Z.map fun q => q.2 ^ (1 - 1 / alpha)).sum
          * p.2 ^ (1 - 1 / alpha) := by
    apply List.map_congr_left
    intro p hp
    exact weight_mul_opt c _ alpha p.2 hc hd ha (hw p hp)
  rw [e, List.sum_map_mul_left]
  exact div_mul_cancel₀ c hd.ne'

/-- C5. Per-face optimum on the face hyperplane: over the reals, for `α > 0`, in an
initialized state, for a face of `num_apps` points whose equation `(c, w)` has
`c > 0` and every weight positive, `compute_opt` returns a point `x*` of `num_apps`
coordinates with `w · x* = c`. -/
theorem C5_opt_on_hyperplane (L : Lib ℝ) (hpow : L.Pow = fun x y => x ^ y) (s : Mobius ℝ)
    (hs : s.Initialized) (ha : 0 < s.Alpha) (face : List (fpoint ℝ))
    (hK : face.length = s.num_apps) (c : ℝ) (weights : List ℝ)
    (hfe : s.compute_face_equation L face = .ok (c, weights)) (hc : 0 < c)
    (hw : ∀ x ∈ weights, 0 < x) :
    ∃ x_opt, s.compute_opt L face = .ok x_opt ∧ x_opt.length = s.num_apps ∧
      ((weights.zip x_opt).map fun p => p.1 * p.2).sum = c := by
  obtain ⟨hlen, _, _⟩ := s.face_equation_spec L hs face hK c weights hfe
  have hle : weights.length ≤ s.app_ids.length := by rw [hlen, hs.num]
  obtain ⟨rest, hids, _, _, _⟩ := hs.ids_eq
  refine ⟨_, s.compute_opt_eq L hs face hK c weights hfe, ?_, ?_⟩
  · simp [hlen, hs.num]
  · rw [hpow]
    have hsnd : weights = (s.app_ids.zip weights).map Prod.snd :=
      (List.map_snd_zip _ _ hle).symm
    have hz : ∀ F : Int × ℝ → ℝ, weights.zip ((s.app_ids.zip weights).map F)
        = (s.app_ids.zip weights).map fun p => (p.2, F p) := by
      intro F
      conv_lhs => arg 1; rw [hsnd]
      rw [List.zip_map']
    have hZne : s.app_ids.zip weights ≠ [] := by
      rw [hids]
      cases weights with
      | nil => simp [hs.num, hids] at hlen
      | cons x tl => simp
    have hpos : ∀ p ∈ s.app_ids.zip weights, 0 < p.2 := fun p hp =>
      hw p.2 (List.of_mem_zip hp).2
    rw [hz, List.map_map]
    exact dot_opt (s.app_ids.zip weights) c s.Alpha hc ha hZne hpos

theorem realState_initialized (alpha : ℝ) (hist : Allocation ℝ) :
    (realState alpha hist).Initialized :=
  ⟨by simp [realState], rfl, rfl⟩

theorem real_face_equation (alpha : ℝ) (hist : Allocation ℝ) :
    (realState alpha hist).compute_face_equation realLib realFace = .ok (2, [1, 1]) := by
  simp [Mobius.compute_face_equation, SolveVec, Mobius.face_rows, Mobius.face_rhs, realState,
    realFace, pointOf, scheduleOf, GoMap.get, GoMap.find, Matrix.det_fin_two,
    Matrix.adjugate_fin_two, Schedule.zero, Matrix.mulVec, Matrix.dotProduct, Fin.sum_univ_two,
    List.ofFn_succ]
  norm_num

/-- C5 with `α = 2` at the face through `(2, 0)` and `(0, 2)`, whose equation is
`x₀ + x₁ = 2`. -/
theorem C5_opt_on_hyperplane_witness :
    (realLib.Pow = fun x y => x ^ y) ∧ (realState 2 []).Initialized ∧
      0 < (realState 2 []).Alpha ∧ realFace.length = (realState 2 []).num_apps ∧
      (realState 2 []).compute_face_equation realLib realFace = .ok (2, [1, 1]) ∧
      (0 : ℝ) < 2 ∧ (∀ x ∈ ([1, 1] : List ℝ), 0 < x) ∧
      ∃ x_opt, (realState 2 []).compute_opt realLib realFace = .ok x_opt ∧
        x_opt.length = (realState 2 []).num_apps ∧
        ((([1, 1] : List ℝ).zip x_opt).map fun p => p.1 * p.2).sum = 2 :=
  have ha : 0 < (realState 2 []).Alpha := by simp [realState]
  have hw : ∀ x ∈ ([1, 1] : List ℝ), 0 < x := by simp
  ⟨rfl, realState_initialized 2 [], ha, rfl, real_face_equation 2 [], by norm_num, hw,
    C5_opt_on_hyperplane realLib rfl (realState 2 []) (realState_initialized 2 []) ha realFace
      rfl 2 [1, 1] (real_face_equation 2 []) (by norm_num) hw⟩

end C5

/-! ## C6: the per-face optimum against the vertices -/

section C6

theorem bernoulli_phi (b t : ℝ) (hb1 : b < 1) (hb0 : b ≠ 0) (ht : 0 < t) :
    (t ^ b - 1) / b ≤ t - 1 := by
  rcases lt_or_gt_of_ne hb0 with hneg | hpos
  · have h1 : b * Real.log t + 1 ≤ t ^ b := by
      rw [Real.rpow_def_of_pos ht, mul_comm]
      exact Real.add_one_le_exp _
    have h2 : Real.log t ≤ t - 1 := Real.log_le_sub_one_of_pos ht
    have h3 : b * (t - 1) ≤ b * Real.log t := mul_le_mul_of_nonpos_left h2 hneg.le
    rw [div_le_iff_of_neg hneg]
    linarith
  · have h := rpow_one_add_le_one_add_mul_self (s := t - 1) (by linarith) hpos.le hb1.le
    rw [show 1 + (t - 1) = t by ring] at h
    rw [div_le_iff₀ hpos]
    linarith

theorem pow_tangent (alpha x p : ℝ) (ha : 0 < alpha) (h1 : alpha ≠ 1) (hx : 0 < x)
    (hp : 0 < p) :
    p ^ (1 - alpha) / (1 - alpha) + x ^ (-alpha) * x
      ≤ x ^ (1 - alpha) / (1 - alpha) + x ^ (-alpha) * p := by
  have hb := bernoulli_phi (1 - alpha) (p / x) (by linarith) (sub_ne_zero.2 (Ne.symm h1))
    (div_pos hp hx)
  have hxb : 0 < x ^ (1 - alpha) := Real.rpow_pos_of_pos hx _
  have e1 : (p / x) ^ (1 - alpha) = p ^ (1 - alpha) / x ^ (1 - alpha) :=
    Real.div_rpow hp.le hx.le _
  have e2 : x ^ (-alpha) = x ^ (1 - alpha) / x := by
    rw [← Real.rpow_sub_one hx.ne']
    congr 1
    ring
  have hb' := mul_le_mul_of_nonneg_left hb hxb.le
  rw [e1] at hb'
  rw [e2]
  have hbne : (1 - alpha) ≠ 0 := sub_ne_zero.2 (Ne.symm h1)
  generalize x ^ (1 - alpha) = A at hb' hxb ⊢
  generalize p ^ (1 - alpha) = B at hb' ⊢
  generalize 1 - alpha = b at hb' hbne ⊢
  have hA : A ≠ 0 := hxb.ne'
  have hx' : x ≠ 0 := hx.ne'
  have e3 : A * ((B / A - 1) / b) = B / b - A / b := by
    field_simp
    ring
  have e4 : A * (p / x - 1) = A / x * p - A / x * x := by
    field_simp
    ring
  rw [e3, e4] at hb'
  linarith

theorem log_tangent (x p : ℝ) (hx : 0 < x) (hp : 0 < p) :
    Real.log p + x ^ (-(1:ℝ)) * x ≤ Real.log x + x ^ (-(1:ℝ)) * p := by
  have h := Real.log_le_sub_one_of_pos (div_pos hp hx)
  rw [Real.log_div hp.ne' hx.ne'] at h
  rw [Real.rpow_neg_one, inv_mul_cancel₀ hx.ne']
  have : x⁻¹ * p = p / x := by field_simp
  rw [this]
  linarith

/-- The tangent-line inequality of the concave `φ` at `x`, whose slope is `x^(−α)`. -/
theorem phi_tangent (L : Lib ℝ) (hlog : L.Log = Real.log) (hpow : L.Pow = fun x y => x ^ y)
    (alpha x p : ℝ) (ha : 0 < alpha) (hx : 0 < x) (hp : 0 < p) :
    phi L alpha p + x ^ (-alpha) * x ≤ phi L alpha x + x ^ (-alpha) * p := by
  unfold phi
  rw [hlog, hpow]
  split
  · rename_i h1
    subst h1
    exact log_tangent x p hx hp
  · rename_i h1
    exact pow_tangent alpha x p ha h1 hx hp

/-- With no discounted history the utility is a sum along the weight vector. -/
theorem Mobius.utility_zip (L : Lib ℝ) (s : Mobius ℝ) (hs : s.Initialized) (weights : List ℝ)
    (hle : s.app_ids.length ≤ weights.length)
    (hh : ∀ id ∈ s.app_ids, s.Discount * GoMap.get s.Historical id = 0) (a : Allocation ℝ) :
    s.utility L a
      = ((s.app_ids.zip weights).map fun q => phi L s.Alpha (floored (GoMap.get a q.1))).sum := by
  rw [utility_eq_sum, utilitySpec, List.sum_toFinset _ hs.sorted.nodup]
  have e : ∀ G : Int → ℝ, s.app_ids.map G = (s.app_ids.zip weights).map fun q => G q.1 := by
    intro G
    have := congrArg (List.map G) (List.map_fst_zip s.app_ids weights hle)
    rw [List.map_map] at this
    exact this.symm
  rw [e]
  congr 1
  apply List.map_congr_left
  intro q hq
  rw [hh q.1 (List.of_mem_zip hq).1, zero_add]

/-- Reading the allocation of a point given coordinate by coordinate. -/
theorem get_zip_map (Z : List (Int × ℝ)) (hnd : (Z.map Prod.fst).Nodup) (F : Int × ℝ → ℝ)
    (q : Int × ℝ) (hq : q ∈ Z) :
    GoMap.get ((Z.map Prod.fst).zip (Z.map F)) q.1 = F q := by
  rw [List.zip_map']
  have hk : ((Z.map fun a => (a.1, F a)).map Prod.fst).Nodup := by
    rw [List.map_map]
    exact hnd
  have := (GoMap.find_eq_some_iff_mem (Z.map fun a => (a.1, F a)) hk q.1 (F q)).2
    (List.mem_map.2 ⟨q, hq, rfl⟩)
  simp [GoMap.get, this]

/-- The optimality of the Lagrangian point on the hyperplane `Σ w·x = c` among the
positive points of the hyperplane. -/
theorem sum_phi_le_opt (L : Lib ℝ) (hlog : L.Log = Real.log) (hpow : L.Pow = fun x y => x ^ y)
    (Z : List (Int × ℝ)) (c alpha lam : ℝ) (ha : 0 < alpha) (hlam : 0 < lam)
    (hw : ∀ q ∈ Z, 0 < q.2) (a : Int → ℝ) (hpos : ∀ q ∈ Z, 0 < a q.1)
    (hface : (Z.map fun q => q.2 * a q.1).sum = c)
    (hopt : (Z.map fun q => q.2 * (lam * q.2) ^ (-1 / alpha)).sum = c) :
    (Z.map fun q => phi L alpha (a q.1)).sum
      ≤ (Z.map fun q => phi L alpha ((lam * q.2) ^ (-1 / alpha))).sum := by
  have hpt : ∀ q ∈ Z, phi L alpha (a q.1) + lam * (q.2 * (lam * q.2) ^ (-1 / alpha))
      ≤ phi L alpha ((lam * q.2) ^ (-1 / alpha)) + lam * (q.2 * a q.1) := by
    intro q hq
    have hlw : 0 < lam * q.2 := mul_pos hlam (hw q hq)
    have hx : 0 < (lam * q.2) ^ (-1 / alpha) := Real.rpow_pos_of_pos hlw _
    have hslope : ((lam * q.2) ^ (-1 / alpha)) ^ (-alpha) = lam * q.2 := by
      rw [← Real.rpow_mul hlw.le]
      have : -1 / alpha * -alpha = 1 := by field_simp
      rw [this, Real.rpow_one]
    have := phi_tangent L hlog hpow alpha _ (a q.1) ha hx (hpos q hq)
    rw [hslope] at this
    linarith
  have hsum := List.sum_le_sum hpt
  rw [List.sum_map_add, List.sum_map_add, List.sum_map_mul_left, List.sum_map_mul_left, hface,
    hopt] at hsum
  linarith

/-- C6 (amended). Per-face optimum against the vertices: over the reals, for
`α > 0`, in an initialized state without discounted history (`δ·h_i = 0` for every
app), for a face of `num_apps` points whose equation has `c > 0` and positive
weights, the utility of the point returned by `compute_opt` is at least the utility
of every vertex of the face whose allocation is positive for every app. -/
theorem C6_opt_dominates_vertices (L : Lib ℝ) (hlog : L.Log = Real.log)
    (hpow : L.Pow = fun x y => x ^ y) (s : Mobius ℝ) (hs : s.Initialized) (ha : 0 < s.Alpha)
    (hh : ∀ id ∈ s.app_ids, s.Discount * GoMap.get s.Historical id = 0)
    (face : List (fpoint ℝ)) (hK : face.length = s.num_apps) (c : ℝ) (weights : List ℝ)
    (hfe : s.compute_face_equation L face = .ok (c, weights)) (hc : 0 < c)
    (hw : ∀ x ∈ weights, 0 < x) (p : fpoint ℝ) (hp : p ∈ face)
    (hpp : ∀ id ∈ s.app_ids, 0 < GoMap.get p.schedule.Allocation id) :
    ∃ x_opt, s.compute_opt L face = .ok x_opt ∧
      s.utility L p.schedule.Allocation ≤ s.utility L (s.pointAllocation x_opt) := by
  obtain ⟨hlen, _, hdot⟩ := s.face_equation_spec L hs face hK c weights hfe
  have hle : s.app_ids.length ≤ weights.length := by rw [hlen, hs.num]
  obtain ⟨rest, hids, _, _, _⟩ := hs.ids_eq
  have hZne : s.app_ids.zip weights ≠ [] := by
    rw [hids]
    cases weights with
    | nil => simp [hs.num, hids] at hlen
    | cons x tl => simp
  have hwZ : ∀ q ∈ s.app_ids.zip weights, 0 < q.2 := fun q hq =>
    hw q.2 (List.of_mem_zip hq).2
  have hd : 0 < ((s.app_ids.zip weights).map fun q => q.2 ^ (1 - 1 / s.Alpha)).sum := by
    apply List.sum_pos
    · intro x hx
      obtain ⟨q, hq, rfl⟩ := List.mem_map.1 hx
      exact Real.rpow_pos_of_pos (hwZ q hq) _
    · simpa using hZne
  have hlam : 0 < (c / ((s.app_ids.zip weights).map fun q => q.2 ^ (1 - 1 / s.Alpha)).sum)
      ^ (-s.Alpha) := Real.rpow_pos_of_pos (div_pos hc hd) _
  have hopt := s.compute_opt_eq L hs face hK c weights hfe
  simp only [hpow] at hopt
  refine ⟨_, hopt, ?_⟩
  have hfst : (s.app_ids.zip weights).map Prod.fst = s.app_ids := List.map_fst_zip _ _ hle
  have hnd : ((s.app_ids.zip weights).map Prod.fst).Nodup := by
    rw [hfst]; exact hs.sorted.nodup
  rw [s.utility_zip L hs weights hle hh, s.utility_zip L hs weights hle hh]
  have e1 : ((s.app_ids.zip weights).map fun q =>
        phi L s.Alpha (floored (GoMap.get p.schedule.Allocation q.1)))
      = (s.app_ids.zip weights).map fun q =>
        phi L s.Alpha (GoMap.get p.schedule.Allocation q.1) := by
    apply List.map_congr_left
    intro q hq
    rw [floored, if_pos (hpp q.1 (List.of_mem_zip hq).1)]
  have e2 : ((s.app_ids.zip weights).map fun q =>
        phi L s.Alpha (floored (GoMap.get (s.pointAllocation
          ((s.app_ids.zip weights).map fun p =>
            ((c / ((s.app_ids.zip weights).map fun q => q.2 ^ (1 - 1 / s.Alpha)).sum)
              ^ (-s.Alpha) * p.2) ^ (-1 / s.Alpha))) q.1)))
      = (s.app_ids.zip weights).map fun q =>
        phi L s.Alpha
          (((c / ((s.app_ids.zip weights).map fun q => q.2 ^ (1 - 1 / s.Alpha)).sum)
              ^ (-s.Alpha) * q.2) ^ (-1 / s.Alpha)) := by
    apply List.map_congr_left
    intro q hq
    have hxa : s.pointAllocation
          ((s.app_ids.zip weights).map fun p =>
            ((c / ((s.app_ids.zip weights).map fun q => q.2 ^ (1 - 1 / s.Alpha)).sum)
              ^ (-s.Alpha) * p.2) ^ (-1 / s.Alpha))
        = ((s.app_ids.zip weights).map Prod.fst).zip
          ((s.app_ids.zip weights).map fun p =>
            ((c / ((s.app_ids.zip weights).map fun q => q.2 ^ (1 - 1 / s.Alpha)).sum)
              ^ (-s.Alpha) * p.2) ^ (-1 / s.Alpha)) := by
      rw [hfst]; rfl
    rw [hxa, get_zip_map _ hnd _ q hq, floored,
      if_pos (Real.rpow_pos_of_pos (mul_pos hlam (hwZ q hq)) _)]
  rw [e1, e2]
  exact sum_phi_le_opt L hlog hpow _ c s.Alpha _ ha hlam hwZ
    (fun id => GoMap.get p.schedule.Allocation id)
    (fun q hq => hpp q.1 (List.of_mem_zip hq).1) (hdot p hp)
    (dot_opt _ c s.Alpha hc ha hZne hwZ)

theorem positive_face_equation (alpha : ℝ) (hist : Allocation ℝ) :
    (realState alpha hist).compute_face_equation realLib positiveFace = .ok (4, [1, 1]) := by
  simp [Mobius.compute_face_equation, SolveVec, Mobius.face_rows, Mobius.face_rhs, realState,
    positiveFace, pointOf, scheduleOf, GoMap.get, GoMap.find, Matrix.det_fin_two,
    Matrix.adjugate_fin_two, Schedule.zero, Matrix.mulVec, Matrix.dotProduct, Fin.sum_univ_two,
    List.ofFn_succ]
  norm_num

theorem tiny_face_equation (alpha : ℝ) (hist : Allocation ℝ) :
    (realState alpha hist).compute_face_equation realLib tinyFace = .ok (1 / 10, [1, 1]) := by
  simp [Mobius.compute_face_equation, SolveVec, Mobius.face_rows, Mobius.face_rhs, realState,
    tinyFace, pointOf, scheduleOf, GoMap.get, GoMap.find, Matrix.det_fin_two,
    Matrix.adjugate_fin_two, Schedule.zero, Matrix.mulVec, Matrix.dotProduct, Fin.sum_univ_two,
    List.ofFn_succ]
  norm_num

/-- With `α = 1` and the equation `x₀ + x₁ = c` the optimum is `(c/2, c/2)`. -/
theorem real_compute_opt (hist : Allocation ℝ) (face : List (fpoint ℝ)) (hK : face.length = 2)
    (c : ℝ) (hfe : (realState 1 hist).compute_face_equation realLib face = .ok (c, [1, 1])) :
    (realState 1 hist).compute_opt realLib face = .ok [c / 2, c / 2] := by
  rw [(realState 1 hist).compute_opt_eq realLib (realState_initialized 1 hist) face hK c [1, 1]
    hfe]
  simp [realState, realLib, Real.rpow_neg_one]
  norm_num

/-- C6 (amended) with `α = 1`, no history, at the face through `(3, 1)` and
`(1, 3)` and its vertex `(3, 1)`. -/
theorem C6_opt_dominates_vertices_witness :
    realLib.Log = Real.log ∧ (realLib.Pow = fun x y => x ^ y) ∧
      (realState 1 []).Initialized ∧ 0 < (realState 1 []).Alpha ∧
      (∀ id ∈ (realState 1 []).app_ids,
        (realState 1 []).Discount * GoMap.get (realState 1 []).Historical id = 0) ∧
      positiveFace.length = (realState 1 []).num_apps ∧
      (realState 1 []).compute_face_equation realLib positiveFace = .ok (4, [1, 1]) ∧
      (0 : ℝ) < 4 ∧ (∀ x ∈ ([1, 1] : List ℝ), 0 < x) ∧
      pointOf [(0, 3), (1, 1)] ∈ positiveFace ∧
      (∀ id ∈ (realState 1 []).app_ids,
        0 < GoMap.get (pointOf ([(0, 3), (1, 1)] : Allocation ℝ)).schedule.Allocation id) ∧
      ∃ x_opt, (realState 1 []).compute_opt realLib positiveFace = .ok x_opt ∧
        (realState 1 []).utility realLib
            (pointOf ([(0, 3), (1, 1)] : Allocation ℝ)).schedule.Allocation
          ≤ (realState 1 []).utility realLib ((realState 1 []).pointAllocation x_opt) :=
  have ha : 0 < (realState 1 []).Alpha := by simp [realState]
  have hh : ∀ id ∈ (realState 1 []).app_ids,
      (realState 1 []).Discount * GoMap.get (realState 1 []).Historical id = 0 := by
    intro id _
    simp [realState, GoMap.get, GoMap.find]
  have hw : ∀ x ∈ ([1, 1] : List ℝ), 0 < x := by simp
  have hp : pointOf [(0, 3), (1, 1)] ∈ positiveFace := by simp [positiveFace]
  have hpp : ∀ id ∈ (realState 1 []).app_ids,
      0 < GoMap.get (pointOf ([(0, 3), (1, 1)] : Allocation ℝ)).schedule.Allocation id := by
    intro id hid
    simp only [realState, List.mem_cons, List.mem_singleton, List.not_mem_nil, or_false] at hid
    rcases hid with rfl | rfl <;> simp [pointOf, scheduleOf, GoMap.get, GoMap.find]
  ⟨rfl, rfl, realState_initialized 1 [], ha, hh, rfl, positive_face_equation 1 [],
    by norm_num, hw, hp, hpp,
    C6_opt_dominates_vertices realLib rfl rfl (realState 1 []) (realState_initialized 1 []) ha hh
      positiveFace rfl 4 [1, 1] (positive_face_equation 1 []) (by norm_num) hw _ hp hpp⟩

/-- C6 as stated fails in two ways, both with `α = 1` and a face equation with
`c > 0` and weights `(1, 1)`.  With the history `h = (0, 100)` and the face through
`(2, 0)` and `(0, 2)` the optimum `(1, 1)` has utility `log 1 + log 101`, below the
`log 2 + log 100` of the vertex `(2, 0)`.  Without history, on the face through
`(0.1, 0)` and `(0, 0.1)`, the optimum `(0.05, 0.05)` has utility `2 log 0.05`,
below the `2 log 0.1` of the vertex `(0.1, 0)`, whose zero is floored to `ε`. -/
theorem C6_counterexample :
    (0 < (realState 1 [(1, 100)]).Alpha ∧ (realState 1 [(1, 100)]).Initialized ∧
        realFace.length = (realState 1 [(1, 100)]).num_apps ∧
        (realState 1 [(1, 100)]).compute_face_equation realLib realFace = .ok (2, [1, 1]) ∧
        (realState 1 [(1, 100)]).compute_opt realLib realFace = .ok [1, 1] ∧
        pointOf [(0, 2), (1, 0)] ∈ realFace ∧
        (realState 1 [(1, 100)]).utility realLib
            ((realState 1 [(1, 100)]).pointAllocation [1, 1])
          < (realState 1 [(1, 100)]).utility realLib
            (pointOf ([(0, 2), (1, 0)] : Allocation ℝ)).schedule.Allocation) ∧
      (0 < (realState 1 []).Alpha ∧ (realState 1 []).Initialized ∧
        tinyFace.length = (realState 1 []).num_apps ∧
        (realState 1 []).compute_face_equation realLib tinyFace = .ok (1 / 10, [1, 1]) ∧
        (realState 1 []).compute_opt realLib tinyFace = .ok [1 / 20, 1 / 20] ∧
        pointOf [(0, 1 / 10), (1, 0)] ∈ tinyFace ∧
        (realState 1 []).utility realLib ((realState 1 []).pointAllocation [1 / 20, 1 / 20])
          < (realState 1 []).utility realLib
            (pointOf ([(0, 1 / 10), (1, 0)] : Allocation ℝ)).schedule.Allocation) := by
  refine ⟨⟨by simp [realState], realState_initialized _ _, rfl, real_face_equation _ _, ?_,
    by simp [realFace], ?_⟩, ⟨by simp [realState], realState_initialized _ _, rfl,
    tiny_face_equation _ _, ?_, by simp [tinyFace], ?_⟩⟩
  · rw [real_compute_opt _ realFace rfl 2 (real_face_equation _ _)]
    norm_num
  · rw [utility_eq_sum, utility_eq_sum]
    simp [utilitySpec, realState, realLib, phi, floored, GoMap.get, GoMap.find,
      Mobius.pointAllocation, pointOf, scheduleOf, EPSILON]
    rw [if_pos (by norm_num), ← Real.log_mul (by norm_num) (by norm_num)]
    exact Real.log_lt_log (by norm_num) (by norm_num)
  · rw [real_compute_opt _ tinyFace rfl (1 / 10) (tiny_face_equation _ _)]
    norm_num
  · rw [utility_eq_sum, utility_eq_sum]
    simp [utilitySpec, realState, realLib, phi, floored, GoMap.get, GoMap.find,
      Mobius.pointAllocation, pointOf, scheduleOf, EPSILON]
    have h := Real.log_lt_log (by norm_num : (0 : ℝ) < 10) (by norm_num : (10 : ℝ) < 20)
    linarith

end C6

/-! ## C7: the containment test and `GetMinMax` -/

section C7

theorem realState3_initialized : realState3.Initialized :=
  ⟨by simp [realState3], rfl, rfl⟩

theorem large_face_equation :
    realState3.compute_face_equation realLib largeFace = .ok (6000, [1, 1, 1]) := by
  simp [Mobius.compute_face_equation, SolveVec, Mobius.face_rows, Mobius.face_rhs, realState3,
    largeFace, pointOf, scheduleOf, GoMap.get, GoMap.find, Matrix.det_fin_three,
    Matrix.adjugate_fin_three, Schedule.zero, Matrix.mulVec, Matrix.dotProduct, Fin.sum_univ_three,
    List.ofFn_succ, Fin.sum_univ_succ]
  norm_num

theorem large_compute_opt :
    realState3.compute_opt realLib largeFace = .ok [2000, 2000, 2000] := by
  rw [realState3.compute_opt_eq realLib realState3_initialized largeFace rfl 6000 [1, 1, 1]
    large_face_equation]
  simp [realState3, realLib, Real.rpow_neg_one]
  norm_num

theorem large_app_allocs :
    GoMap.find (realState3.app_allocs largeFace) 0 = some [2100, 2100, 2200] ∧
    GoMap.find (realState3.app_allocs largeFace) 1 = some [1900, 2000, 2100] ∧
    GoMap.find (realState3.app_allocs largeFace) 2 = some [2000, 1900, 1700] := by
  simp [Mobius.app_allocs, realState3, largeFace, List.enum, List.enumFrom, GoMap.find,
    GoMap.set, GoMap.get, pointOf, scheduleOf, List.replicate]

theorem large_eval_face : realState3.eval_face realLib largeFace = .ok true := by
  unfold Mobius.eval_face
  rw [large_compute_opt]
  obtain ⟨h0, h1, h2⟩ := large_app_allocs
  generalize realState3.app_allocs largeFace = m at h0 h1 h2 ⊢
  simp [Mobius.opt_in_face, opt_in_face_loop, realState3, List.enum, List.enumFrom, GetMinMax,
    h0, h1, h2]
  norm_num

/-- C7, the code at the failing input.  `GetMinMax` starts its minimum at 1000, so
for the app-0 allocations `2100, 2100, 2200` it returns `(1000, 2200)`.  On the
face of these three points the optimum is `(2000, 2000, 2000)`; `eval_face` accepts
the face although the optimum's app-0 component 2000 is below the allocation of
every point of the face. -/
theorem C7_eval_face_large_allocations :
    GetMinMax ([2100, 2100, 2200] : List ℝ) = (1000, 2200) ∧
      realState3.compute_opt realLib largeFace = .ok [2000, 2000, 2000] ∧
      realState3.eval_face realLib largeFace = .ok true ∧
      ∀ f ∈ largeFace, (2000 : ℝ) < GoMap.get f.schedule.Allocation 0 := by
  refine ⟨?_, large_compute_opt, large_eval_face, ?_⟩
  · simp [GetMinMax]
    norm_num
  · intro f hf
    simp only [largeFace, List.mem_cons, List.mem_singleton, List.not_mem_nil, or_false] at hf
    rcases hf with rfl | rfl | rfl <;>
      simp [pointOf, scheduleOf, GoMap.get, GoMap.find] <;> norm_num

end C7

/-! ## C8: accepted extensions against the face constant -/

section C8

variable {R : Type} [LinearOrderedField R]

/-- What a successful `find_extension` went through. -/
theorem Mobius.find_extension_inv (L : Lib R) (s : Mobius R) (face hull : List (fpoint R))
    (s1 : Mobius R) (fp : fpoint R) (h : s.find_extension L face hull = .ok (s1, fp)) :
    ∃ c weights schedule utility,
      s.compute_face_equation L face = .ok (c, weights) ∧ valid_weights weights = true ∧
      s.weight_vector_to_map weights = .ok fp.weights ∧
      s.compute_schedule L fp.weights = .ok (schedule, utility) ∧
      fp = { schedule := schedule, utility := utility, weights := fp.weights } ∧
      c ≤ weighted_reward fp.weights schedule.Allocation ∧
      contains hull schedule.Allocation = false ∧
      s1 = { s with
        heuristics :=
          GoMap.set s.heuristics ("weight_" ++ s.weight_tag L fp.weights) schedule } := by
  unfold Mobius.find_extension at h
  split at h
  · cases h
  · cases h
  · rename_i c weights hfe
    split at h
    · cases h
    · rename_i hvalid
      split at h
      · cases h
      · rename_i w hw
        split at h
        · cases h
        · rename_i schedule utility hsched
          dsimp only at h
          split at h
          · rename_i hacc
            simp only [Except.ok.injEq, Prod.mk.injEq] at h
            obtain ⟨rfl, rfl⟩ := h
            simp only [Bool.and_eq_true, decide_eq_true_eq, Bool.not_eq_true',
              ge_iff_le] at hacc
            exact ⟨c, weights, schedule, utility, hfe, by simpa using hvalid, hw, hsched, rfl,
              hacc.1, hacc.2, rfl⟩
          · cases h

/-- C8 (amended). Hull extension monotonicity: whenever `find_extension` accepts a
new frontier point, the face has an equation `(c, w)`, the point carries the weight
map of `w`, its weighted reward `w · a′` is at least `c` (equality is accepted), and
its allocation is not found in the hull by `contains`. -/
theorem C8_extension_reward (L : Lib R) (s : Mobius R) (face hull : List (fpoint R))
    (s1 : Mobius R) (fp : fpoint R) (h : s.find_extension L face hull = .ok (s1, fp)) :
    ∃ c weights, s.compute_face_equation L face = .ok (c, weights) ∧
      s.weight_vector_to_map weights = .ok fp.weights ∧
      c ≤ weighted_reward fp.weights fp.schedule.Allocation ∧
      contains hull fp.schedule.Allocation = false := by
  obtain ⟨c, weights, schedule, utility, hfe, _, hw, _, hfp, hc, hcont, _⟩ :=
    s.find_extension_inv L face hull s1 fp h
  refine ⟨c, weights, hfe, hw, ?_, ?_⟩
  · rw [hfp]; exact hc
  · rw [hfp]; exact hcont

theorem onFace_face_equation :
    onFaceState.compute_face_equation ratLib sampleFace = .ok (2, [1, 1]) := by
  simp [Mobius.compute_face_equation, SolveVec, Mobius.face_rows, Mobius.face_rhs, onFaceState,
    sampleState, sampleState0, sampleFace, pointOf, scheduleOf, GoMap.get, GoMap.find,
    Matrix.det_fin_two, Matrix.adjugate_fin_two, Schedule.zero, Matrix.mulVec, Matrix.dotProduct,
    Fin.sum_univ_two, List.ofFn_succ]
  norm_num

theorem ratLib_utility (s : Mobius ℚ) (a : Allocation ℚ) : s.utility ratLib a = 0 := by
  rw [utility_eq_sum]
  simp [utilitySpec, phi, ratLib]

/-- With the solver that returns `(1, 1)`, `find_extension` accepts that point on
the face through `(2, 0)` and `(0, 2)`. -/
theorem onFace_find_extension :
    onFaceState.find_extension ratLib sampleFace sampleFace = .ok (onFaceState1, onFacePoint) := by
  unfold Mobius.find_extension
  rw [onFace_face_equation]
  simp [valid_weights, Mobius.weight_vector_to_map, weight_vector_to_map_loop, List.enum,
    List.enumFrom, onFaceState, sampleState, sampleState0, Mobius.compute_schedule, GoMap.len,
    GoMap.keys, GoMap.set, weighted_reward, contains, sampleFace, pointOf, scheduleOf, GoMap.get,
    GoMap.find, Schedule.zero, ratLib_utility]
  norm_num
  exact ⟨rfl, rfl⟩

/-- C8 (amended) at the accepted extension `(1, 1)` of the face through `(2, 0)`
and `(0, 2)`. -/
theorem C8_extension_reward_witness :
    onFaceState.find_extension ratLib sampleFace sampleFace = .ok (onFaceState1, onFacePoint) ∧
      ∃ c weights, onFaceState.compute_face_equation ratLib sampleFace = .ok (c, weights) ∧
        onFaceState.weight_vector_to_map weights = .ok onFacePoint.weights ∧
        c ≤ weighted_reward onFacePoint.weights onFacePoint.schedule.Allocation ∧
        contains sampleFace onFacePoint.schedule.Allocation = false :=
  ⟨onFace_find_extension,
    C8_extension_reward ratLib onFaceState sampleFace sampleFace onFaceState1 onFacePoint
      onFace_find_extension⟩

/-- C8 as stated fails: on the face through `(2, 0)` and `(0, 2)`, whose constant
is `c = 2`, `find_extension` accepts the solver's allocation `(1, 1)`, whose
weighted reward is exactly 2 and does not exceed `c`. -/
theorem C8_counterexample :
    onFaceState.find_extension ratLib sampleFace sampleFace = .ok (onFaceState1, onFacePoint) ∧
      onFaceState.compute_face_equation ratLib sampleFace = .ok (2, [1, 1]) ∧
      onFaceState.weight_vector_to_map [1, 1] = .ok onFacePoint.weights ∧
      weighted_reward onFacePoint.weights onFacePoint.schedule.Allocation = 2 ∧
      ¬ (2 < weighted_reward onFacePoint.weights onFacePoint.schedule.Allocation) := by
  have hwr : weighted_reward onFacePoint.weights onFacePoint.schedule.Allocation = 2 := by
    simp [onFacePoint, weighted_reward, GoMap.keys, GoMap.get, GoMap.find]
    norm_num
  refine ⟨onFace_find_extension, onFace_face_equation, rfl, hwr, ?_⟩
  rw [hwr]
  exact lt_irrefl _

end C8

/-! ## C9: the hull membership test -/

section C9

variable {R : Type} [LinearOrderedField R]

omit [LinearOrderedField R] in
theorem found_foldl (P : Int → Prop) [DecidablePred P] (l : List Int) (b : Bool) :
    l.foldl (fun found id => if P id then false else found) b
      = (b && l.all fun id => !decide (P id)) := by
  induction l generalizing b with
  | nil => simp
  | cons id l ih =>
    rw [List.foldl_cons, ih]
    by_cases h : P id <;> simp [h]

/-- The test of `contains`: some hull point agrees with the allocation on every key
of the hull point. -/
theorem contains_iff (hull : List (fpoint R)) (a : Allocation R) :
    contains hull a = true ↔
      ∃ p ∈ hull, ∀ id ∈ GoMap.keys p.schedule.Allocation,
        GoMap.get a id = GoMap.get p.schedule.Allocation id := by
  induction hull with
  | nil => simp [contains]
  | cons p hull ih =>
    unfold contains
    dsimp only
    rw [found_foldl (fun id => GoMap.get a id ≠ GoMap.get p.schedule.Allocation id)]
    by_cases hp : ∀ id ∈ GoMap.keys p.schedule.Allocation,
        GoMap.get a id = GoMap.get p.schedule.Allocation id
    · have : (GoMap.keys p.schedule.Allocation).all
          (fun id => !decide (GoMap.get a id ≠ GoMap.get p.schedule.Allocation id)) = true := by
        rw [List.all_eq_true]
        intro id hid
        simpa using hp id hid
      rw [this]
      simp only [Bool.and_self, if_true, true_iff]
      exact ⟨p, List.mem_cons_self _ _, hp⟩
    · have : (GoMap.keys p.schedule.Allocation).all
          (fun id => !decide (GoMap.get a id ≠ GoMap.get p.schedule.Allocation id)) = false := by
        apply Bool.eq_false_iff.2
        intro h
        rw [List.all_eq_true] at h
        exact hp fun id hid => by simpa using h id hid
      rw [this]
      simp only [Bool.and_false, Bool.false_eq_true, if_false]
      rw [ih]
      constructor
      · rintro ⟨q, hq, hall⟩
        exact ⟨q, List.mem_cons_of_mem _ hq, hall⟩
      · rintro ⟨q, hq, hall⟩
        rcases List.mem_cons.1 hq with rfl | hq
        · exact absurd hall hp
        · exact ⟨q, hq, hall⟩

/-- C9 (amended). Hull membership test: `contains(hull, a′)` is true iff some hull
point's allocation agrees with `a′` on every app id present in that hull point's
allocation (an id missing from `a′` reads as 0); ids present only in `a′` are not
compared.  When every id of `a′` is also an id of every hull point's allocation,
this is equality componentwise across all apps. -/
theorem C9_contains_iff (hull : List (fpoint R)) (a : Allocation R) :
    (contains hull a = true ↔
        ∃ p ∈ hull, ∀ id ∈ GoMap.keys p.schedule.Allocation,
          GoMap.get a id = GoMap.get p.schedule.Allocation id) ∧
      ((∀ p ∈ hull, ∀ id ∈ GoMap.keys a, id ∈ GoMap.keys p.schedule.Allocation) →
        (contains hull a = true ↔ ∃ p ∈ hull, SameAllocation a p.schedule.Allocation)) := by
  refine ⟨contains_iff hull a, fun hkeys => ?_⟩
  rw [contains_iff]
  constructor
  · rintro ⟨p, hp, hall⟩
    refine ⟨p, hp, fun id hid => ?_⟩
    rcases hid with hid | hid
    · exact hall id (hkeys p hp id hid)
    · exact hall id hid
  · rintro ⟨p, hp, hall⟩
    exact ⟨p, hp, fun id hid => hall id (Or.inr hid)⟩

/-- C9 (amended) at the hull `(2, 0)`, `(0, 2)` and the allocation `(2, 0)`, whose
ids are ids of every hull point. -/
theorem C9_contains_iff_witness :
    (∀ p ∈ sampleFace, ∀ id ∈ GoMap.keys ([(0, 2), (1, 0)] : Allocation ℚ),
        id ∈ GoMap.keys p.schedule.Allocation) ∧
      (contains sampleFace ([(0, 2), (1, 0)] : Allocation ℚ) = true ↔
        ∃ p ∈ sampleFace,
          SameAllocation ([(0, 2), (1, 0)] : Allocation ℚ) p.schedule.Allocation) :=
  have hkeys : ∀ p ∈ sampleFace, ∀ id ∈ GoMap.keys ([(0, 2), (1, 0)] : Allocation ℚ),
      id ∈ GoMap.keys p.schedule.Allocation := by
    intro p hp id hid
    simp only [sampleFace, List.mem_cons, List.mem_singleton, List.not_mem_nil, or_false] at hp
    rcases hp with rfl | rfl <;> simpa [pointOf, scheduleOf, GoMap.keys] using hid
  ⟨hkeys, (C9_contains_iff sampleFace [(0, 2), (1, 0)]).2 hkeys⟩

/-- C9 as stated fails: the hull point with allocation `{0: 5}` makes `contains`
true for the allocation `{0: 5, 1: 3}`, which differs from it at app 1. -/
theorem C9_counterexample :
    contains partialHull ([(0, 5), (1, 3)] : Allocation ℚ) = true ∧
      ¬ ∃ p ∈ partialHull,
          SameAllocation ([(0, 5), (1, 3)] : Allocation ℚ) p.schedule.Allocation := by
  constructor
  · rw [contains_iff]
    refine ⟨pointOf [(0, 5)], by simp [partialHull], ?_⟩
    intro id hid
    have : id = 0 := by simpa [pointOf, scheduleOf, GoMap.keys] using hid
    subst this
    simp [pointOf, scheduleOf, GoMap.get, GoMap.find]
  · rintro ⟨p, hp, hall⟩
    have hp' : p = pointOf [(0, 5)] := by simpa [partialHull] using hp
    subst hp'
    have := hall 1 (Or.inl (by simp [GoMap.keys]))
    simp [pointOf, scheduleOf, GoMap.get, GoMap.find] at this

end C9

/-! ## C10: the warm-start choice -/

section C10

variable {R : Type} [LinearOrderedField R]

theorem weighted_reward_nil (w : GoMap Int R) : weighted_reward w [] = 0 := by
  simp [weighted_reward, GoMap.keys]

/-- The schedule chosen by `choose_init_schedule`: an entry of the sorted slice that
no entry beats. -/
theorem Mobius.choose_init_schedule_spec (L : Lib R) (hsort : L.SortsByReward) (s : Mobius R)
    (w : GoMap Int R) :
    ∃ x : ws_schedule R, s.choose_init_schedule L w = x.schedule ∧
      (x.schedule ∈ GoMap.values s.heuristics ∨
        (x.schedule = Schedule.zero ∧ x.weighted_reward = 0)) ∧
      x.weighted_reward = weighted_reward w x.schedule.Allocation ∧
      ∀ h ∈ GoMap.values s.heuristics,
        weighted_reward w h.Allocation ≤ x.weighted_reward := by
  unfold Mobius.choose_init_schedule
  dsimp only
  obtain ⟨hperm, hpair⟩ := hsort ((GoMap.values s.heuristics).map
        (fun h => { schedule := h, weighted_reward := weighted_reward w h.Allocation })
      ++ [{ schedule := Schedule.zero, weighted_reward := 0 }])
  generalize L.SortSlice (fun a b => decide (a.weighted_reward > b.weighted_reward))
    ((GoMap.values s.heuristics).map
        (fun h => { schedule := h, weighted_reward := weighted_reward w h.Allocation })
      ++ [{ schedule := Schedule.zero, weighted_reward := 0 }]) = sorted at hperm hpair ⊢
  cases sorted with
  | nil =>
    have := hperm.length_eq
    simp at this
  | cons x rest =>
    have hmem : ∀ e : ws_schedule R, e ∈ (GoMap.values s.heuristics).map
          (fun h => { schedule := h, weighted_reward := weighted_reward w h.Allocation })
        ++ [{ schedule := Schedule.zero, weighted_reward := 0 }] →
        (e.schedule ∈ GoMap.values s.heuristics ∨
          (e.schedule = Schedule.zero ∧ e.weighted_reward = 0)) ∧
        e.weighted_reward = weighted_reward w e.schedule.Allocation := by
      intro e he
      rcases List.mem_append.1 he with he | he
      · obtain ⟨h, hh, rfl⟩ := List.mem_map.1 he
        exact ⟨Or.inl hh, rfl⟩
      · rw [List.mem_singleton] at he
        subst he
        exact ⟨Or.inr ⟨rfl, rfl⟩, (weighted_reward_nil w).symm⟩
    have hx := hmem x (hperm.subset (List.mem_cons_self _ _))
    refine ⟨x, rfl, hx.1, hx.2, ?_⟩
    intro h hh
    have hin : ({ schedule := h, weighted_reward := weighted_reward w h.Allocation }
        : ws_schedule R) ∈ x :: rest := by
      apply hperm.symm.subset
      exact List.mem_append_left _ (List.mem_map.2 ⟨h, hh, rfl⟩)
    rcases List.mem_cons.1 hin with e | e
    · rw [← e]
    · exact (List.pairwise_cons.1 hpair).1 _ e

/-- The weighted reward of an allocation with nonnegative entries under
nonnegative weights is nonnegative. -/
theorem weighted_reward_nonneg (w : GoMap Int R) (a : Allocation R)
    (hw : ∀ id, 0 ≤ GoMap.get w id) (ha : ∀ id, 0 ≤ GoMap.get a id) :
    0 ≤ weighted_reward w a := by
  rw [weighted_reward_eq_sum]
  exact Finset.sum_nonneg fun id _ => mul_nonneg (hw id) (ha id)

omit [LinearOrderedField R] in
/-- A non-empty map has a value. -/
theorem GoMap.values_ne_nil {V : Type} (m : GoMap String V) (h : m ≠ []) :
    GoMap.values m ≠ [] := by
  obtain ⟨e, m1, rfl⟩ := List.exists_cons_of_ne_nil h
  obtain ⟨k, v⟩ := e
  have hk : k ∈ GoMap.keys ((k, v) :: m1) := (GoMap.mem_keys_iff _ k).2 ⟨v, List.mem_cons_self _ _⟩
  have hf : GoMap.find ((k, v) :: m1) k = some v := by simp [GoMap.find]
  intro hnil
  have hmem : v ∈ GoMap.values ((k, v) :: m1) := List.mem_filterMap.2 ⟨k, hk, hf⟩
  rw [hnil] at hmem
  exact absurd hmem (List.not_mem_nil _)

/-- C10. Warm-start choice: for every non-empty heuristic bank of schedules with
nonnegative allocation entries and every weight map with nonnegative weights, when
`sort.Slice` keeps its contract and leaves a slice that is already in order as it
is, `choose_init_schedule` returns a schedule that is an entry of the bank and
whose weighted reward is at least that of every schedule in the bank. -/
theorem C10_choose_init_schedule (L : Lib R) (hsort : L.SortsByReward)
    (hkeep : L.KeepsOrdered) (s : Mobius R) (w : GoMap Int R)
    (hbank : s.heuristics ≠ []) (hw : ∀ id, 0 ≤ GoMap.get w id)
    (ha : ∀ h ∈ GoMap.values s.heuristics, ∀ id, 0 ≤ GoMap.get h.Allocation id) :
    s.choose_init_schedule L w ∈ GoMap.values s.heuristics ∧
      ∀ h ∈ GoMap.values s.heuristics,
        weighted_reward w h.Allocation
          ≤ weighted_reward w (s.choose_init_schedule L w).Allocation := by
  obtain ⟨x, hx, hor, hwr, hmax⟩ := s.choose_init_schedule_spec L hsort w
  refine ⟨?_, ?_⟩
  · by_cases hpos : ∃ h ∈ GoMap.values s.heuristics, 0 < weighted_reward w h.Allocation
    · obtain ⟨h, hh, hp⟩ := hpos
      rw [hx]
      rcases hor with h1 | h1
      · exact h1
      · have := hmax h hh
        rw [h1.2] at this
        exact absurd hp (not_lt.2 this)
    · have hzero : ∀ h ∈ GoMap.values s.heuristics, weighted_reward w h.Allocation = 0 := by
        intro h hh
        apply le_antisymm
        · exact not_lt.1 fun hp => hpos ⟨h, hh, hp⟩
        · exact weighted_reward_nonneg w h.Allocation hw (ha h hh)
      have hall : ∀ e : ws_schedule R, e ∈ (GoMap.values s.heuristics).map
            (fun h => { schedule := h, weighted_reward := weighted_reward w h.Allocation })
          ++ [{ schedule := Schedule.zero, weighted_reward := 0 }] →
          e.weighted_reward = 0 := by
        intro e he
        rcases List.mem_append.1 he with he | he
        · obtain ⟨h, hh, rfl⟩ := List.mem_map.1 he
          exact hzero h hh
        · rw [List.mem_singleton] at he
          subst he
          rfl
      have hord : ((GoMap.values s.heuristics).map
            (fun h => ({ schedule := h, weighted_reward := weighted_reward w h.Allocation }
              : ws_schedule R))
          ++ [({ schedule := Schedule.zero, weighted_reward := 0 } : ws_schedule R)]).Pairwise
            (fun a b => b.weighted_reward ≤ a.weighted_reward) :=
        List.Pairwise.imp_of_mem
          (fun {a b} ha hb _ => by rw [hall a ha, hall b hb])
          (List.pairwise_of_forall fun _ _ => trivial)
      obtain ⟨v, vs, hv⟩ := List.exists_cons_of_ne_nil (GoMap.values_ne_nil s.heuristics hbank)
      unfold Mobius.choose_init_schedule
      dsimp only
      rw [hkeep _ hord, hv]
      exact List.mem_cons_self _ _
  · rw [hx, ← hwr]
    exact hmax

/-- The insertion sort of `ratLib` keeps the contract of `sort.Slice`. -/
theorem ratLib_sorts : ratLib.SortsByReward := by
  intro l
  have hp := List.perm_insertionSort
    (fun a b : ws_schedule ℚ => decide (b.weighted_reward > a.weighted_reward) = false) l
  haveI : IsTotal (ws_schedule ℚ)
      (fun a b => decide (b.weighted_reward > a.weighted_reward) = false) :=
    ⟨fun a b => by
      rcases le_total a.weighted_reward b.weighted_reward with h | h
      · right; simpa using h
      · left; simpa using h⟩
  haveI : IsTrans (ws_schedule ℚ)
      (fun a b => decide (b.weighted_reward > a.weighted_reward) = false) :=
    ⟨fun a b c hab hbc => by
      have h1 : b.weighted_reward ≤ a.weighted_reward := by simpa using hab
      have h2 : c.weighted_reward ≤ b.weighted_reward := by simpa using hbc
      simpa using le_trans h2 h1⟩
  have hs := List.sorted_insertionSort
    (fun a b : ws_schedule ℚ => decide (b.weighted_reward > a.weighted_reward) = false) l
  refine ⟨hp, ?_⟩
  exact List.Pairwise.imp (fun {a b} h => by simpa using h) hs

/-- The insertion sort of `ratLib` leaves a slice that is already in order as it
is. -/
theorem ratLib_keeps : ratLib.KeepsOrdered := by
  intro l hl
  have hs : l.Sorted
      (fun a b : ws_schedule ℚ => decide (b.weighted_reward > a.weighted_reward) = false) :=
    List.Pairwise.imp (fun {a b} h => by simpa using h) hl
  exact List.Sorted.insertionSort_eq hs

/-- C10 at a tie: with the bank of two schedules and the weight map that is zero on
both apps every weighted reward is 0, that of the extra slot included, and the
schedule returned is an entry of the bank. -/
theorem C10_choose_init_schedule_witness :
    ratLib.SortsByReward ∧ ratLib.KeepsOrdered ∧ bankState.heuristics ≠ [] ∧
      (∀ id, 0 ≤ GoMap.get ([(0, 0), (1, 0)] : GoMap Int ℚ) id) ∧
      (bankState.choose_init_schedule ratLib [(0, 0), (1, 0)]
          ∈ GoMap.values bankState.heuristics ∧
        ∀ h ∈ GoMap.values bankState.heuristics,
          weighted_reward [(0, 0), (1, 0)] h.Allocation
            ≤ weighted_reward [(0, 0), (1, 0)]
                (bankState.choose_init_schedule ratLib [(0, 0), (1, 0)]).Allocation) := by
  have hb : bankState.heuristics ≠ [] := by simp [bankState]
  have hw : ∀ id, 0 ≤ GoMap.get ([(0, 0), (1, 0)] : GoMap Int ℚ) id := by
    intro id
    unfold GoMap.get GoMap.find GoMap.find GoMap.find
    split_ifs <;> simp
  have hv : GoMap.values bankState.heuristics
      = [scheduleOf [(0, 1), (1, 4)], scheduleOf [(0, 3), (1, 1)]] := by
    simp [bankState, GoMap.values, GoMap.keys, GoMap.find]
  have ha : ∀ h ∈ GoMap.values bankState.heuristics, ∀ id, 0 ≤ GoMap.get h.Allocation id := by
    intro h hh id
    rw [hv] at hh
    simp only [List.mem_cons, List.mem_singleton, List.not_mem_nil, or_false] at hh
    rcases hh with rfl | rfl
    · unfold scheduleOf GoMap.get GoMap.find GoMap.find GoMap.find
      split_ifs <;> norm_num
    · unfold scheduleOf GoMap.get GoMap.find GoMap.find GoMap.find
      split_ifs <;> norm_num
  exact ⟨ratLib_sorts, ratLib_keeps, hb, hw,
    C10_choose_init_schedule ratLib ratLib_sorts ratLib_keeps bankState [(0, 0), (1, 0)]
      hb hw ha⟩

end C10

/-! ## C11: the growth of the bank -/

section C11

variable {R : Type} [LinearOrderedField R]

theorem GoMap.len_set {K V : Type} [DecidableEq K] (m : GoMap K V) (k : K) (v : V) :
    GoMap.len (GoMap.set m k v)
      = if k ∈ GoMap.keys m then GoMap.len m else GoMap.len m + 1 := by
  unfold GoMap.len GoMap.keys GoMap.set
  rw [List.map_cons]
  by_cases h : k ∈ m.map Prod.fst
  · rw [List.dedup_cons_of_mem h, if_pos (List.mem_dedup.2 h)]
  · rw [List.dedup_cons_of_not_mem h, if_neg (fun h1 => h (List.mem_dedup.1 h1))]
    rfl

theorem GoMap.find_set_self {K V : Type} [DecidableEq K] (m : GoMap K V) (k : K) (v : V) :
    GoMap.find (GoMap.set m k v) k = some v := by
  simp [GoMap.find, GoMap.set]

/-- C11 (amended). Bank growth: a successful `find_extension` stores the new
schedule in the bank under the label `"weight_" + weight_tag(w)` of the weight map
`w` that produced it and changes no other label; the number of entries grows by
exactly one when the bank had no entry under that label and stays the same when it
had one (the entry is overwritten). -/
theorem C11_bank_growth (L : Lib R) (s : Mobius R) (face hull : List (fpoint R))
    (s1 : Mobius R) (fp : fpoint R) (h : s.find_extension L face hull = .ok (s1, fp)) :
    s1.heuristics
        = GoMap.set s.heuristics ("weight_" ++ s.weight_tag L fp.weights) fp.schedule ∧
      GoMap.find s1.heuristics ("weight_" ++ s.weight_tag L fp.weights) = some fp.schedule ∧
      (∀ label, label ≠ "weight_" ++ s.weight_tag L fp.weights →
        GoMap.find s1.heuristics label = GoMap.find s.heuristics label) ∧
      GoMap.len s1.heuristics
        = (if "weight_" ++ s.weight_tag L fp.weights ∈ GoMap.keys s.heuristics
            then GoMap.len s.heuristics else GoMap.len s.heuristics + 1) := by
  obtain ⟨c, weights, schedule, utility, _, _, _, _, hfp, _, _, hs1⟩ :=
    s.find_extension_inv L face hull s1 fp h
  have hsch : fp.schedule = schedule := by rw [hfp]
  have hh : s1.heuristics
      = GoMap.set s.heuristics ("weight_" ++ s.weight_tag L fp.weights) fp.schedule := by
    rw [hs1, hsch]
  refine ⟨hh, ?_, ?_, ?_⟩
  · rw [hh, GoMap.find_set_self]
  · intro label hne
    rw [hh]
    simp [GoMap.find, GoMap.set, Ne.symm hne]
  · rw [hh, GoMap.len_set]

theorem fmtLib_utility (s : Mobius ℚ) (a : Allocation ℚ) : s.utility fmtLib a = 0 := by
  rw [utility_eq_sum]
  simp [utilitySpec, phi, fmtLib, ratLib]

theorem fmt_face_equation (bank : GoMap String (Schedule ℚ)) :
    ({ onFaceState with heuristics := bank } : Mobius ℚ).compute_face_equation fmtLib sampleFace
      = .ok (2, [1, 1]) := by
  simp [Mobius.compute_face_equation, SolveVec, Mobius.face_rows, Mobius.face_rhs, onFaceState,
    sampleState, sampleState0, sampleFace, pointOf, scheduleOf, GoMap.get, GoMap.find,
    Matrix.det_fin_two, Matrix.adjugate_fin_two, Schedule.zero, Matrix.mulVec, Matrix.dotProduct,
    Fin.sum_univ_two, List.ofFn_succ]
  norm_num

/-- With the decimal labels, the first extension on the face through `(2, 0)` and
`(0, 2)` puts the schedule under `weight_1.00_1.00_`. -/
theorem fmt_find_extension :
    onFaceState.find_extension fmtLib sampleFace sampleFace = .ok (fmtState1, onFacePoint) := by
  unfold Mobius.find_extension
  rw [show onFaceState = ({ onFaceState with heuristics := [] } : Mobius ℚ) from rfl,
    fmt_face_equation]
  simp [valid_weights, Mobius.weight_vector_to_map, weight_vector_to_map_loop, List.enum,
    List.enumFrom, onFaceState, sampleState, sampleState0, Mobius.compute_schedule, GoMap.len,
    GoMap.keys, GoMap.set, weighted_reward, contains, sampleFace, pointOf, scheduleOf, GoMap.get,
    GoMap.find, Schedule.zero, fmtLib_utility]
  norm_num
  exact ⟨rfl, rfl⟩

/-- A second extension on the same face, with the same weights, overwrites the
entry. -/
theorem fmt_find_extension_again :
    fmtState1.find_extension fmtLib sampleFace sampleFace = .ok (fmtState2, onFacePoint) := by
  unfold Mobius.find_extension
  rw [show fmtState1 = ({ onFaceState with
      heuristics := [("weight_1.00_1.00_", onFacePoint.schedule)] } : Mobius ℚ) from rfl,
    fmt_face_equation]
  simp [valid_weights, Mobius.weight_vector_to_map, weight_vector_to_map_loop, List.enum,
    List.enumFrom, onFaceState, sampleState, sampleState0, Mobius.compute_schedule, GoMap.len,
    GoMap.keys, GoMap.set, weighted_reward, contains, sampleFace, pointOf, scheduleOf, GoMap.get,
    GoMap.find, Schedule.zero, fmtLib_utility]
  norm_num
  exact ⟨rfl, rfl⟩

/-- C11 (amended) at the first extension of the face through `(2, 0)` and
`(0, 2)`. -/
theorem C11_bank_growth_witness :
    onFaceState.find_extension fmtLib sampleFace sampleFace = .ok (fmtState1, onFacePoint) ∧
      fmtState1.heuristics
        = GoMap.set onFaceState.heuristics
            ("weight_" ++ onFaceState.weight_tag fmtLib onFacePoint.weights)
            onFacePoint.schedule ∧
      GoMap.find fmtState1.heuristics
          ("weight_" ++ onFaceState.weight_tag fmtLib onFacePoint.weights)
        = some onFacePoint.schedule ∧
      (∀ label, label ≠ "weight_" ++ onFaceState.weight_tag fmtLib onFacePoint.weights →
        GoMap.find fmtState1.heuristics label = GoMap.find onFaceState.heuristics label) ∧
      GoMap.len fmtState1.heuristics
        = (if "weight_" ++ onFaceState.weight_tag fmtLib onFacePoint.weights
              ∈ GoMap.keys onFaceState.heuristics
            then GoMap.len onFaceState.heuristics else GoMap.len onFaceState.heuristics + 1) :=
  ⟨fmt_find_extension,
    C11_bank_growth fmtLib onFaceState sampleFace sampleFace fmtState1 onFacePoint
      fmt_find_extension⟩

/-- C11 as stated fails: after a first extension of the face through `(2, 0)` and
`(0, 2)` the bank has one entry, under the label `weight_1.00_1.00_`; a second
successful extension of the same face has the same weights and the same label, and
the bank still has one entry. -/
theorem C11_counterexample :
    onFaceState.find_extension fmtLib sampleFace sampleFace = .ok (fmtState1, onFacePoint) ∧
      fmtState1.find_extension fmtLib sampleFace sampleFace = .ok (fmtState2, onFacePoint) ∧
      GoMap.len onFaceState.heuristics = 0 ∧ GoMap.len fmtState1.heuristics = 1 ∧
      GoMap.len fmtState2.heuristics = 1 :=
  ⟨fmt_find_extension, fmt_find_extension_again, rfl, rfl, rfl⟩

end C11

/-! ## C12: the final selection of the search -/

section C12

variable {R : Type} [LinearOrderedField R]

/-- The comparison of `SearchFrontier` is the strict lexicographic order on utility,
then total allocation. -/
theorem face_less_iff (a b : fpoint R) :
    face_less a b = true ↔
      b.utility < a.utility ∨ (a.utility = b.utility ∧
        Allocation.Total b.schedule.Allocation < Allocation.Total a.schedule.Allocation) := by
  unfold face_less
  rcases lt_trichotomy a.utility b.utility with h | h | h
  · rw [if_neg (not_lt.2 h.le), if_pos h]
    constructor
    · intro hf; cases hf
    · rintro (h1 | ⟨h1, _⟩)
      · exact absurd h (not_lt.2 h1.le)
      · exact absurd h1 h.ne
  · rw [if_neg (by rw [h]; exact lt_irrefl _), if_neg (by rw [h]; exact lt_irrefl _)]
    simp [h]
  · rw [if_pos h]
    simp [h]

theorem face_less_eq_false_iff (a b : fpoint R) :
    face_less b a = false ↔
      b.utility < a.utility ∨ (b.utility = a.utility ∧
        Allocation.Total b.schedule.Allocation ≤ Allocation.Total a.schedule.Allocation) := by
  rw [← Bool.not_eq_true, face_less_iff]
  constructor
  · intro h
    rcases lt_trichotomy b.utility a.utility with h1 | h1 | h1
    · exact Or.inl h1
    · refine Or.inr ⟨h1, not_lt.1 fun h2 => h (Or.inr ⟨h1, h2⟩)⟩
    · exact absurd (Or.inl h1) h
  · rintro (h | ⟨h1, h2⟩) (h3 | ⟨h3, h4⟩)
    · exact lt_asymm h h3
    · exact h.ne h3
    · exact h3.ne' h1
    · exact absurd h4 (not_lt.2 h2)

/-- The point chosen by `SearchFrontier` from a non-empty face. -/
theorem Mobius.SearchFrontier_select (L : Lib R) (hsort : L.SortsFaces) (fuel : Nat)
    (s s1 : Mobius R) (face : List (fpoint R))
    (hface : s.search_face L fuel = some (.ok (s1, face))) (hne : face ≠ []) :
    ∃ p rest, s.SearchFrontier L fuel
          = some (.ok ({ s1 with last_face := some (p :: rest) }, p.schedule)) ∧
      (p :: rest).Perm face ∧ ∀ q ∈ face, face_less q p = false := by
  unfold Mobius.SearchFrontier
  rw [hface]
  dsimp only
  obtain ⟨hperm, hpair⟩ := hsort face
  generalize L.SortFace face_less face = sorted at hperm hpair ⊢
  cases sorted with
  | nil =>
    exact absurd (List.Perm.eq_nil hperm.symm) hne
  | cons p rest =>
    refine ⟨p, rest, rfl, hperm, ?_⟩
    intro q hq
    rcases List.mem_cons.1 (hperm.symm.subset hq) with e | e
    · rw [e]
      rw [face_less_eq_false_iff]
      exact Or.inr ⟨rfl, le_refl _⟩
    · exact (List.pairwise_cons.1 hpair).1 q e

/-- C12. Final selection of Search: when `sort.Slice` keeps its contract and the
final face (the result of the search, or the rescored `last_face`) is not empty,
`SearchFrontier` returns the schedule of a point of that face whose utility is
maximal among the points of the face and whose total allocation is maximal among
the points of maximal utility; the sorted face is kept as `last_face`. -/
theorem C12_search_selection (L : Lib R) (hsort : L.SortsFaces) (fuel : Nat)
    (s s1 : Mobius R) (face : List (fpoint R))
    (hface : s.search_face L fuel = some (.ok (s1, face))) (hne : face ≠ []) :
    ∃ s2 p, s.SearchFrontier L fuel = some (.ok (s2, p.schedule)) ∧ p ∈ face ∧
      (∀ q ∈ face, q.utility ≤ p.utility) ∧
      (∀ q ∈ face, q.utility = p.utility →
        Allocation.Total q.schedule.Allocation ≤ Allocation.Total p.schedule.Allocation) ∧
      ∃ sorted, s2.last_face = some sorted ∧ sorted.Perm face ∧ sorted.head? = some p := by
  obtain ⟨p, rest, hs, hperm, hmax⟩ := s.SearchFrontier_select L hsort fuel s1 face hface hne
  refine ⟨_, p, hs, hperm.subset (List.mem_cons_self _ _), ?_, ?_, p :: rest, rfl, hperm, rfl⟩
  · intro q hq
    rcases (face_less_eq_false_iff p q).1 (hmax q hq) with h | h
    · exact h.le
    · exact h.1.le
  · intro q hq he
    rcases (face_less_eq_false_iff p q).1 (hmax q hq) with h | h
    · exact absurd he h.ne
    · exact h.2

/-- The insertion sort of `ratLib` keeps the contract of `sort.Slice` on faces. -/
theorem ratLib_sorts_faces : ratLib.SortsFaces := by
  intro l
  have hp := List.perm_insertionSort
    (fun a b : fpoint ℚ => face_less b a = false) l
  haveI : IsTotal (fpoint ℚ) (fun a b => face_less b a = false) :=
    ⟨fun a b => by
      simp only [face_less_eq_false_iff]
      rcases lt_trichotomy a.utility b.utility with h | h | h
      · right; exact Or.inl h
      · rcases le_total (Allocation.Total a.schedule.Allocation)
          (Allocation.Total b.schedule.Allocation) with h1 | h1
        · right; exact Or.inr ⟨h, h1⟩
        · left; exact Or.inr ⟨h.symm, h1⟩
      · left; exact Or.inl h⟩
  haveI : IsTrans (fpoint ℚ) (fun a b => face_less b a = false) :=
    ⟨fun a b c hab hbc => by
      simp only [face_less_eq_false_iff] at hab hbc ⊢
      rcases hab with h1 | ⟨h1, h2⟩ <;> rcases hbc with h3 | ⟨h3, h4⟩
      · exact Or.inl (lt_trans h3 h1)
      · exact Or.inl (h3 ▸ h1)
      · exact Or.inl (h1 ▸ h3)
      · exact Or.inr ⟨h3.trans h1, le_trans h4 h2⟩⟩
  exact ⟨hp, List.sorted_insertionSort (fun a b : fpoint ℚ => face_less b a = false) l⟩

/-- C12 at a state that kept the face through `(2, 0)` and `(0, 2)` as `last_face`. -/
theorem C12_search_selection_witness :
    ratLib.SortsFaces ∧
      reuseState.search_face ratLib 0
        = some (.ok (reuseState,
            sampleFace.map fun p =>
              { p with utility := reuseState.utility ratLib p.schedule.Allocation })) ∧
      (sampleFace.map fun p =>
          { p with utility := reuseState.utility ratLib p.schedule.Allocation }) ≠ [] ∧
      ∃ s2 p, reuseState.SearchFrontier ratLib 0 = some (.ok (s2, p.schedule)) ∧
        p ∈ (sampleFace.map fun p =>
          { p with utility := reuseState.utility ratLib p.schedule.Allocation }) ∧
        (∀ q ∈ (sampleFace.map fun p =>
            { p with utility := reuseState.utility ratLib p.schedule.Allocation }),
          q.utility ≤ p.utility) ∧
        (∀ q ∈ (sampleFace.map fun p =>
            { p with utility := reuseState.utility ratLib p.schedule.Allocation }),
          q.utility = p.utility →
            Allocation.Total q.schedule.Allocation ≤ Allocation.Total p.schedule.Allocation) ∧
        ∃ sorted, s2.last_face = some sorted ∧
          sorted.Perm (sampleFace.map fun p =>
            { p with utility := reuseState.utility ratLib p.schedule.Allocation }) ∧
          sorted.head? = some p :=
  have hne : (sampleFace.map fun p =>
      ({ p with utility := reuseState.utility ratLib p.schedule.Allocation } : fpoint ℚ))
      ≠ [] := by simp [sampleFace]
  ⟨ratLib_sorts_faces, rfl, hne,
    C12_search_selection ratLib ratLib_sorts_faces 0 reuseState reuseState _ rfl hne⟩

end C12

/-! ## Facts about `Trim` -/

section TrimFacts

variable {R : Type} [LinearOrderedField R]

theorem GoMap.find_set_of_ne {K V : Type} [DecidableEq K] (m : GoMap K V) (k j : K) (v : V)
    (h : k ≠ j) : GoMap.find (GoMap.set m k v) j = GoMap.find m j := by
  simp [GoMap.find, GoMap.set, h]

theorem cutIndex_cons (time : Int) (t : TaskData R) (rest : List (TaskData R)) :
    cutIndex time (t :: rest)
      = if t.FulfillTime > time ∨ rest = [] then 0 else cutIndex time rest + 1 := by
  cases rest with
  | nil => simp [cutIndex]
  | cons t1 r =>
    by_cases h : t.FulfillTime > time
    · simp [cutIndex, h]
    · simp [cutIndex, h]

theorem cutIndex_lt_length (time : Int) (path : List (TaskData R)) (h : path ≠ []) :
    cutIndex time path < path.length := by
  induction path with
  | nil => exact absurd rfl h
  | cons t rest ih =>
    rw [cutIndex_cons]
    by_cases hc : t.FulfillTime > time ∨ rest = []
    · rw [if_pos hc]; simp
    · rw [if_neg hc]
      have := ih (fun e => hc (Or.inr e))
      simp only [List.length_cons]
      omega

theorem scanned_cons (time : Int) (t : TaskData R) (rest : List (TaskData R)) :
    scanned time (t :: rest) = if t.FulfillTime > time then [t] else t :: scanned time rest := by
  unfold scanned
  rw [cutIndex_cons]
  by_cases h : t.FulfillTime > time
  · simp [h]
  · cases rest with
    | nil => simp [h, cutIndex]
    | cons t1 r => simp [h]

omit [LinearOrderedField R] in
theorem scanned_nil (time : Int) : scanned time ([] : List (TaskData R)) = [] := rfl

/-- The loop of `Trim` on a path with a task: the last index is the cut index, the
last task is the task there, and the tasks up to the cut have been counted. -/
theorem trim_scan_cons (time : Int) (rest : List (TaskData R)) :
    ∀ (k : Nat) (t : TaskData R) (jt : Nat × TaskData R) (alloc : Allocation R),
      trim_scan time k (t :: rest) jt alloc
        = (k + cutIndex time (t :: rest),
            (((t :: rest).get? (cutIndex time (t :: rest))).getD TaskData.zero),
            (scanned time (t :: rest)).foldl bump alloc) := by
  induction rest with
  | nil =>
    intro k t jt alloc
    by_cases h : t.FulfillTime > time
    · simp [trim_scan, h, cutIndex, scanned, bump, counts]
    · simp [trim_scan, h, cutIndex, scanned, bump, counts]
  | cons t1 r ih =>
    intro k t jt alloc
    rw [scanned_cons, cutIndex_cons]
    by_cases h : t.FulfillTime > time
    · simp [trim_scan, h, bump, counts]
    · rw [trim_scan]
      simp only [h, if_false, false_or, List.cons_ne_nil, reduceCtorEq]
      rw [ih]
      simp only [List.get?_cons_succ, List.foldl_cons, bump, counts]
      refine Prod.ext ?_ rfl
      show k + 1 + _ = k + (_ + 1)
      omega

theorem trim_route_fst (time : Int) (r : Route R) (alloc : Allocation R) :
    (trim_route time r alloc).1 = trimmedRoute time r := by
  unfold trim_route trimmedRoute
  by_cases h : r.Path.length = 0
  · rw [if_pos h, if_pos h]
  · rw [if_neg h, if_neg h]
    obtain ⟨t, rest, e⟩ : ∃ t rest, r.Path = t :: rest := by
      cases hp : r.Path with
      | nil => rw [hp] at h; exact absurd rfl h
      | cons t rest => exact ⟨t, rest, rfl⟩
    simp only [e, trim_scan_cons, keepIndex, Nat.zero_add]

theorem trim_route_snd (time : Int) (r : Route R) (alloc : Allocation R) :
    (trim_route time r alloc).2
      = if r.Path.length = 0 then none else some ((scanned time r.Path).foldl bump alloc) := by
  unfold trim_route
  by_cases h : r.Path.length = 0
  · rw [if_pos h, if_pos h]
  · rw [if_neg h, if_neg h]
    obtain ⟨t, rest, e⟩ : ∃ t rest, r.Path = t :: rest := by
      cases hp : r.Path with
      | nil => rw [hp] at h; exact absurd rfl h
      | cons t rest => exact ⟨t, rest, rfl⟩
    simp only [e, trim_scan_cons]

theorem trim_routes_eq (time : Int) (routes : List (Route R)) :
    ∀ (alloc : Allocation R) (assigned : Bool),
      trim_routes time routes alloc assigned
        = (routes.map (trimmedRoute time),
            (routes.flatMap fun r => scanned time r.Path).foldl bump alloc,
            assigned || routes.any fun r => decide (r.Path.length ≠ 0)) := by
  induction routes with
  | nil => intro alloc assigned; simp [trim_routes]
  | cons r routes ih =>
    intro alloc assigned
    have h1 := trim_route_fst time r alloc
    have h2 := trim_route_snd time r alloc
    unfold trim_routes
    generalize trim_route time r alloc = res at h1 h2
    obtain ⟨r1, o⟩ := res
    simp only at h1 h2
    subst h1
    by_cases h : r.Path.length = 0
    · rw [if_pos h] at h2
      subst h2
      have hnil : r.Path = [] := List.length_eq_zero.1 h
      simp only [ih, List.map_cons, List.flatMap_cons, hnil, scanned_nil, List.nil_append,
        List.any_cons, List.length_nil, ne_eq, not_true_eq_false, decide_False, Bool.false_or]
    · rw [if_neg h] at h2
      subst h2
      simp only [ih, List.map_cons, List.flatMap_cons, List.foldl_append, List.any_cons, ne_eq, h,
        not_false_eq_true, decide_True, Bool.true_or, Bool.or_true, Bool.true_or]

/-- `Trim` without its loops. -/
theorem Schedule.Trim_eq (s : Schedule R) (time : Int) :
    s.Trim time
      = { s with
          Routes := s.Routes.map (trimmedRoute time)
          Allocation :=
            if anyPath s then
              (scannedTasks time s).foldl bump
                ((GoMap.keys s.Allocation).foldl (fun alloc id => GoMap.set alloc id 0) [])
            else s.Allocation } := by
  unfold Schedule.Trim
  simp only [trim_routes_eq, Bool.false_or, anyPath, scannedTasks]

theorem find_zeros (l : List Int) (id : Int) :
    ∀ init : Allocation R,
      GoMap.find (l.foldl (fun alloc id => GoMap.set alloc id 0) init) id
        = if id ∈ l then some 0 else GoMap.find init id := by
  induction l with
  | nil => intro init; simp
  | cons a l ih =>
    intro init
    rw [List.foldl_cons, ih]
    by_cases h : id ∈ l
    · simp [h]
    · by_cases ha : a = id
      · subst ha
        simp [GoMap.find_set_self]
      · have ha' : ¬ id = a := fun e => ha e.symm
        simp [h, ha', GoMap.find_set_of_ne _ _ _ _ ha]

theorem countFor_cons (id : Int) (t : TaskData R) (tasks : List (TaskData R)) :
    countFor id (t :: tasks)
      = if counts t ∧ t.AppID = id then countFor id tasks + 1 else countFor id tasks := by
  unfold countFor
  by_cases h : counts t ∧ t.AppID = id
  · rw [List.filter_cons_of_pos (by simpa using h), if_pos h]; rfl
  · rw [List.filter_cons_of_neg (by simpa using h), if_neg h]

theorem countFor_append (id : Int) (l1 l2 : List (TaskData R)) :
    countFor id (l1 ++ l2) = countFor id l1 + countFor id l2 := by
  unfold countFor
  rw [List.filter_append, List.length_append]

/-- The counts of `Trim`: the value of an app grows by the number of its counted
tasks, and an app gets an entry when it has a counted task. -/
theorem find_foldl_bump (id : Int) (tasks : List (TaskData R)) :
    ∀ alloc : Allocation R,
      GoMap.find (tasks.foldl bump alloc) id
        = if countFor id tasks = 0 then GoMap.find alloc id
          else some (GoMap.get alloc id + (countFor id tasks : R)) := by
  induction tasks with
  | nil => intro alloc; simp [countFor]
  | cons t tasks ih =>
    intro alloc
    rw [List.foldl_cons, ih]
    by_cases hc : counts t
    · by_cases hid : t.AppID = id
      · have hb : bump alloc t = GoMap.set alloc id (GoMap.get alloc id + 1) := by
          simp [bump, hc, hid]
        have hcf : countFor id (t :: tasks) = countFor id tasks + 1 := by
          rw [countFor_cons, if_pos ⟨hc, hid⟩]
        rw [hb, hcf, GoMap.find_set_self, GoMap.get_set_self]
        by_cases h0 : countFor id tasks = 0
        · simp [h0]
        · simp only [h0, if_false, Nat.add_one_ne_zero, Nat.cast_add, Nat.cast_one]
          congr 1
          ring
      · have hb : bump alloc t = GoMap.set alloc t.AppID (GoMap.get alloc t.AppID + 1) := by
          simp [bump, hc]
        have hcf : countFor id (t :: tasks) = countFor id tasks := by
          rw [countFor_cons, if_neg (fun h => hid h.2)]
        rw [hb, hcf, GoMap.find_set_of_ne _ _ _ _ hid, GoMap.get_set_of_ne _ _ _ _ hid]
    · have hb : bump alloc t = alloc := by simp [bump, hc]
      have hcf : countFor id (t :: tasks) = countFor id tasks := by
        rw [countFor_cons, if_neg (fun h => hc h.1)]
      rw [hb, hcf]

theorem get_foldl_bump (id : Int) (tasks : List (TaskData R)) (alloc : Allocation R) :
    GoMap.get (tasks.foldl bump alloc) id = GoMap.get alloc id + (countFor id tasks : R) := by
  unfold GoMap.get
  rw [find_foldl_bump]
  by_cases h0 : countFor id tasks = 0
  · simp [h0]
  · simp [h0, GoMap.get]

theorem cutIndex_le_keepIndex (time : Int) (path : List (TaskData R)) :
    cutIndex time path ≤ keepIndex time path := by
  unfold keepIndex
  split <;> omega

theorem keepIndex_le (time : Int) (path : List (TaskData R)) :
    keepIndex time path ≤ cutIndex time path + 1 := by
  unfold keepIndex
  split <;> omega

/-- Every task before the cut index is fulfilled by `time`. -/
theorem fulfilled_before_cut (time : Int) (path : List (TaskData R)) :
    ∀ (i : Nat) (t : TaskData R), i < cutIndex time path → path.get? i = some t →
      t.FulfillTime ≤ time := by
  induction path with
  | nil => intro i t hi; simp [cutIndex] at hi
  | cons t0 rest ih =>
    intro i t hi ht
    rw [cutIndex_cons] at hi
    by_cases hc : t0.FulfillTime > time ∨ rest = []
    · rw [if_pos hc] at hi; omega
    · rw [if_neg hc] at hi
      cases i with
      | zero =>
        simp only [List.get?_cons_zero, Option.some.injEq] at ht
        subst ht
        exact not_lt.1 fun h => hc (Or.inl h)
      | succ i =>
        rw [List.get?_cons_succ] at ht
        exact ih i t (by omega) ht

/-- When some task of the path is fulfilled after `time`, the task at the cut
index is. -/
theorem cut_task_late (time : Int) (path : List (TaskData R))
    (h : ∃ t ∈ path, t.FulfillTime > time) :
    ∃ t, path.get? (cutIndex time path) = some t ∧ t.FulfillTime > time := by
  induction path with
  | nil => obtain ⟨t, ht, _⟩ := h; cases ht
  | cons t0 rest ih =>
    rw [cutIndex_cons]
    by_cases h0 : t0.FulfillTime > time
    · rw [if_pos (Or.inl h0)]
      exact ⟨t0, rfl, h0⟩
    · obtain ⟨t, ht, hlate⟩ := h
      rcases List.mem_cons.1 ht with e | e
      · rw [e] at hlate; exact absurd hlate h0
      · have hne : rest ≠ [] := List.ne_nil_of_mem e
        rw [if_neg (fun hc => hc.elim h0 hne), List.get?_cons_succ]
        exact ih ⟨t, e, hlate⟩

/-- Of the first `cutIndex + n` tasks at most `n` are fulfilled after `time`. -/
theorem late_in_take (time : Int) (n : Nat) (path : List (TaskData R)) :
    ((path.take (cutIndex time path + n)).filter fun t => decide (t.FulfillTime > time)).length
      ≤ n := by
  induction path with
  | nil => simp
  | cons t0 rest ih =>
    rw [cutIndex_cons]
    by_cases hc : t0.FulfillTime > time ∨ rest = []
    · rw [if_pos hc, Nat.zero_add]
      refine le_trans (List.length_filter_le _ _) ?_
      rw [List.length_take]
      exact Nat.min_le_left _ _
    · rw [if_neg hc]
      have h0 : ¬ t0.FulfillTime > time := fun h => hc (Or.inl h)
      have e : cutIndex time rest + 1 + n = (cutIndex time rest + n) + 1 := by omega
      rw [e, List.take_succ_cons, List.filter_cons_of_neg (by simpa using h0)]
      exact ih

theorem cutIndex_take (time : Int) (path : List (TaskData R)) :
    ∀ n, cutIndex time path ≤ n → cutIndex time (path.take (n + 1)) = cutIndex time path := by
  induction path with
  | nil => intro n _; rfl
  | cons t0 rest ih =>
    intro n hn
    rw [List.take_succ_cons, cutIndex_cons, cutIndex_cons]
    by_cases h0 : t0.FulfillTime > time
    · rw [if_pos (Or.inl h0), if_pos (Or.inl h0)]
    · by_cases hr : rest = []
      · subst hr
        simp
      · rw [cutIndex_cons, if_neg (fun hc => hc.elim h0 hr)] at hn
        obtain ⟨m, rfl⟩ : ∃ m, n = m + 1 := ⟨n - 1, by omega⟩
        have hne : rest.take (m + 1) ≠ [] := by
          cases rest with
          | nil => exact absurd rfl hr
          | cons a l => simp
        rw [if_neg (fun hc => hc.elim h0 hne), if_neg (fun hc => hc.elim h0 hr),
          ih m (by omega)]

theorem scanned_take (time : Int) (path : List (TaskData R)) (n : Nat)
    (hn : cutIndex time path ≤ n) : scanned time (path.take (n + 1)) = scanned time path := by
  unfold scanned
  rw [cutIndex_take time path n hn, List.take_take, min_eq_left (by omega)]

omit [LinearOrderedField R] in
theorem get?_take_cut (time : Int) (path : List (TaskData R)) (n : Nat)
    (hn : cutIndex time path ≤ n) :
    (path.take (n + 1)).get? (cutIndex time path) = path.get? (cutIndex time path) := by
  rw [List.get?_eq_getElem?, List.get?_eq_getElem?, List.getElem?_take]
  rw [if_pos (by omega)]

theorem keepIndex_take (time : Int) (path : List (TaskData R)) :
    keepIndex time (path.take (keepIndex time path + 1)) = keepIndex time path := by
  have hle := cutIndex_le_keepIndex time path
  have hc := cutIndex_take time path _ hle
  have hg := get?_take_cut time path _ hle
  generalize hk : keepIndex time path = k at hc hg hle
  unfold keepIndex at hk ⊢
  rw [hc, hg, List.length_take]
  by_cases hcond : ((path.get? (cutIndex time path)).getD TaskData.zero).Destination.Latitude = 0
      ∧ cutIndex time path < path.length - 1
  · rw [if_pos hcond] at hk
    rw [if_pos ⟨hcond.1, by have := hcond.2; omega⟩]
    exact hk
  · rw [if_neg hcond] at hk
    by_cases hlat :
        ((path.get? (cutIndex time path)).getD TaskData.zero).Destination.Latitude = 0
    · have hlen : ¬ cutIndex time path < path.length - 1 := fun h => hcond ⟨hlat, h⟩
      rw [if_neg (fun h => by have := h.2; omega)]
      exact hk
    · rw [if_neg (fun h => hlat h.1)]
      exact hk

/-- Trimming a trimmed route changes nothing. -/
theorem trimmedRoute_idem (time : Int) (r : Route R) :
    trimmedRoute time (trimmedRoute time r) = trimmedRoute time r := by
  by_cases h : r.Path.length = 0
  · have e : trimmedRoute time r = r := by unfold trimmedRoute; rw [if_pos h]
    rw [e, e]
  · have e : trimmedRoute time r
        = { r with
            Path := r.Path.take (keepIndex time r.Path + 1)
            VehicleEnd :=
              ((r.Path.get? (cutIndex time r.Path)).getD TaskData.zero).Location } := by
      unfold trimmedRoute; rw [if_neg h]
    have hle := cutIndex_le_keepIndex time r.Path
    have hlen : ¬ (r.Path.take (keepIndex time r.Path + 1)).length = 0 := by
      rw [List.length_take]; omega
    rw [e]
    unfold trimmedRoute
    simp only
    rw [if_neg hlen, keepIndex_take, cutIndex_take time r.Path _ hle,
      get?_take_cut time r.Path _ hle, List.take_take, min_self]

theorem trimmedRoute_length (time : Int) (r : Route R) :
    (trimmedRoute time r).Path.length = 0 ↔ r.Path.length = 0 := by
  unfold trimmedRoute
  by_cases h : r.Path.length = 0
  · rw [if_pos h]
  · rw [if_neg h]
    simp only [List.length_take]
    omega

theorem scanned_trimmedRoute (time : Int) (r : Route R) :
    scanned time (trimmedRoute time r).Path = scanned time r.Path := by
  unfold trimmedRoute
  by_cases h : r.Path.length = 0
  · rw [if_pos h]
  · rw [if_neg h]
    exact scanned_take time r.Path _ (cutIndex_le_keepIndex time r.Path)

theorem anyPath_Trim (s : Schedule R) (time : Int) : anyPath (s.Trim time) = anyPath s := by
  rw [Schedule.Trim_eq]
  unfold anyPath
  simp only [List.any_map]
  congr 1
  funext r
  simp only [Function.comp]
  by_cases h : r.Path.length = 0
  · have h1 : (trimmedRoute time r).Path.length = 0 := (trimmedRoute_length time r).2 h
    rw [decide_eq_false (not_not.2 h), decide_eq_false (not_not.2 h1)]
  · have h1 : ¬ (trimmedRoute time r).Path.length = 0 :=
      fun e => h ((trimmedRoute_length time r).1 e)
    rw [decide_eq_true h, decide_eq_true h1]

theorem scannedTasks_Trim (s : Schedule R) (time : Int) :
    scannedTasks time (s.Trim time) = scannedTasks time s := by
  rw [Schedule.Trim_eq]
  unfold scannedTasks
  simp only
  induction s.Routes with
  | nil => rfl
  | cons r routes ih =>
    rw [List.map_cons, List.flatMap_cons, List.flatMap_cons, ih, scanned_trimmedRoute]

/-- The allocation entries after `Trim`. -/
theorem find_Trim (s : Schedule R) (time : Int) (id : Int) :
    GoMap.find (s.Trim time).Allocation id
      = if anyPath s then
          (if countFor id (scannedTasks time s) = 0 then
            (if id ∈ GoMap.keys s.Allocation then some 0 else none)
          else some ((countFor id (scannedTasks time s) : R)))
        else GoMap.find s.Allocation id := by
  rw [Schedule.Trim_eq]
  simp only
  by_cases ha : anyPath s = true
  · rw [if_pos ha, if_pos ha, find_foldl_bump, find_zeros]
    have hget : GoMap.get
        ((GoMap.keys s.Allocation).foldl (fun alloc id => GoMap.set alloc id 0)
          ([] : Allocation R)) id = 0 := by
      unfold GoMap.get
      rw [find_zeros]
      by_cases hk : id ∈ GoMap.keys s.Allocation
      · simp [hk]
      · simp [hk, GoMap.find]
    rw [hget, zero_add]
    rfl
  · rw [if_neg ha, if_neg ha]

theorem scanned_sublist (time : Int) (r : Route R) :
    (scanned time r.Path).Sublist (trimmedRoute time r).Path := by
  unfold trimmedRoute scanned
  by_cases h : r.Path.length = 0
  · rw [if_pos h, List.length_eq_zero.1 h]
    simp
  · rw [if_neg h]
    have hle := cutIndex_le_keepIndex time r.Path
    have e : r.Path.take (cutIndex time r.Path + 1)
        = (r.Path.take (keepIndex time r.Path + 1)).take (cutIndex time r.Path + 1) := by
      rw [List.take_take, min_eq_left (by omega)]
    rw [e]
    exact List.take_sublist _ _

/-- The trimmed sample schedule. -/
theorem trimSample_Trim :
    trimSample.Trim 50
      = { trimSample with
          Routes := [{ trimRoute with Path := [pickupTask, dropoffTask], VehicleEnd := ⟨1, 1⟩ }]
          Allocation := [(1, 1), (1, 0)] } := by
  simp [Schedule.Trim, trim_routes, trim_route, trim_scan, trimSample, trimRoute, pickupTask,
    dropoffTask, laterTask, INVALID_LOC, GoMap.keys, GoMap.set, GoMap.get, GoMap.find]

end TrimFacts

/-! ## C14: the paths after `Trim` -/

section C14

variable {R : Type} [LinearOrderedField R]

/-- C14 (amended). Trim keeps a prefix that ends at the cut task or one task after
it: the routes after `Trim(T)` are the routes before it one by one, and each path
is a prefix of the original path that contains every task up to and including the
cut task (the first task with `fulfill_time > T`, the last task when there is
none) and at most one task after it.  Every retained task before the cut task has
`fulfill_time ≤ T`; the cut task is retained, whatever its kind, and has
`fulfill_time > T` whenever some task of the path has. -/
theorem C14_trim_prefix (s : Schedule R) (time : Int) :
    List.Forall₂
      (fun r1 r =>
        r1.Path <+: r.Path ∧ scanned time r.Path <+: r1.Path ∧
        r1.Path.length ≤ cutIndex time r.Path + 2 ∧
        (∀ i t, i < cutIndex time r.Path → r1.Path.get? i = some t → t.FulfillTime ≤ time) ∧
        ((∃ t ∈ r.Path, t.FulfillTime > time) →
          ∃ t, r1.Path.get? (cutIndex time r.Path) = some t ∧ t.FulfillTime > time))
      (s.Trim time).Routes s.Routes := by
  rw [Schedule.Trim_eq]
  simp only
  rw [List.forall₂_map_left_iff]
  refine List.forall₂_same.2 ?_
  intro r _
  have hp : (trimmedRoute time r).Path = r.Path.take (keepIndex time r.Path + 1) := by
    unfold trimmedRoute
    by_cases h : r.Path.length = 0
    · rw [if_pos h, List.length_eq_zero.1 h]; rfl
    · rw [if_neg h]
  have hle := cutIndex_le_keepIndex time r.Path
  have hle1 := keepIndex_le time r.Path
  rw [hp]
  refine ⟨List.take_prefix _ _, ?_, ?_, ?_, ?_⟩
  · unfold scanned
    have e : r.Path.take (cutIndex time r.Path + 1)
        = (r.Path.take (keepIndex time r.Path + 1)).take (cutIndex time r.Path + 1) := by
      rw [List.take_take, Nat.min_eq_left (by omega)]
    rw [e]
    exact List.take_prefix _ _
  · rw [List.length_take]
    omega
  · intro i t hi ht
    rw [List.get?_eq_getElem?, List.getElem?_take, if_pos (by omega),
      ← List.get?_eq_getElem?] at ht
    exact fulfilled_before_cut time r.Path i t hi ht
  · intro h
    rw [get?_take_cut time r.Path _ hle]
    exact cut_task_late time r.Path h

/-- C14, counterexample: with `T = 50` the path of one pickup fulfilled at 100
stays as it is.  The retained task is fulfilled after `T`; it is a pickup (its
destination is not the sentinel location) and the only task of the path, so it is
not a delivery kept to complete a pair.  The path has no task after the cut task,
so the step of `Trim` that keeps one more task plays no part. -/
theorem C14_counterexample :
    lonePickup.Routes.map (fun r => r.Path) = [[pairPickup]] ∧
      (lonePickup.Trim 50).Routes.map (fun r => r.Path) = [[pairPickup]] ∧
      pairPickup.FulfillTime > 50 ∧ hasDestination pairPickup := by
  refine ⟨rfl, ?_, by decide, ?_⟩
  · simp [Schedule.Trim, trim_routes, trim_route, trim_scan, lonePickup, pairPickup,
      INVALID_LOC, GoMap.keys, GoMap.set, GoMap.get, GoMap.find]
  · simp [hasDestination, pairPickup, INVALID_LOC]
    norm_num

end C14

/-! ## C15: trimming twice -/

section C15

variable {R : Type} [LinearOrderedField R]

/-- C15. Trim idempotence: for every schedule and time `T`, applying `Trim(T)`
twice gives the same routes (path, vehicle end and the other fields of every
route) and the same statistics as applying it once, and the same allocation map:
every app has an entry after two trims exactly when it has one after one trim, with
the same value. -/
theorem C15_trim_idempotent (s : Schedule R) (time : Int) :
    ((s.Trim time).Trim time).Routes = (s.Trim time).Routes ∧
      ((s.Trim time).Trim time).Stats = (s.Trim time).Stats ∧
      ∀ id, GoMap.find ((s.Trim time).Trim time).Allocation id
        = GoMap.find (s.Trim time).Allocation id := by
  refine ⟨?_, ?_, ?_⟩
  · rw [Schedule.Trim_eq (s.Trim time), Schedule.Trim_eq s]
    simp only [List.map_map]
    refine List.map_congr_left ?_
    intro r _
    exact trimmedRoute_idem time r
  · rw [Schedule.Trim_eq (s.Trim time), Schedule.Trim_eq s]
  · intro id
    rw [find_Trim (s.Trim time), anyPath_Trim, scannedTasks_Trim]
    by_cases ha : anyPath s = true
    · rw [if_pos ha]
      by_cases h0 : countFor id (scannedTasks time s) = 0
      · rw [if_pos h0]
        have hf := find_Trim s time id
        rw [if_pos ha, if_pos h0] at hf
        by_cases hk : id ∈ GoMap.keys s.Allocation
        · rw [if_pos hk] at hf
          have hk1 : id ∈ GoMap.keys (s.Trim time).Allocation := by
            by_contra hn
            rw [(GoMap.find_eq_none_iff _ _).2 hn] at hf
            cases hf
          rw [if_pos hk1, hf]
        · rw [if_neg hk] at hf
          rw [if_neg ((GoMap.find_eq_none_iff _ _).1 hf), hf]
      · rw [if_neg h0, find_Trim s, if_pos ha, if_neg h0]
    · rw [if_neg ha]

end C15

/-! ## C16: the allocation after `Trim` -/

section C16

variable {R : Type} [LinearOrderedField R]

/-- The allocation that `Trim` computes.  When some route has a task, the entry of
an app is the number of its tasks with a destination among the tasks that the loop
of `Trim` visits, those up to and including the cut index of each route; when no
route has a task the allocation is left as it was.  The visited tasks are among the
retained ones. -/
theorem Schedule.Trim_allocation (s : Schedule R) (time : Int) (id : Int) :
    GoMap.get (s.Trim time).Allocation id
        = (if anyPath s then (countFor id (scannedTasks time s) : R)
          else GoMap.get s.Allocation id) ∧
      (id ∈ GoMap.keys (s.Trim time).Allocation ↔
        id ∈ GoMap.keys s.Allocation
          ∨ (anyPath s = true ∧ 0 < countFor id (scannedTasks time s))) ∧
      (scannedTasks time s).Sublist (allTasks (s.Trim time)) := by
  have hf := find_Trim s time id
  refine ⟨?_, ?_, ?_⟩
  · unfold GoMap.get
    rw [hf]
    by_cases ha : anyPath s = true
    · rw [if_pos ha, if_pos ha]
      by_cases h0 : countFor id (scannedTasks time s) = 0
      · rw [if_pos h0, h0]
        by_cases hk : id ∈ GoMap.keys s.Allocation
        · rw [if_pos hk]; simp
        · rw [if_neg hk]; simp
      · rw [if_neg h0]; rfl
    · rw [if_neg ha, if_neg ha]
  · rw [← not_iff_not, ← GoMap.find_eq_none_iff, hf]
    by_cases ha : anyPath s = true
    · rw [if_pos ha]
      by_cases h0 : countFor id (scannedTasks time s) = 0
      · rw [if_pos h0]
        by_cases hk : id ∈ GoMap.keys s.Allocation
        · rw [if_pos hk]; simp [hk]
        · rw [if_neg hk]; simp [hk, h0]
      · rw [if_neg h0]
        simp [ha, Nat.pos_of_ne_zero h0]
    · rw [if_neg ha, GoMap.find_eq_none_iff]
      simp [ha]
  · rw [Schedule.Trim_eq]
    unfold scannedTasks allTasks
    simp only
    induction s.Routes with
    | nil => simp
    | cons r routes ih =>
      rw [List.map_cons, List.flatMap_cons, List.flatMap_cons]
      exact List.Sublist.append (scanned_sublist time r) ih

/-- C16, the code at the failing input.  With `T = 50` the loop of `Trim` leaves at
the first task of the sample route and has counted that task alone; the step that
finishes a request then keeps the second task as well, and the allocation is not
brought up to date.  The trimmed schedule retains two tasks of app 1, both with a
destination that is not the sentinel location, and `update_apps` passes both to the
application of id 1, but the allocation entry of app 1 is 1. -/
theorem C16_kept_task_not_counted :
    allTasks (trimSample.Trim 50) = [pickupTask, dropoffTask] ∧
      pickupTask.AppID = 1 ∧ dropoffTask.AppID = 1 ∧
      hasDestination pickupTask ∧ hasDestination dropoffTask ∧
      (recScheduler.update_apps (trimSample.Trim 50) 0).Applications.map (fun app => app.state)
        = [[pickupTask, dropoffTask]] ∧
      GoMap.get (trimSample.Trim 50).Allocation 1 = 1 := by
  rw [trimSample_Trim]
  refine ⟨rfl, rfl, rfl, ?_, ?_, ?_, ?_⟩
  · simp [hasDestination, pickupTask, INVALID_LOC]
  · simp [hasDestination, dropoffTask, INVALID_LOC]
    norm_num
  · simp [Scheduler.update_apps, recScheduler, recApp, app_tasks, trimSample, trimRoute,
      pickupTask, dropoffTask, INVALID_LOC, GoMap.find, GoMap.set]
  · simp [GoMap.get, GoMap.find]

end C16

/-! ## C17: the vehicle end after `Trim` -/

section C17

/-- C17, the code at the failing input.  With `T = 50` the loop of `Trim` leaves at
the first task of the sample route, at location `(1, 1)`; the destination latitude
of that task is 0, so the next task, at location `(2, 2)`, is kept too.  The
vehicle end is taken from the loop variable, which still holds the first task: it
is `(1, 1)`, while the trimmed path ends at `(2, 2)`. -/
theorem C17_vehicle_end_stale :
    (trimSample.Trim 50).Routes.map
        (fun r => (r.Path.map (fun t => t.Location), r.VehicleEnd))
      = [([⟨1, 1⟩, ⟨2, 2⟩], ⟨1, 1⟩)] := by
  rw [trimSample_Trim]
  rfl

end C17

/-! ## C20: the merge of interest maps -/

section C20

variable {R : Type} [LinearOrderedField R]

/-- A loop of assignments `m[t] = g(t)` over a list of keys. -/
theorem GoMap.find_foldl_set {K V : Type} [DecidableEq K] (g : K → V) (l : List K) (k : K) :
    ∀ init : GoMap K V,
      GoMap.find (l.foldl (fun m t => GoMap.set m t (g t)) init) k
        = if k ∈ l then some (g k) else GoMap.find init k := by
  induction l with
  | nil => intro init; simp
  | cons a l ih =>
    intro init
    rw [List.foldl_cons, ih]
    by_cases h : k ∈ l
    · simp [h]
    · by_cases ha : a = k
      · subst ha
        simp [GoMap.find_set_self]
      · have ha' : ¬ k = a := fun e => ha e.symm
        simp [h, ha', GoMap.find_set_of_ne _ _ _ _ ha]

theorem MergeInterestMaps_append (l : List (InterestMap R)) (x : InterestMap R) (t : Task R) :
    GoMap.find (MergeInterestMaps (l ++ [x])) t
      = if t ∈ GoMap.keys x then GoMap.find x t else GoMap.find (MergeInterestMaps l) t := by
  unfold MergeInterestMaps
  rw [List.foldl_append, List.foldl_cons, List.foldl_nil,
    GoMap.find_foldl_set (fun t => (GoMap.find x t).getD TaskData.zero)]
  by_cases h : t ∈ GoMap.keys x
  · rw [if_pos h, if_pos h]
    cases hf : GoMap.find x t with
    | none => exact absurd h ((GoMap.find_eq_none_iff x t).1 hf)
    | some v => rfl
  · rw [if_neg h, if_neg h]

theorem lastValue_append (l : List (InterestMap R)) (x : InterestMap R) (t : Task R) :
    lastValue (l ++ [x]) t = if t ∈ GoMap.keys x then GoMap.find x t else lastValue l t := by
  unfold lastValue
  rw [List.reverse_append, List.reverse_singleton, List.singleton_append, List.find?_cons]
  by_cases h : t ∈ GoMap.keys x
  · simp [h]
  · simp [h]

/-- C20. Merge of interest maps: for every list of interest maps and every task,
the task is a key of `MergeInterestMaps(ims)` exactly when it is a key of one of the
maps, and its value is the value in the last map of the list that contains it.
(The function is pure in the model: the inputs are values and stay as they are.) -/
theorem C20_merge_last_wins (ims : List (InterestMap R)) (t : Task R) :
    GoMap.find (MergeInterestMaps ims) t = lastValue ims t ∧
      (t ∈ GoMap.keys (MergeInterestMaps ims) ↔ ∃ x ∈ ims, t ∈ GoMap.keys x) := by
  induction ims using List.reverseRecOn with
  | nil =>
    refine ⟨rfl, ?_⟩
    simp [MergeInterestMaps, GoMap.keys]
  | append_singleton l x ih =>
    obtain ⟨ih1, ih2⟩ := ih
    have hfind := MergeInterestMaps_append l x t
    refine ⟨?_, ?_⟩
    · rw [hfind, lastValue_append, ih1]
    · rw [← not_iff_not, ← GoMap.find_eq_none_iff, hfind]
      by_cases h : t ∈ GoMap.keys x
      · rw [if_pos h]
        constructor
        · intro hn; exact absurd h ((GoMap.find_eq_none_iff x t).1 hn)
        · intro hn; exact absurd ⟨x, by simp, h⟩ hn
      · rw [if_neg h, GoMap.find_eq_none_iff, ih2]
        constructor
        · rintro hn ⟨y, hy, hty⟩
          rcases List.mem_append.1 hy with e | e
          · exact hn ⟨y, e, hty⟩
          · rw [List.mem_singleton.1 e] at hty
            exact h hty
        · rintro hn ⟨y, hy, hty⟩
          exact hn ⟨y, List.mem_append_left _ hy, hty⟩

end C20

/-! ## C19: the capacity cap -/

section C19

variable {R : Type} [LinearOrderedField R] [FloorRing R]

theorem Scheduler.get_interest_map_snd {σ : Type} (s : Scheduler R σ) :
    s.get_interest_map.2
      = (GoMap.keys s.get_interest_map.1).foldl
          (fun im t =>
            GoMap.set im t
              (capped s.Capacity ((GoMap.find s.get_interest_map.1 t).getD TaskData.zero)))
          [] := by
  unfold Scheduler.get_interest_map capped
  rfl

/-- The entry of a task in `im` is the capped entry of `im_all`. -/
theorem Scheduler.find_im {σ : Type} (s : Scheduler R σ) (t : Task R) :
    GoMap.find s.get_interest_map.2 t
      = (GoMap.find s.get_interest_map.1 t).map (capped s.Capacity) := by
  rw [Scheduler.get_interest_map_snd,
    GoMap.find_foldl_set (fun t =>
      capped s.Capacity ((GoMap.find s.get_interest_map.1 t).getD TaskData.zero))]
  by_cases h : t ∈ GoMap.keys s.get_interest_map.1
  · rw [if_pos h]
    cases hf : GoMap.find s.get_interest_map.1 t with
    | none => exact absurd h ((GoMap.find_eq_none_iff _ t).1 hf)
    | some v => rfl
  · rw [if_neg h, (GoMap.find_eq_none_iff _ t).2 h]
    rfl

/-- C19 (amended). Capacity cap: `get_interest_map` returns as `im_all` the merge of
the interest maps of the applications and as `im` a map with the same task keys;
the entry of a task in `im` is that of `im_all`, except that when `capacity > 0` and
the interest, converted to an integer by truncation, is greater than the capacity,
both the interest and the service time are set to the capacity.  When
`capacity ≤ 0` every entry of `im` is that of `im_all`. -/
theorem C19_capacity_cap {σ : Type} (s : Scheduler R σ) (t : Task R) :
    s.get_interest_map.1
        = MergeInterestMaps (s.Applications.map fun a => a.GetInterestMap a.state) ∧
      GoMap.find s.get_interest_map.2 t
        = (GoMap.find s.get_interest_map.1 t).map (capped s.Capacity) ∧
      (t ∈ GoMap.keys s.get_interest_map.2 ↔ t ∈ GoMap.keys s.get_interest_map.1) ∧
      (s.Capacity ≤ 0 → GoMap.find s.get_interest_map.2 t = GoMap.find s.get_interest_map.1 t) := by
  have hfind := s.find_im t
  refine ⟨rfl, hfind, ?_, ?_⟩
  · rw [← not_iff_not, ← GoMap.find_eq_none_iff, ← GoMap.find_eq_none_iff, hfind]
    simp
  · intro hc
    rw [hfind]
    cases GoMap.find s.get_interest_map.1 t with
    | none => rfl
    | some d =>
      have : capped s.Capacity d = d := by
        unfold capped
        rw [if_neg (fun h => absurd h.1 (not_lt.2 hc))]
      rw [Option.map_some', this]

theorem capScheduler_im_all :
    capScheduler.get_interest_map.1 = [(fracTask, fracData), (capTask, capData)] := by
  simp [Scheduler.get_interest_map, MergeInterestMaps, capScheduler, capApp, GoMap.keys,
    GoMap.find, GoMap.set, capTask, fracTask]

theorem truncInt_ten : truncInt (10 : ℚ) = 10 := by
  simp [truncInt]

theorem truncInt_frac : truncInt (11 / 2 : ℚ) = 5 := by
  unfold truncInt
  rw [if_pos (by norm_num), Int.floor_eq_iff]
  constructor <;> norm_num

/-- C19, counterexample: with capacity 5, the task of interest 10 and service time 3
gets service time 5 in `im`, not `min(3, 5)`, and the task of interest 5.5 keeps its
interest, not `min(5.5, 5)`. -/
theorem C19_counterexample :
    capScheduler.Capacity = 5 ∧
      GoMap.find capScheduler.get_interest_map.1 capTask = some capData ∧
      capData.TaskTimeSeconds = 3 ∧
      GoMap.find capScheduler.get_interest_map.2 capTask
        = some { capData with Interest := 5, TaskTimeSeconds := 5 } ∧
      GoMap.find capScheduler.get_interest_map.1 fracTask = some fracData ∧
      fracData.Interest = 11 / 2 ∧
      GoMap.find capScheduler.get_interest_map.2 fracTask = some fracData := by
  have h1 : GoMap.find capScheduler.get_interest_map.1 capTask = some capData := by
    rw [capScheduler_im_all]
    simp [GoMap.find, capTask, fracTask]
  have h2 : GoMap.find capScheduler.get_interest_map.1 fracTask = some fracData := by
    rw [capScheduler_im_all]
    simp [GoMap.find]
  have hc : capScheduler.Capacity = 5 := rfl
  have e1 := capScheduler.find_im capTask
  have e2 := capScheduler.find_im fracTask
  rw [h1, hc] at e1
  rw [h2, hc] at e2
  refine ⟨rfl, h1, rfl, ?_, h2, rfl, ?_⟩
  · rw [e1]
    simp [capped, capData, truncInt_ten]
  · rw [e2]
    simp [capped, fracData, truncInt_frac]

end C19

/-! ## C18: the cumulative allocation of `Run` -/

section C18

variable {R : Type} [LinearOrderedField R]

theorem get_accumulate_fold (b : Allocation R) (id : Int) (l : List Int) (hl : l.Nodup) :
    ∀ a : Allocation R,
      GoMap.get
          (l.foldl (fun allocation k =>
            GoMap.set allocation k (GoMap.get allocation k + GoMap.get b k)) a) id
        = if id ∈ l then GoMap.get a id + GoMap.get b id else GoMap.get a id := by
  induction l with
  | nil => intro a; simp
  | cons k l ih =>
    intro a
    rw [List.nodup_cons] at hl
    rw [List.foldl_cons, ih hl.2]
    by_cases hk : k = id
    · subst hk
      rw [if_neg hl.1, if_pos (List.mem_cons_self _ _), GoMap.get_set_self]
    · have hk' : ¬ id = k := fun e => hk e.symm
      rw [GoMap.get_set_of_ne _ _ _ _ hk]
      simp only [List.mem_cons, hk', false_or]

/-- The update `s.allocation[id] += a` over the entries of a schedule's allocation
adds the schedule's entry to that of every app. -/
theorem get_accumulate (a b : Allocation R) (id : Int) :
    GoMap.get (accumulate a b) id = GoMap.get a id + GoMap.get b id := by
  unfold accumulate
  rw [get_accumulate_fold b id _ (GoMap.nodup_keys b)]
  by_cases h : id ∈ GoMap.keys b
  · rw [if_pos h]
  · rw [if_neg h, GoMap.get_eq_zero_of_not_mem b id h, add_zero]

omit [LinearOrderedField R] in
theorem Scheduler.update_vehicles_allocation {σ : Type} (s s2 : Scheduler R σ)
    (schedule : Schedule R) (h : s.update_vehicles schedule = .ok s2) :
    s2.allocation = s.allocation := by
  unfold Scheduler.update_vehicles at h
  split at h
  · cases h
  · cases h
    rfl

variable [FloorRing R]

/-- A pass through the body of the loop of `Run` that succeeds trims one schedule,
adds its allocation to the cumulative allocation and counts one round. -/
theorem Scheduler.round_ok {σ : Type} (L : Lib R) (P : Planners R) (fuel : Nat)
    (st st1 : RunState R σ) (h : Scheduler.round L P fuel st = some (.ok st1)) :
    ∃ schedule1 : Schedule R,
      st1.trimmed = schedule1 :: st.trimmed ∧
        st1.s.allocation = accumulate st.s.allocation schedule1.Allocation ∧
        st1.round = st.round + 1 := by
  unfold Scheduler.round at h
  simp only at h
  split at h
  · cases h
  · cases h
  · rename_i sp1 schedule _
    split at h
    · cases h
    · rename_i s2 hv
      have ha := Scheduler.update_vehicles_allocation _ _ _ hv
      simp only [Option.some.injEq, Except.ok.injEq] at h
      subst h
      refine ⟨schedule.Trim st.s.ReplanSec, rfl, ?_, rfl⟩
      show (s2.update_apps _ _).allocation = _
      unfold Scheduler.update_apps
      exact ha

/-- The invariant of the loop of `Run`. -/
theorem Scheduler.run_loop_inv {σ : Type} (L : Lib R) (P : Planners R) (fuel : Nat) (id : Int) :
    ∀ (n : Nat) (st st1 : RunState R σ),
      Scheduler.run_loop L P fuel n st = some (.ok st1) →
      (st.round = st.trimmed.length ∧
        GoMap.get st.s.allocation id
          = (st.trimmed.map fun schedule => GoMap.get schedule.Allocation id).sum) →
      st1.round = st1.trimmed.length ∧
        GoMap.get st1.s.allocation id
          = (st1.trimmed.map fun schedule => GoMap.get schedule.Allocation id).sum := by
  intro n
  induction n with
  | zero =>
    intro st st1 h hinv
    unfold Scheduler.run_loop at h
    simp only [Option.some.injEq, Except.ok.injEq] at h
    subst h
    exact hinv
  | succ n ih =>
    intro st st1 h hinv
    unfold Scheduler.run_loop at h
    split at h
    · split at h
      · rename_i st2 hr
        obtain ⟨schedule1, ht, ha, hround⟩ := Scheduler.round_ok L P fuel st st2 hr
        refine ih st2 st1 h ⟨?_, ?_⟩
        · rw [hround, ht, hinv.1]
          simp
        · rw [ha, get_accumulate, ht, hinv.2, List.map_cons, List.sum_cons]
          ring
      · rename_i other hne
        exact absurd h (hne st1)
    · simp only [Option.some.injEq, Except.ok.injEq] at h
      subst h
      exact hinv

/-- C18. Round accumulation: `Run` starts from an empty historical allocation, and
when it ends after `R` rounds (the number of trimmed schedules, which is the value
of `round`), the historical allocation of every app equals the sum over the rounds
of the allocation of that round's trimmed schedule for the app. -/
theorem C18_round_accumulation {σ : Type} (L : Lib R) (P : Planners R) (fuel : Nat)
    (s : Scheduler R σ) (st : RunState R σ) (h : s.Run L P fuel = some (.ok st)) (id : Int) :
    st.round = st.trimmed.length ∧
      GoMap.get st.s.allocation id
        = (st.trimmed.map fun schedule => GoMap.get schedule.Allocation id).sum := by
  unfold Scheduler.Run at h
  refine Scheduler.run_loop_inv L P fuel id _ _ st h ⟨rfl, ?_⟩
  simp [GoMap.get, GoMap.find]

/-! The run of the sample scheduler. -/

theorem cap_get_interest_map (s : Scheduler ℚ Unit) (ha : s.Applications = [capApp])
    (hc : s.Capacity = 5) : s.get_interest_map = (capImAll, capIm) := by
  simp [Scheduler.get_interest_map, ha, hc, MergeInterestMaps, capApp, GoMap.keys, GoMap.find,
    GoMap.set, capTask, fracTask, capData, fracData, truncInt_ten, truncInt_frac, capImAll, capIm]

theorem accumulate_first : accumulate ([] : Allocation ℚ) [(1, 1), (1, 0)] = [(1, 1)] := by
  simp [accumulate, GoMap.keys, GoMap.get, GoMap.find, GoMap.set]

theorem accumulate_second :
    accumulate ([(1, 1)] : Allocation ℚ) [(1, 1), (1, 0)] = [(1, 2), (1, 1)] := by
  simp [accumulate, GoMap.keys, GoMap.get, GoMap.find, GoMap.set]
  norm_num

theorem cap_round0 : Scheduler.round ratLib capPlanners 0 capState0 = some (.ok capState1) := by
  have hfs : capState0.s.find_schedule ratLib capPlanners 0
      { capState0.sp with
        InterestMap := capState0.im, Solver := capState0.s.Solver none
        Vehicles := capState0.s.Vehicles, Historical := capState0.s.allocation } none
      = some (.ok (capState0.sp, trimSample)) := by
    simp [Scheduler.find_schedule, capState0, capScheduler]
  unfold Scheduler.round
  simp only [show capState0.s.RTH = 0 from rfl, lt_irrefl, false_and, decide_False,
    Bool.false_eq_true, if_false, gt_iff_lt]
  rw [hfs]
  simp only [show capState0.s.ReplanSec = 50 from rfl, trimSample_Trim]
  rw [show capState0.s.allocation = [] from rfl, accumulate_first]
  simp only [Scheduler.update_vehicles, update_vehicles_loop, List.enum, List.enumFrom, capState0,
    capScheduler, List.get?_cons_zero, List.set_cons_zero]
  rw [cap_get_interest_map _ rfl rfl]
  rfl

theorem cap_round1 : Scheduler.round ratLib capPlanners 0 capState1 = some (.ok capResult) := by
  have hfs : capState1.s.find_schedule ratLib capPlanners 0
      { capState1.sp with
        InterestMap := capState1.im, Solver := capState1.s.Solver none
        Vehicles := capState1.s.Vehicles, Historical := capState1.s.allocation } none
      = some (.ok
          ({ capState1.sp with
            InterestMap := capState1.im, Solver := capState1.s.Solver none
            Vehicles := capState1.s.Vehicles, Historical := capState1.s.allocation },
            trimSample)) := by
    simp [Scheduler.find_schedule, capState1, capScheduler]
  unfold Scheduler.round
  simp only [show capState1.s.RTH = 0 from rfl, lt_irrefl, false_and, decide_False,
    Bool.false_eq_true, if_false, gt_iff_lt]
  rw [hfs]
  simp only [show capState1.s.ReplanSec = 50 from rfl, trimSample_Trim]
  rw [show capState1.s.allocation = [(1, 1)] from rfl, accumulate_second]
  simp only [Scheduler.update_vehicles, update_vehicles_loop, List.enum, List.enumFrom, capState1,
    capScheduler, List.get?_cons_zero, List.set_cons_zero]
  rw [cap_get_interest_map _ rfl rfl]
  rfl

/-- The run of `capScheduler`: two rounds. -/
theorem capScheduler_Run : capScheduler.Run ratLib capPlanners 0 = some (.ok capResult) := by
  unfold Scheduler.Run
  simp only [cap_get_interest_map _ (rfl : ({ capScheduler with allocation := [] } :
    Scheduler ℚ Unit).Applications = [capApp]) rfl]
  rw [show capScheduler.MaxRounds.toNat = 0 + 1 + 1 from rfl]
  have h0 : GoMap.len capState0.im_all > 0 ∧ capState0.round < capState0.s.MaxRounds :=
    ⟨by decide, by decide⟩
  have h1 : GoMap.len capState1.im_all > 0 ∧ capState1.round < capState1.s.MaxRounds :=
    ⟨by decide, by decide⟩
  show Scheduler.run_loop ratLib capPlanners 0 (0 + 1 + 1) capState0 = _
  rw [Scheduler.run_loop, if_pos h0, cap_round0]
  simp only
  rw [Scheduler.run_loop, if_pos h1, cap_round1]
  simp only
  rw [Scheduler.run_loop]

/-- C18 at the run of `capScheduler`: after its two rounds the historical
allocation of app 1 is the sum of the two trimmed allocations. -/
theorem C18_round_accumulation_witness :
    capScheduler.Run ratLib capPlanners 0 = some (.ok capResult) ∧
      capResult.round = capResult.trimmed.length ∧
      GoMap.get capResult.s.allocation 1
        = (capResult.trimmed.map fun schedule => GoMap.get schedule.Allocation 1).sum :=
  ⟨capScheduler_Run,
    C18_round_accumulation ratLib capPlanners 0 capScheduler capResult capScheduler_Run 1⟩

end C18

/-! ## C13: the points that `TraceFrontier` returns -/

section C13

theorem fmt_init_hull : onFaceState.init_hull fmtLib = .ok [hullPoint0, hullPoint1] := by
  simp [Mobius.init_hull, Mobius.init_hull_points, Mobius.init_hull_point,
    Mobius.compute_schedule, onFaceState, sampleState, sampleState0, GoMap.len, GoMap.keys,
    GoMap.set, GoMap.get, GoMap.find, scheduleOf, Schedule.zero, fmtLib_utility, hullPoint0,
    hullPoint1]

theorem fmt_hull_face_equation :
    onFaceState.compute_face_equation fmtLib [hullPoint0, hullPoint1]
      = .error (.err "underconstrained") := by
  simp [Mobius.compute_face_equation, SolveVec, Mobius.face_rows, Mobius.face_rhs, onFaceState,
    sampleState, sampleState0, hullPoint0, hullPoint1, GoMap.get, GoMap.find, Matrix.det_fin_two]

theorem fmt_extend_hull_trace (fuel : Nat) :
    Mobius.extend_hull_trace fmtLib (fuel + 1) onFaceState [hullPoint0, hullPoint1]
        [hullPoint0, hullPoint1]
      = some (.ok (onFaceState, [hullPoint0, hullPoint1])) := by
  have he : onFaceState.find_extension fmtLib [hullPoint0, hullPoint1] [hullPoint0, hullPoint1]
      = .error (.err "no extension found: underconstrained") := by
    unfold Mobius.find_extension
    rw [fmt_hull_face_equation]
    rfl
  rw [Mobius.extend_hull_trace, he]
  rfl

theorem fmt_clean_hull :
    onFaceState.clean_hull fmtLib [hullPoint0, hullPoint1] = [hullPoint1, hullPoint0] := by
  rfl

/-- C13, the code at the failing input.  The solver of `onFaceState` answers every
weight map with the allocation `(1, 1)`.  `init_hull` makes one point per app, both
with that allocation; no extension is found, and `clean_hull`, which keys the points
by the label of their weights, `1.0 0.0 ` and `0.0 1.0 `, keeps both: `TraceFrontier`
returns two schedules with the same allocation. -/
theorem C13_trace_keeps_equal_allocations (fuel : Nat) :
    onFaceState.TraceFrontier fmtLib (fuel + 1)
        = some (.ok (onFaceState, [hullPoint1.schedule, hullPoint0.schedule])) ∧
      hullPoint1.schedule.Allocation = [(0, 1), (1, 1)] ∧
      hullPoint0.schedule.Allocation = [(0, 1), (1, 1)] := by
  refine ⟨?_, rfl, rfl⟩
  unfold Mobius.TraceFrontier
  rw [fmt_init_hull]
  simp only
  rw [fmt_extend_hull_trace]
  simp only
  rw [fmt_clean_hull]
  rfl

end C13

/-! ## C21: the return-to-home gate -/

section C21

variable {R : Type} [LinearOrderedField R] [FloorRing R]

/-- What a successful pass through the body of the loop of `Run` went through. -/
theorem Scheduler.round_inv {σ : Type} (L : Lib R) (P : Planners R) (fuel : Nat)
    (st st1 : RunState R σ) (h : Scheduler.round L P fuel st = some (.ok st1)) :
    (∃ sp1 schedule,
      st.s.find_schedule L P fuel
          (planState st (if rthEngaged st then some st.s.Home else none))
          (if rthEngaged st then some st.s.Home else none)
        = some (.ok (sp1, schedule))) ∧
      st1.budget_time = (if rthEngaged st then 0 else st.budget_time) + st.s.ReplanSec ∧
      st1.total_time = st.total_time + st.s.ReplanSec ∧
      st1.s.RTH = st.s.RTH ∧ st1.s.Horizon = st.s.Horizon ∧
      st1.s.ReplanSec = st.s.ReplanSec ∧ st1.s.Home = st.s.Home := by
  unfold Scheduler.round at h
  simp only at h
  split at h
  · cases h
  · cases h
  · rename_i sp1 schedule hfs
    split at h
    · cases h
    · rename_i s2 hv
      unfold Scheduler.update_vehicles at hv
      split at hv
      · cases hv
      · simp only [Except.ok.injEq] at hv
        subst hv
        simp only [Option.some.injEq, Except.ok.injEq] at h
        subst h
        have hsome : (if rthEngaged st then some st.s.Home else none)
            = (if decide (st.s.RTH > 0 ∧ st.budget_time + st.s.Horizon ≥ st.s.RTH) = true
                then some st.s.Home else none) := by
          by_cases hg : st.s.RTH > 0 ∧ st.budget_time + st.s.Horizon ≥ st.s.RTH
          · rw [if_pos (show rthEngaged st from hg), if_pos (decide_eq_true hg)]
          · rw [if_neg (show ¬ rthEngaged st from hg),
              if_neg (fun h => hg (of_decide_eq_true h))]
        have hbud : (if rthEngaged st then (0 : Int) else st.budget_time)
            = (if decide (st.s.RTH > 0 ∧ st.budget_time + st.s.Horizon ≥ st.s.RTH) = true
                then 0 else st.budget_time) := by
          by_cases hg : st.s.RTH > 0 ∧ st.budget_time + st.s.Horizon ≥ st.s.RTH
          · rw [if_pos (show rthEngaged st from hg), if_pos (decide_eq_true hg)]
          · rw [if_neg (show ¬ rthEngaged st from hg),
              if_neg (fun h => hg (of_decide_eq_true h))]
        refine ⟨⟨sp1, schedule, ?_⟩, ?_, rfl, rfl, rfl, rfl, rfl⟩
        · rw [hsome]
          exact hfs
        · rw [hbud]

/-- C21 (amended). RTH gating, scenario S5: with `rth_sec = 100`, `horizon = 60`,
`replan_sec = 60` and `budget_time = 0`, round 1 does not engage return-to-home (the
solver is set without home locations) and ends with `budget_time = 60`; round 2
engages it (`60 + 60 ≥ 100`, the solver is set with the home locations), resets
`budget_time` to 0 before the solve and ends with `budget_time = 60`, the
`replan_sec` that every round adds at its end. -/
theorem C21_rth_gating {σ : Type} (L : Lib R) (P : Planners R) (fuel : Nat)
    (st st1 st2 : RunState R σ) (hrth : st.s.RTH = 100) (hhor : st.s.Horizon = 60)
    (hrep : st.s.ReplanSec = 60) (hb : st.budget_time = 0)
    (h1 : Scheduler.round L P fuel st = some (.ok st1))
    (h2 : Scheduler.round L P fuel st1 = some (.ok st2)) :
    ¬ rthEngaged st ∧
      (∃ sp1 schedule,
        st.s.find_schedule L P fuel (planState st none) none = some (.ok (sp1, schedule))) ∧
      st1.budget_time = 60 ∧
      rthEngaged st1 ∧
      (∃ sp2 schedule,
        st1.s.find_schedule L P fuel (planState st1 (some st1.s.Home)) (some st1.s.Home)
          = some (.ok (sp2, schedule))) ∧
      st2.budget_time = 60 := by
  obtain ⟨hf1, hb1, _, hr1, hh1, hp1, _⟩ := Scheduler.round_inv L P fuel st st1 h1
  obtain ⟨hf2, hb2, _, _, _, _, _⟩ := Scheduler.round_inv L P fuel st1 st2 h2
  have hg : ¬ rthEngaged st := by
    unfold rthEngaged
    rw [hrth, hhor, hb]
    rintro ⟨_, h⟩
    norm_num at h
  rw [if_neg hg] at hf1 hb1
  rw [hb, hrep] at hb1
  have hb1' : st1.budget_time = 60 := by rw [hb1]; norm_num
  have hg1 : rthEngaged st1 := by
    unfold rthEngaged
    rw [hr1, hh1, hrth, hhor, hb1']
    constructor <;> norm_num
  rw [if_pos hg1] at hf2 hb2
  rw [hp1, hrep] at hb2
  exact ⟨hg, hf1, hb1', hg1, hf2, by rw [hb2]; norm_num⟩

theorem rth_round0 : Scheduler.round ratLib capPlanners 0 rthState0 = some (.ok rthState1) := by
  have hfs : rthState0.s.find_schedule ratLib capPlanners 0
      { rthState0.sp with
        InterestMap := rthState0.im, Solver := rthState0.s.Solver none
        Vehicles := rthState0.s.Vehicles, Historical := rthState0.s.allocation } none
      = some (.ok (rthState0.sp, Schedule.zero)) := by
    simp [Scheduler.find_schedule, rthState0, rthScheduler, capScheduler]
  have hgate : decide (rthState0.s.RTH > 0
      ∧ rthState0.budget_time + rthState0.s.Horizon ≥ rthState0.s.RTH) = false := by decide
  unfold Scheduler.round
  simp only [hgate, Bool.false_eq_true, if_false]
  rw [hfs]
  simp only [show (Schedule.zero : Schedule ℚ).Trim rthState0.s.ReplanSec = Schedule.zero from rfl,
    Scheduler.update_vehicles, update_vehicles_loop, List.enum, List.enumFrom, Schedule.zero]
  rw [cap_get_interest_map _ rfl rfl]
  rfl

theorem rth_round1 : Scheduler.round ratLib capPlanners 0 rthState1 = some (.ok rthState2) := by
  have hfs : rthState1.s.find_schedule ratLib capPlanners 0
      { rthState1.sp with
        InterestMap := rthState1.im, Solver := rthState1.s.Solver (some rthState1.s.Home)
        Vehicles := rthState1.s.Vehicles, Historical := rthState1.s.allocation }
      (some rthState1.s.Home)
      = some (.ok (rthState2.sp, Schedule.zero)) := by
    simp [Scheduler.find_schedule, rthState1, rthState0, rthState2, rthScheduler, capScheduler]
  have hgate : decide (rthState1.s.RTH > 0
      ∧ rthState1.budget_time + rthState1.s.Horizon ≥ rthState1.s.RTH) = true := by decide
  unfold Scheduler.round
  simp only [hgate, if_true]
  rw [hfs]
  simp only [show (Schedule.zero : Schedule ℚ).Trim rthState1.s.ReplanSec = Schedule.zero from rfl,
    Scheduler.update_vehicles, update_vehicles_loop, List.enum, List.enumFrom, Schedule.zero]
  rw [cap_get_interest_map _ rfl rfl]
  rfl

/-- C21 (amended) at the two rounds of the scheduler of scenario S5. -/
theorem C21_rth_gating_witness :
    rthState0.s.RTH = 100 ∧ rthState0.s.Horizon = 60 ∧ rthState0.s.ReplanSec = 60 ∧
      rthState0.budget_time = 0 ∧
      Scheduler.round ratLib capPlanners 0 rthState0 = some (.ok rthState1) ∧
      Scheduler.round ratLib capPlanners 0 rthState1 = some (.ok rthState2) ∧
      (¬ rthEngaged rthState0 ∧
        (∃ sp1 schedule,
          rthState0.s.find_schedule ratLib capPlanners 0 (planState rthState0 none) none
            = some (.ok (sp1, schedule))) ∧
        rthState1.budget_time = 60 ∧
        rthEngaged rthState1 ∧
        (∃ sp2 schedule,
          rthState1.s.find_schedule ratLib capPlanners 0
              (planState rthState1 (some rthState1.s.Home)) (some rthState1.s.Home)
            = some (.ok (sp2, schedule))) ∧
        rthState2.budget_time = 60) :=
  ⟨rfl, rfl, rfl, rfl, rth_round0, rth_round1,
    C21_rth_gating ratLib capPlanners 0 rthState0 rthState1 rthState2 rfl rfl rfl rfl
      rth_round0 rth_round1⟩

/-- C21, counterexample: in the scheduler of scenario S5, round 2 engages
return-to-home and `budget_time` is 60 after it, not 0. -/
theorem C21_counterexample :
    rthState0.s.RTH = 100 ∧ rthState0.s.Horizon = 60 ∧ rthState0.s.ReplanSec = 60 ∧
      rthState0.budget_time = 0 ∧
      Scheduler.round ratLib capPlanners 0 rthState0 = some (.ok rthState1) ∧
      Scheduler.round ratLib capPlanners 0 rthState1 = some (.ok rthState2) ∧
      rthEngaged rthState1 ∧ rthState2.budget_time = 60 :=
  ⟨rfl, rfl, rfl, rfl, rth_round0, rth_round1, by decide, rfl⟩

end C21

/-! ## C23: the dispatch to the applications -/

section C23

variable {R : Type} [LinearOrderedField R]

omit [LinearOrderedField R] in
theorem foldl_flatMap_paths {β : Type} (f : β → TaskData R → β) (routes : List (Route R)) :
    ∀ init : β,
      routes.foldl (fun m route => route.Path.foldl f m) init
        = (routes.flatMap fun r => r.Path).foldl f init := by
  induction routes with
  | nil => intro init; rfl
  | cons r routes ih =>
    intro init
    rw [List.foldl_cons, ih, List.flatMap_cons, List.foldl_append]

theorem find_app_tasks_foldl (time : Int) (id : Int) (tasks : List (TaskData R)) :
    ∀ m : GoMap Int (List (TaskData R)),
      (GoMap.find
          (tasks.foldl
            (fun m task =>
              if ({ task with FulfillTime := time + task.FulfillTime } :
                    TaskData R).Destination.Longitude ≠ (INVALID_LOC : R)
                  ∧ ({ task with FulfillTime := time + task.FulfillTime } :
                    TaskData R).Destination.Latitude ≠ (INVALID_LOC : R)
              then
                GoMap.set m task.AppID
                  (((GoMap.find m task.AppID).getD [])
                    ++ [{ task with FulfillTime := time + task.FulfillTime }])
              else m)
            m) id).getD []
        = (GoMap.find m id).getD []
          ++ (tasks.filter fun t => decide (counts t ∧ t.AppID = id)).map
              fun t => { t with FulfillTime := time + t.FulfillTime } := by
  induction tasks with
  | nil => intro m; simp
  | cons t tasks ih =>
    intro m
    rw [List.foldl_cons, ih]
    by_cases hc : counts t
    · have hc' : t.Destination.Longitude ≠ (INVALID_LOC : R)
          ∧ t.Destination.Latitude ≠ (INVALID_LOC : R) := ⟨hc.2, hc.1⟩
      rw [if_pos hc']
      by_cases hid : t.AppID = id
      · subst hid
        rw [List.filter_cons_of_pos (by simpa using hc), GoMap.find_set_self]
        simp
      · rw [List.filter_cons_of_neg (by simpa using fun _ => hid),
          GoMap.find_set_of_ne _ _ _ _ hid]
    · have hc' : ¬ (t.Destination.Longitude ≠ (INVALID_LOC : R)
          ∧ t.Destination.Latitude ≠ (INVALID_LOC : R)) := fun h => hc ⟨h.2, h.1⟩
      rw [if_neg hc', List.filter_cons_of_neg (by simpa using fun h => absurd h hc)]

/-- The entry of an app in the map that `update_apps` builds. -/
theorem find_app_tasks (schedule : Schedule R) (time : Int) (id : Int) :
    (GoMap.find (app_tasks schedule time) id).getD [] = dispatched schedule time id := by
  unfold app_tasks dispatched allTasks
  rw [foldl_flatMap_paths, find_app_tasks_foldl]
  rfl

/-- C23 (amended). Dispatch to applications: `update_apps` calls `Update` of every
application once, with the time `total_time + replan_sec` and the list of the tasks
of the schedule whose `app_id` equals the application's id and whose destination
latitude and longitude are both different from the sentinel coordinate, in the order
of the routes and with `fulfill_time` equal to `total_time` plus the task's
`fulfill_time` in the schedule; a retained task with a sentinel destination
coordinate is passed to no application. -/
theorem C23_update_apps {σ : Type} (s : Scheduler R σ) (schedule : Schedule R) (time : Int) :
    (s.update_apps schedule time).Applications
        = s.Applications.map (fun app =>
            { app with
              state := app.Update app.state (dispatched schedule time (app.GetID app.state))
                (time + s.ReplanSec) }) ∧
      ∀ id t, t ∈ dispatched schedule time id ↔
        ∃ t0 ∈ allTasks schedule, counts t0 ∧ t0.AppID = id ∧
          t = { t0 with FulfillTime := time + t0.FulfillTime } := by
  refine ⟨?_, ?_⟩
  · unfold Scheduler.update_apps
    simp only [find_app_tasks]
  · intro id t
    unfold dispatched
    simp only [List.mem_map, List.mem_filter, decide_eq_true_eq]
    constructor
    · rintro ⟨t0, ⟨hm, hc, hid⟩, rfl⟩
      exact ⟨t0, hm, hc, hid, rfl⟩
    · rintro ⟨t0, hm, hc, hid, rfl⟩
      exact ⟨t0, ⟨hm, hc, hid⟩, rfl⟩

/-- C23, counterexample: the schedule retains a task of app 1 whose destination is
the sentinel location; `update_apps` passes the application of id 1 no task. -/
theorem C23_counterexample :
    allTasks sentinelSchedule = [(sampleTask 1 5).2] ∧ (sampleTask 1 5).2.AppID = 1 ∧
      recApp.GetID recApp.state = 1 ∧
      (recScheduler.update_apps sentinelSchedule 0).Applications.map (fun app => app.state)
        = [[]] := by
  refine ⟨rfl, rfl, rfl, ?_⟩
  simp [Scheduler.update_apps, recScheduler, recApp, app_tasks, sentinelSchedule, sampleTask,
    INVALID_LOC, GoMap.find]

end C23

/-! ## C25: pickup and delivery under `Trim` -/

section C25

/-- C25, the code at the failing input.  With `T = 50` the loop of `Trim` leaves at
the pickup, fulfilled at 100: it is the cut task, its destination `(2, 2)` is not the
sentinel location and it is not the last task of the path.  The step that finishes a
request tests whether the destination latitude is 0, which it is not, so the
delivery that follows is dropped from the path. -/
theorem C25_delivery_dropped :
    pairSchedule.Routes.map (fun r => r.Path) = [[pairPickup, pairDelivery]] ∧
      cutIndex 50 [pairPickup, pairDelivery] = 0 ∧ hasDestination pairPickup ∧
      (pairSchedule.Trim 50).Routes.map (fun r => r.Path) = [[pairPickup]] := by
  refine ⟨rfl, ?_, ?_, ?_⟩
  · simp [cutIndex, pairPickup]
  · simp [hasDestination, pairPickup, INVALID_LOC]
    norm_num
  · simp [Schedule.Trim, trim_routes, trim_route, trim_scan, pairSchedule, pairPickup,
      pairDelivery, INVALID_LOC, GoMap.keys, GoMap.set, GoMap.get, GoMap.find]

end C25

/-! ## C24: the row of the frontier log -/

section C24

/-- C24, the code at the failing inputs.  `get_csv_row` writes the allocation of the
app `id` to the field `id + 1` of a row of `2 + K` fields.  With the app ids 0 and 1
the allocation of app 0 overwrites the solver label in field 1 and the last field
stays empty; with the app ids 2 and 3 the write for app 3 is to field 4 of a row of
four fields, which panics. -/
theorem C24_csv_row_by_app_id :
    sampleState.app_ids = [0, 1] ∧
      sampleState.get_csv_row fmtLib "dir" "vrp" [(0, 2), (1, 3)]
        = .ok ["dir", "2.00", "3.00", ""] ∧
      highIdState.app_ids = [2, 3] ∧
      highIdState.get_csv_row fmtLib "dir" "vrp" [(2, 2), (3, 3)]
        = .error (.panic "index out of range") := by
  refine ⟨rfl, ?_, rfl, ?_⟩
  · rfl
  · rfl

end C24

/-! ## C22: the invariant of `init_hull` -/

section C22

variable {R : Type} [LinearOrderedField R]

/-- The active apps are the apps of the tasks of the interest map. -/
theorem mem_GetApps (im : InterestMap R) (i : Int) :
    i ∈ GetApps im ↔ ∃ t ∈ GoMap.keys im, t.AppID = i := by
  unfold GetApps
  simp only
  rw [(List.perm_insertionSort _ _).mem_iff]
  have hfold : ∀ (l : List (Task R)) (acc : GoMap Int Unit),
      l.foldl (fun apps t => GoMap.set apps t.AppID ()) acc
        = (l.map fun t => (t.AppID, ())).reverse ++ acc := by
    intro l
    induction l with
    | nil => intro acc; rfl
    | cons t l ih =>
      intro acc
      rw [List.foldl_cons, ih, List.map_cons, List.reverse_cons, List.append_assoc]
      rfl
  rw [hfold, GoMap.mem_keys_iff]
  simp only [List.append_nil, List.mem_reverse, List.mem_map, Prod.mk.injEq, and_true,
    exists_eq_right]
  exact ⟨fun ⟨_, h⟩ => h, fun h => ⟨(), h⟩⟩

theorem len_oneHot (ids : List Int) (h : ids.Nodup) (i : Int) :
    GoMap.len (oneHot ids i : GoMap Int R) = ids.length := by
  unfold oneHot GoMap.len GoMap.keys
  rw [foldl_set_eq (fun idx => if idx = i then (1 : R) else 0), List.append_nil,
    List.map_reverse, List.map_map]
  have hfst : (Prod.fst ∘ fun idx : Int => (idx, if idx = i then (1 : R) else 0)) = id := by
    funext x; rfl
  rw [hfst, List.map_id, List.Nodup.dedup (List.nodup_reverse.2 h), List.length_reverse]

theorem Mobius.init_hull_point_eq (L : Lib R) (s : Mobius R) (i : Int) :
    s.init_hull_point L i
      = match s.compute_schedule L (oneHot s.app_ids i) with
        | .error e => .error e
        | .ok (schedule, _) =>
          if GoMap.get schedule.Allocation i = 0 then
            .error (.fatal "app, nothing allocated")
          else
            .ok { schedule := schedule, utility := s.utility L schedule.Allocation
                  weights := oneHot s.app_ids i } := rfl

theorem Mobius.compute_schedule_ok (L : Lib R) (s : Mobius R) (w : GoMap Int R)
    (h : GoMap.len w = s.num_apps) : ∃ schedule u, s.compute_schedule L w = .ok (schedule, u) := by
  unfold Mobius.compute_schedule
  rw [if_neg (not_not.2 h)]
  exact ⟨_, _, rfl⟩

/-- The loop of `init_hull` over a list of apps whose solves all return. -/
theorem Mobius.init_hull_points_spec (L : Lib R) (s : Mobius R) (ids : List Int)
    (hok : ∀ i ∈ ids, ∃ schedule u, s.compute_schedule L (oneHot s.app_ids i)
      = .ok (schedule, u)) :
    ((∃ i ∈ ids, ∃ schedule u,
        s.compute_schedule L (oneHot s.app_ids i) = .ok (schedule, u) ∧
          GoMap.get schedule.Allocation i = 0) →
      s.init_hull_points L ids = .error (.fatal "app, nothing allocated")) ∧
    ((∀ i ∈ ids, ∀ schedule u,
        s.compute_schedule L (oneHot s.app_ids i) = .ok (schedule, u) →
          GoMap.get schedule.Allocation i ≠ 0) →
      ∃ hull, s.init_hull_points L ids = .ok hull ∧
        List.Forall₂
          (fun p i => p.weights = oneHot s.app_ids i ∧
            (∃ u, s.compute_schedule L (oneHot s.app_ids i) = .ok (p.schedule, u)) ∧
            GoMap.get p.schedule.Allocation i ≠ 0)
          hull ids) := by
  induction ids with
  | nil =>
    refine ⟨?_, ?_⟩
    · rintro ⟨i, hi, _⟩; cases hi
    · intro _; exact ⟨[], rfl, List.Forall₂.nil⟩
  | cons i ids ih =>
    obtain ⟨schedule, u, hcs⟩ := hok i (List.mem_cons_self _ _)
    obtain ⟨ih1, ih2⟩ := ih fun j hj => hok j (List.mem_cons_of_mem _ hj)
    have hpoint := s.init_hull_point_eq L i
    rw [hcs] at hpoint
    simp only at hpoint
    by_cases h0 : GoMap.get schedule.Allocation i = 0
    · rw [if_pos h0] at hpoint
      refine ⟨?_, ?_⟩
      · intro _
        unfold Mobius.init_hull_points
        rw [hpoint]
      · intro hall
        exact absurd h0 (hall i (List.mem_cons_self _ _) schedule u hcs)
    · rw [if_neg h0] at hpoint
      refine ⟨?_, ?_⟩
      · rintro ⟨j, hj, sj, uj, hsj, hj0⟩
        rcases List.mem_cons.1 hj with e | e
        · subst e
          rw [hcs] at hsj
          simp only [Except.ok.injEq, Prod.mk.injEq] at hsj
          rw [← hsj.1] at hj0
          exact absurd hj0 h0
        · have := ih1 ⟨j, e, sj, uj, hsj, hj0⟩
          unfold Mobius.init_hull_points
          rw [hpoint]
          simp only
          rw [this]
      · intro hall
        obtain ⟨hull, hh, hf⟩ := ih2 fun j hj => hall j (List.mem_cons_of_mem _ hj)
        refine ⟨{ schedule := schedule, utility := s.utility L schedule.Allocation
                  weights := oneHot s.app_ids i } :: hull, ?_,
          List.Forall₂.cons ⟨rfl, ⟨u, hcs⟩, h0⟩ hf⟩
        unfold Mobius.init_hull_points
        rw [hpoint]
        simp only
        rw [hh]

/-- C22 (amended). init_hull invariant: after `Init` the active apps are exactly
the apps that have a task in the interest map, and `init_hull` performs a one-hot
solve for every active app.  It ends with the fatal error whenever the one-hot solve
of some active app allocates nothing to that app, and otherwise returns one point per
active app, with the one-hot weights and the schedule of that solve.  An application
without a task in the interest map is not active: it gets no solve and raises no
violation. -/
theorem C22_init_hull (L : Lib R) (s0 s : Mobius R) (warm : GoMap String (Schedule R))
    (hinit : s0.Init warm = .ok s) :
    (∀ i, i ∈ s.app_ids ↔ ∃ t ∈ GoMap.keys s0.InterestMap, t.AppID = i) ∧
      (∀ i ∈ s.app_ids, ∃ schedule u,
        s.compute_schedule L (oneHot s.app_ids i) = .ok (schedule, u)) ∧
      ((∃ i ∈ s.app_ids, ∃ schedule u,
          s.compute_schedule L (oneHot s.app_ids i) = .ok (schedule, u) ∧
            GoMap.get schedule.Allocation i = 0) →
        s.init_hull L = .error (.fatal "app, nothing allocated")) ∧
      ((∀ i ∈ s.app_ids, ∀ schedule u,
          s.compute_schedule L (oneHot s.app_ids i) = .ok (schedule, u) →
            GoMap.get schedule.Allocation i ≠ 0) →
        ∃ hull, s.init_hull L = .ok hull ∧
          List.Forall₂
            (fun p i => p.weights = oneHot s.app_ids i ∧
              (∃ u, s.compute_schedule L (oneHot s.app_ids i) = .ok (p.schedule, u)) ∧
              GoMap.get p.schedule.Allocation i ≠ 0)
            hull s.app_ids) := by
  have hs := Mobius.Init_initialized s0 s warm hinit
  have hids := Mobius.Init_app_ids s0 s warm hinit
  have hok : ∀ i ∈ s.app_ids, ∃ schedule u,
      s.compute_schedule L (oneHot s.app_ids i) = .ok (schedule, u) := by
    intro i _
    refine s.compute_schedule_ok L _ ?_
    rw [len_oneHot _ hs.sorted.nodup, hs.num]
  obtain ⟨h1, h2⟩ := s.init_hull_points_spec L s.app_ids hok
  refine ⟨?_, hok, h1, h2⟩
  intro i
  rw [hids, mem_GetApps]

/-- C22 (amended) at the two-app state whose solver always allocates `(1, 1)`. -/
theorem C22_init_hull_witness :
    onFaceState0.Init [] = .ok onFaceState ∧
      ((∀ i, i ∈ onFaceState.app_ids ↔ ∃ t ∈ GoMap.keys onFaceState0.InterestMap, t.AppID = i) ∧
        (∀ i ∈ onFaceState.app_ids, ∃ schedule u,
          onFaceState.compute_schedule fmtLib (oneHot onFaceState.app_ids i)
            = .ok (schedule, u)) ∧
        ((∃ i ∈ onFaceState.app_ids, ∃ schedule u,
            onFaceState.compute_schedule fmtLib (oneHot onFaceState.app_ids i)
              = .ok (schedule, u) ∧ GoMap.get schedule.Allocation i = 0) →
          onFaceState.init_hull fmtLib = .error (.fatal "app, nothing allocated")) ∧
        ((∀ i ∈ onFaceState.app_ids, ∀ schedule u,
            onFaceState.compute_schedule fmtLib (oneHot onFaceState.app_ids i)
              = .ok (schedule, u) → GoMap.get schedule.Allocation i ≠ 0) →
          ∃ hull, onFaceState.init_hull fmtLib = .ok hull ∧
            List.Forall₂
              (fun p i => p.weights = oneHot onFaceState.app_ids i ∧
                (∃ u, onFaceState.compute_schedule fmtLib (oneHot onFaceState.app_ids i)
                  = .ok (p.schedule, u)) ∧
                GoMap.get p.schedule.Allocation i ≠ 0)
              hull onFaceState.app_ids)) :=
  ⟨rfl, C22_init_hull fmtLib onFaceState0 onFaceState [] rfl⟩

/-- C22, counterexample: the tasks of the interest map are of the apps 0 and 1, so
an app 2 is not among the active apps after `Init`; `init_hull` solves for the apps
0 and 1 and returns their two points, raising no violation for app 2. -/
theorem C22_counterexample :
    onFaceState0.Init [] = .ok onFaceState ∧
      (GoMap.keys onFaceState0.InterestMap).map (fun t => t.AppID) = [1, 0, 1] ∧
      onFaceState.app_ids = [0, 1] ∧ (2 : Int) ∉ onFaceState.app_ids ∧
      onFaceState.init_hull fmtLib = .ok [hullPoint0, hullPoint1] := by
  refine ⟨rfl, ?_, rfl, by decide, fmt_init_hull⟩
  simp [onFaceState0, sampleState0, sampleTask, GoMap.keys]

end C22

/-! ## C28: reweighting and the weighted reward -/

section C28

variable {R : Type} [LinearOrderedField R]

/-- The entries of the reweighted interest map. -/
theorem find_Reweight (im : InterestMap R) (w : GoMap Int R) (t : Task R) :
    GoMap.find (Reweight im w) t
      = (GoMap.find im t).map fun d => { d with Interest := GoMap.get w t.AppID * d.Interest } := by
  unfold Reweight
  have hfold : ∀ (l : List (Task R)) (acc : InterestMap R), (∀ k ∈ l, k ∈ GoMap.keys im) →
      l.foldl
          (fun imw t =>
            match GoMap.find im t with
            | some d => GoMap.set imw t { d with Interest := GoMap.get w t.AppID * d.Interest }
            | none => imw)
          acc
        = l.foldl
          (fun imw t =>
            GoMap.set imw t
              { (GoMap.find im t).getD TaskData.zero with
                Interest :=
                  GoMap.get w t.AppID * ((GoMap.find im t).getD TaskData.zero).Interest })
          acc := by
    intro l
    induction l with
    | nil => intro acc _; rfl
    | cons k l ih =>
      intro acc hl
      rw [List.foldl_cons, List.foldl_cons]
      have hk : k ∈ GoMap.keys im := hl k (List.mem_cons_self _ _)
      cases hf : GoMap.find im k with
      | none => exact absurd hk ((GoMap.find_eq_none_iff im k).1 hf)
      | some d =>
        simp only [Option.getD_some]
        exact ih _ fun j hj => hl j (List.mem_cons_of_mem _ hj)
  rw [hfold _ _ (fun k hk => hk),
    GoMap.find_foldl_set (fun t =>
      ({ (GoMap.find im t).getD TaskData.zero with
        Interest := GoMap.get w t.AppID * ((GoMap.find im t).getD TaskData.zero).Interest } :
        TaskData R))]
  by_cases h : t ∈ GoMap.keys im
  · rw [if_pos h]
    cases hf : GoMap.find im t with
    | none => exact absurd h ((GoMap.find_eq_none_iff im t).1 hf)
    | some d => rfl
  · rw [if_neg h, (GoMap.find_eq_none_iff im t).2 h]
    rfl

/-- A sum over a list of tasks, app by app. -/
theorem sum_by_app (S : List (Task R)) (hS : S.Nodup) (ids : List Int) (hids : ids.Nodup)
    (hcover : ∀ t ∈ S, t.AppID ∈ ids) (f : Task R → R) :
    (S.map f).sum
      = (ids.map fun id => ((S.filter fun t => decide (t.AppID = id)).map f).sum).sum := by
  rw [← List.sum_toFinset _ hS, ← List.sum_toFinset _ hids,
    ← Finset.sum_fiberwise_of_maps_to (g := fun t : Task R => t.AppID) (t := ids.toFinset)
      (fun t ht => List.mem_toFinset.2 (hcover t (List.mem_toFinset.1 ht)))]
  refine Finset.sum_congr rfl fun id _ => ?_
  rw [← List.sum_toFinset _ (hS.filter _), List.toFinset_filter]
  refine Finset.sum_congr ?_ fun _ _ => rfl
  ext t
  simp

/-- C28. Reweighting matches the weighted reward: for every interest map, weight
map `w` and duplicate-free list `S` of tasks, if the allocation `A` has an entry for
the app of every task of `S` and each entry of `A` is the sum of the unweighted
interests of the tasks of `S` of that app, then the sum over `S` of the interests in
`im.Reweight(w)` equals `weighted_reward(w, A)`.  The reweighted map has the keys of
`im`, and each of its entries is the entry of `im` with the interest multiplied by
the weight of the task's app and every other field unchanged. -/
theorem C28_reweight_reward (im : InterestMap R) (w : GoMap Int R) (S : List (Task R))
    (A : Allocation R) (hS : S.Nodup) (hkeys : ∀ t ∈ S, t.AppID ∈ GoMap.keys A)
    (hA : ∀ id ∈ GoMap.keys A,
      GoMap.get A id
        = ((S.filter fun t => decide (t.AppID = id)).map
            fun t => ((GoMap.find im t).getD TaskData.zero).Interest).sum) :
    (S.map fun t => ((GoMap.find (Reweight im w) t).getD TaskData.zero).Interest).sum
        = weighted_reward w A ∧
      (∀ t, GoMap.find (Reweight im w) t
        = (GoMap.find im t).map
            fun d => { d with Interest := GoMap.get w t.AppID * d.Interest }) ∧
      (∀ t, t ∈ GoMap.keys (Reweight im w) ↔ t ∈ GoMap.keys im) := by
  refine ⟨?_, find_Reweight im w, ?_⟩
  · have hterm : ∀ t : Task R,
        ((GoMap.find (Reweight im w) t).getD TaskData.zero).Interest
          = GoMap.get w t.AppID * ((GoMap.find im t).getD TaskData.zero).Interest := by
      intro t
      rw [find_Reweight]
      cases GoMap.find im t with
      | none => simp [TaskData.zero]
      | some d => rfl
    simp only [hterm]
    rw [weighted_reward_eq_sum, List.sum_toFinset _ (GoMap.nodup_keys A),
      sum_by_app S hS (GoMap.keys A) (GoMap.nodup_keys A) hkeys]
    congr 1
    refine List.map_congr_left fun id hid => ?_
    rw [hA id hid, ← List.sum_map_mul_left]
    congr 1
    refine List.map_congr_left fun t ht => ?_
    have := (List.mem_filter.1 ht).2
    simp only [decide_eq_true_eq] at this
    rw [this]
  · intro t
    rw [← not_iff_not, ← GoMap.find_eq_none_iff, ← GoMap.find_eq_none_iff, find_Reweight]
    simp

/-- C28 at the interest map with the task `capTask` of interest 10, the weight 2 for
app 1 and the allocation of 10 to app 1. -/
theorem C28_reweight_reward_witness :
    [capTask].Nodup ∧ (∀ t ∈ [capTask], t.AppID ∈ GoMap.keys ([(1, 10)] : Allocation ℚ)) ∧
      (∀ id ∈ GoMap.keys ([(1, 10)] : Allocation ℚ),
        GoMap.get ([(1, 10)] : Allocation ℚ) id
          = (([capTask].filter fun t => decide (t.AppID = id)).map
              fun t => ((GoMap.find [(capTask, capData)] t).getD TaskData.zero).Interest).sum) ∧
      (([capTask].map fun t =>
            ((GoMap.find (Reweight [(capTask, capData)] [(1, 2)]) t).getD
              TaskData.zero).Interest).sum
          = weighted_reward [(1, 2)] ([(1, 10)] : Allocation ℚ) ∧
        (∀ t, GoMap.find (Reweight [(capTask, capData)] ([(1, 2)] : GoMap Int ℚ)) t
          = (GoMap.find [(capTask, capData)] t).map
              fun d => { d with Interest := GoMap.get [(1, 2)] t.AppID * d.Interest }) ∧
        (∀ t, t ∈ GoMap.keys (Reweight [(capTask, capData)] ([(1, 2)] : GoMap Int ℚ))
          ↔ t ∈ GoMap.keys [(capTask, capData)])) :=
  have hS : [capTask].Nodup := List.nodup_singleton _
  have hkeys : ∀ t ∈ [capTask], t.AppID ∈ GoMap.keys ([(1, 10)] : Allocation ℚ) := by
    intro t ht
    rw [List.mem_singleton.1 ht]
    simp [GoMap.keys, capTask]
  have hA : ∀ id ∈ GoMap.keys ([(1, 10)] : Allocation ℚ),
      GoMap.get ([(1, 10)] : Allocation ℚ) id
        = (([capTask].filter fun t => decide (t.AppID = id)).map
            fun t => ((GoMap.find [(capTask, capData)] t).getD TaskData.zero).Interest).sum := by
    intro id hid
    have : id = 1 := by simpa [GoMap.keys] using hid
    subst this
    simp [GoMap.get, GoMap.find, capTask, capData]
  ⟨hS, hkeys, hA, C28_reweight_reward [(capTask, capData)] [(1, 2)] [capTask] [(1, 10)] hS hkeys hA⟩

end C28

/-! ## C27: the dimension of the faces of the search -/

section C27

variable {R : Type} [LinearOrderedField R]

omit [LinearOrderedField R] in
theorem kept_of_lt (idx : Nat) (l : List (fpoint R)) :
    ∀ k, idx < k →
      ((l.enumFrom k).filter fun p => decide (p.1 ≠ idx)).map Prod.snd = l := by
  induction l with
  | nil => intro k _; rfl
  | cons f l ih =>
    intro k hk
    rw [List.enumFrom_cons, List.filter_cons_of_pos (by simp; omega), List.map_cons,
      ih (k + 1) (by omega)]

omit [LinearOrderedField R] in
theorem kept_eq_eraseIdx (idx : Nat) (l : List (fpoint R)) :
    ∀ k, k ≤ idx →
      ((l.enumFrom k).filter fun p => decide (p.1 ≠ idx)).map Prod.snd = l.eraseIdx (idx - k) := by
  induction l with
  | nil => intro k _; rfl
  | cons f l ih =>
    intro k hk
    rw [List.enumFrom_cons]
    by_cases e : k = idx
    · subst e
      rw [List.filter_cons_of_neg (by simp), kept_of_lt k l (k + 1) (by omega), Nat.sub_self]
      rfl
    · rw [List.filter_cons_of_pos (by simpa using e), List.map_cons, ih (k + 1) (by omega)]
      obtain ⟨d, hd⟩ : ∃ d, idx - k = d + 1 := ⟨idx - k - 1, by omega⟩
      rw [hd, List.eraseIdx_cons_succ]
      congr 2
      omega

/-- The loop of `create_candidate_face` with enough room left in `x`. -/
theorem create_candidate_face_loop_eq (idx : Nat) (l : List (fpoint R)) :
    ∀ (k : Nat) (pre : List (fpoint R)) (m : Nat),
      (((l.enumFrom k).filter fun p => decide (p.1 ≠ idx)).map Prod.snd).length ≤ m →
      create_candidate_face_loop idx (l.enumFrom k) (pre ++ List.replicate m fpoint.zero)
          pre.length
        = .ok (pre ++ ((l.enumFrom k).filter fun p => decide (p.1 ≠ idx)).map Prod.snd
            ++ List.replicate
              (m - (((l.enumFrom k).filter fun p => decide (p.1 ≠ idx)).map Prod.snd).length)
              fpoint.zero) := by
  induction l with
  | nil =>
    intro k pre m _
    simp [create_candidate_face_loop]
  | cons f l ih =>
    intro k pre m hm
    rw [List.enumFrom_cons] at hm ⊢
    by_cases e : k = idx
    · rw [List.filter_cons_of_neg (by simpa using e)] at hm ⊢
      rw [create_candidate_face_loop, if_neg (not_not.2 e)]
      exact ih (k + 1) pre m hm
    · rw [List.filter_cons_of_pos (by simpa using e)] at hm ⊢
      rw [List.map_cons, List.length_cons] at hm
      obtain ⟨m', rfl⟩ : ∃ m', m = m' + 1 := ⟨m - 1, by omega⟩
      rw [create_candidate_face_loop, if_pos e,
        if_pos (by rw [List.length_append, List.length_replicate]; omega)]
      have hset : (pre ++ List.replicate (m' + 1) fpoint.zero).set pre.length f
          = (pre ++ [f]) ++ List.replicate m' (fpoint.zero : fpoint R) := by
        rw [List.set_append_right _ _ (le_refl _), Nat.sub_self, List.replicate_succ,
          List.set_cons_zero, List.append_assoc]
        rfl
      have hlen : pre.length + 1 = (pre ++ [f]).length := by simp
      rw [hset, hlen, ih (k + 1) (pre ++ [f]) m' (by omega), List.map_cons, List.length_cons]
      simp only [List.append_assoc, List.singleton_append, Nat.add_sub_add_right]

/-- The candidate face for an index of the face: the new point, then the face
without the point at the index; it has the length of the face. -/
theorem create_candidate_face_eq (fp : fpoint R) (face : List (fpoint R)) (idx : Nat)
    (h : idx < face.length) :
    create_candidate_face fp face idx = .ok (fp :: face.eraseIdx idx) ∧
      (fp :: face.eraseIdx idx).length = face.length := by
  have hlen : (face.eraseIdx idx).length = face.length - 1 := List.length_eraseIdx_of_lt h
  refine ⟨?_, by rw [List.length_cons, hlen]; omega⟩
  unfold create_candidate_face
  simp only [List.length_replicate]
  rw [if_pos (by omega)]
  obtain ⟨m, hm⟩ : ∃ m, face.length = m + 1 := ⟨face.length - 1, by omega⟩
  have hkept := kept_eq_eraseIdx idx face 0 (Nat.zero_le _)
  rw [Nat.sub_zero] at hkept
  have hx : (List.replicate face.length (fpoint.zero : fpoint R)).set 0 fp
      = [fp] ++ List.replicate m fpoint.zero := by
    rw [hm, List.replicate_succ, List.set_cons_zero]
    rfl
  rw [hx, List.enum]
  have := create_candidate_face_loop_eq idx face 0 [fp] m (by rw [hkept, hlen]; omega)
  rw [hkept, hlen] at this
  rw [show (1 : Nat) = [fp].length from rfl, this]
  have h0 : m - (face.length - 1) = 0 := by omega
  rw [h0]
  simp

theorem Mobius.first_candidate_eq (L : Lib R) (s : Mobius R) (fp : fpoint R)
    (face : List (fpoint R)) (l : List Nat) (hl : ∀ idx ∈ l, idx < face.length) :
    s.first_candidate L fp face l = s.first_candidate_unchecked L fp face l := by
  induction l with
  | nil => rfl
  | cons idx rest ih =>
    unfold Mobius.first_candidate Mobius.first_candidate_unchecked
    rw [(create_candidate_face_eq fp face idx (hl idx (List.mem_cons_self _ _))).1]
    simp only
    rw [ih fun j hj => hl j (List.mem_cons_of_mem _ hj)]

theorem Mobius.first_candidate_unchecked_some (L : Lib R) (s : Mobius R) (fp : fpoint R)
    (face : List (fpoint R)) (l : List Nat) (x : List (fpoint R))
    (h : s.first_candidate_unchecked L fp face l = .ok (some x)) :
    ∃ idx ∈ l, x = fp :: face.eraseIdx idx := by
  induction l with
  | nil => cases h
  | cons idx rest ih =>
    unfold Mobius.first_candidate_unchecked at h
    split at h
    · cases h
    · simp only [Except.ok.injEq, Option.some.injEq] at h
      exact ⟨idx, List.mem_cons_self _ _, h.symm⟩
    · obtain ⟨j, hj, hx⟩ := ih h
      exact ⟨j, List.mem_cons_of_mem _ hj, hx⟩

/-- The search on a face of `K` points: the checks never fire, and the face that
comes back has `K` or `K + 1` points. -/
theorem Mobius.extend_hull_search_dim (L : Lib R) :
    ∀ (fuel : Nat) (s : Mobius R) (face hull : List (fpoint R)),
      face.length = s.num_apps → 0 < s.num_apps →
      Mobius.extend_hull_search L fuel s face hull = Mobius.search_unchecked L fuel s face hull ∧
        ∀ s1 f, Mobius.search_unchecked L fuel s face hull = some (.ok (s1, f)) →
          (f.length = s.num_apps ∨ f.length = s.num_apps + 1) ∧ s1.num_apps = s.num_apps := by
  intro fuel
  induction fuel with
  | zero =>
    intro s face hull _ _
    refine ⟨rfl, ?_⟩
    intro s1 f h
    cases h
  | succ fuel ih =>
    intro s face hull hlen hpos
    have hassert : s.assert_face_dim face = .ok () := by
      unfold Mobius.assert_face_dim
      rw [if_neg (by omega)]
    unfold Mobius.extend_hull_search Mobius.search_unchecked
    rw [hassert]
    simp only
    cases hfe : s.find_extension L face hull with
    | error e =>
      cases e with
      | err msg =>
        refine ⟨rfl, ?_⟩
        intro s1 f h
        simp only [Option.some.injEq, Except.ok.injEq, Prod.mk.injEq] at h
        obtain ⟨rfl, rfl⟩ := h
        exact ⟨Or.inl hlen, rfl⟩
      | panic msg =>
        refine ⟨rfl, ?_⟩
        intro s1 f h
        cases h
      | fatal msg =>
        refine ⟨rfl, ?_⟩
        intro s1 f h
        cases h
    | ok r =>
      obtain ⟨s1, fp⟩ := r
      obtain ⟨c, weights, schedule, utility, -, -, -, -, -, -, -, hs1⟩ :=
        s.find_extension_inv L face hull s1 fp hfe
      have hnum : s1.num_apps = s.num_apps := by rw [hs1]
      simp only
      rw [s1.first_candidate_eq L fp face (List.range face.length)
        fun idx hidx => List.mem_range.1 hidx]
      cases hfc : s1.first_candidate_unchecked L fp face (List.range face.length) with
      | error e =>
        refine ⟨rfl, ?_⟩
        intro s2 f h
        cases h
      | ok o =>
        cases o with
        | none =>
          refine ⟨rfl, ?_⟩
          intro s2 f h
          simp only [Option.some.injEq, Except.ok.injEq, Prod.mk.injEq] at h
          obtain ⟨rfl, rfl⟩ := h
          refine ⟨Or.inr ?_, hnum⟩
          rw [List.length_append, hlen]
          rfl
        | some x =>
          obtain ⟨idx, hidx, hx⟩ := s1.first_candidate_unchecked_some L fp face _ x hfc
          have hxlen : x.length = s1.num_apps := by
            rw [hx, (create_candidate_face_eq fp face idx (List.mem_range.1 hidx)).2, hlen, hnum]
          obtain ⟨h1, h2⟩ := ih s1 x (hull ++ [fp]) hxlen (by rw [hnum]; exact hpos)
          refine ⟨h1, ?_⟩
          intro s2 f h
          obtain ⟨h3, h4⟩ := h2 s2 f h
          rw [hnum] at h3 h4
          exact ⟨h3, h4⟩

/-- C27. Face dimension is preserved by Search: on a face of exactly `K` points
(`K ≥ 1` the number of apps), `create_candidate_face` returns for every index of the
face the new point followed by the face without the point at the index, a face of
`K` points, without indexing out of range; `extend_hull_search` runs as the search
without the dimension assertion and without the index checks runs, so neither ever
fails in a recursive call; and the face that it returns has `K` or `K + 1` points and
passes `assert_face_dim`. -/
theorem C27_face_dimension (L : Lib R) (fuel : Nat) (s : Mobius R) (face hull : List (fpoint R))
    (hlen : face.length = s.num_apps) (hpos : 0 < s.num_apps) :
    (∀ fp idx, idx < face.length →
      create_candidate_face fp face idx = .ok (fp :: face.eraseIdx idx) ∧
        (fp :: face.eraseIdx idx).length = s.num_apps) ∧
      Mobius.extend_hull_search L fuel s face hull = Mobius.search_unchecked L fuel s face hull ∧
      ∀ s1 f, Mobius.extend_hull_search L fuel s face hull = some (.ok (s1, f)) →
        (f.length = s.num_apps ∨ f.length = s.num_apps + 1) ∧ s1.assert_face_dim f = .ok () := by
  obtain ⟨h1, h2⟩ := Mobius.extend_hull_search_dim L fuel s face hull hlen hpos
  refine ⟨?_, h1, ?_⟩
  · intro fp idx hidx
    have := create_candidate_face_eq fp face idx hidx
    exact ⟨this.1, by rw [this.2, hlen]⟩
  · intro s1 f h
    rw [h1] at h
    obtain ⟨h3, h4⟩ := h2 s1 f h
    refine ⟨h3, ?_⟩
    unfold Mobius.assert_face_dim
    rw [h4, if_neg (by rcases h3 with e | e <;> omega)]

/-- C27 at the two-app state and the face through `(2, 0)` and `(0, 2)`. -/
theorem C27_face_dimension_witness :
    sampleFace.length = onFaceState.num_apps ∧ 0 < onFaceState.num_apps ∧
      ((∀ fp idx, idx < sampleFace.length →
        create_candidate_face fp sampleFace idx = .ok (fp :: sampleFace.eraseIdx idx) ∧
          (fp :: sampleFace.eraseIdx idx).length = onFaceState.num_apps) ∧
        Mobius.extend_hull_search fmtLib 2 onFaceState sampleFace sampleFace
          = Mobius.search_unchecked fmtLib 2 onFaceState sampleFace sampleFace ∧
        ∀ s1 f, Mobius.extend_hull_search fmtLib 2 onFaceState sampleFace sampleFace
            = some (.ok (s1, f)) →
          (f.length = onFaceState.num_apps ∨ f.length = onFaceState.num_apps + 1) ∧
            s1.assert_face_dim f = .ok ()) :=
  ⟨rfl, by decide, C27_face_dimension fmtLib 2 onFaceState sampleFace sampleFace rfl (by decide)⟩

end C27

/-! ## C29: the depth of the search -/

section C29

variable {R : Type} [LinearOrderedField R]

theorem contains_congr (hull : List (fpoint R)) (a b : Allocation R)
    (h : ∀ id, GoMap.get a id = GoMap.get b id) : contains hull a = contains hull b := by
  have key : ∀ a b : Allocation R, (∀ id, GoMap.get a id = GoMap.get b id) →
      contains hull a = true → contains hull b = true := by
    intro a b hab ha
    rw [contains_iff] at ha ⊢
    obtain ⟨p, hp, hall⟩ := ha
    exact ⟨p, hp, fun id hid => by rw [← hab id]; exact hall id hid⟩
  cases ha : contains hull a with
  | true => exact (key a b h ha).symm
  | false =>
    cases hb : contains hull b with
    | true => rw [key b a (fun id => (h id).symm) hb] at ha; cases ha
    | false => rfl

theorem contains_append_of_contains (hull : List (fpoint R)) (fp : fpoint R) (a : Allocation R)
    (h : contains hull a = true) : contains (hull ++ [fp]) a = true := by
  rw [contains_iff] at h ⊢
  obtain ⟨p, hp, hall⟩ := h
  exact ⟨p, List.mem_append_left _ hp, hall⟩

theorem contains_append_self (hull : List (fpoint R)) (fp : fpoint R) (a : Allocation R)
    (h : ∀ id, GoMap.get fp.schedule.Allocation id = GoMap.get a id) :
    contains (hull ++ [fp]) a = true := by
  rw [contains_iff]
  exact ⟨fp, by simp, fun id _ => (h id).symm⟩

omit [LinearOrderedField R] in
theorem countP_lt_of_imp {α : Type} (p q : α → Bool) (l : List α) (hpq : ∀ x ∈ l, p x = true → q x = true)
    (a : α) (ha : a ∈ l) (hqa : q a = true) (hpa : p a = false) : l.countP p < l.countP q := by
  induction l with
  | nil => cases ha
  | cons x l ih =>
    have hmono : l.countP p ≤ l.countP q :=
      List.countP_mono_left fun y hy hp => hpq y (List.mem_cons_of_mem _ hy) hp
    rcases List.mem_cons.1 ha with e | e
    · subst e
      rw [List.countP_cons_of_neg _ _ (by simp [hpa]), List.countP_cons_of_pos _ _ hqa]
      omega
    · have hlt := ih (fun y hy hp => hpq y (List.mem_cons_of_mem _ hy) hp) e
      by_cases hx : p x = true
      · rw [List.countP_cons_of_pos _ _ hx,
          List.countP_cons_of_pos _ _ (hpq x (List.mem_cons_self _ _) hx)]
        omega
      · rw [List.countP_cons_of_neg _ _ hx]
        by_cases hqx : q x = true
        · rw [List.countP_cons_of_pos _ _ hqx]; omega
        · rw [List.countP_cons_of_neg _ _ hqx]; exact hlt

/-- The schedule of `compute_schedule` carries the allocation that the oracle
returned. -/
theorem Mobius.compute_schedule_allocation (L : Lib R) (s : Mobius R) (w : GoMap Int R)
    (schedule : Schedule R) (u : R) (h : s.compute_schedule L w = .ok (schedule, u)) :
    schedule.Allocation
      = (s.Solver (Reweight s.InterestMap w) s.InterestMap s.Vehicles s.Horizon s.Capacity
          (s.choose_init_schedule L w)).Allocation := by
  unfold Mobius.compute_schedule at h
  split at h
  · cases h
  · simp only [Except.ok.injEq, Prod.mk.injEq] at h
    rw [← h.1]

/-- An accepted extension: the state keeps its oracle, the new point differs from
every point of the hull, and one more allocation of the oracle's range is in the
hull. -/
theorem Mobius.find_extension_step (L : Lib R) (s s1 : Mobius R) (face hull : List (fpoint R))
    (fp : fpoint R) (h : s.find_extension L face hull = .ok (s1, fp)) :
    s1.Solver = s.Solver ∧
      (∀ p ∈ hull, ∃ id, GoMap.get fp.schedule.Allocation id
        ≠ GoMap.get p.schedule.Allocation id) ∧
      ∀ allocs, SolverRange s.Solver allocs →
        unseen (hull ++ [fp]) allocs < unseen hull allocs := by
  obtain ⟨c, weights, schedule, utility, -, -, -, hcs, hfp, -, hnot, hs1⟩ :=
    s.find_extension_inv L face hull s1 fp h
  have hsched : fp.schedule = schedule := by rw [hfp]
  refine ⟨by rw [hs1], ?_, ?_⟩
  · intro p hp
    by_contra hall
    have hall' : ∀ id, GoMap.get fp.schedule.Allocation id
        = GoMap.get p.schedule.Allocation id := by
      intro id
      by_contra hne
      exact hall ⟨id, hne⟩
    have : contains hull schedule.Allocation = true := by
      rw [contains_iff]
      exact ⟨p, hp, fun id _ => by rw [← hsched]; exact hall' id⟩
    rw [this] at hnot
    cases hnot
  · intro allocs hrange
    obtain ⟨a, ha, hget⟩ := hrange (Reweight s.InterestMap fp.weights) s.InterestMap s.Vehicles
      s.Horizon s.Capacity (s.choose_init_schedule L fp.weights)
    rw [← s.compute_schedule_allocation L fp.weights schedule utility hcs] at hget
    unfold unseen
    refine countP_lt_of_imp _ _ allocs ?_ a ha ?_ ?_
    · intro x _ hx
      cases hc : contains hull x with
      | false => rfl
      | true =>
        rw [contains_append_of_contains hull fp x hc] at hx
        cases hx
    · rw [← contains_congr hull schedule.Allocation a hget, hnot]
      rfl
    · rw [contains_append_self hull fp a (by rw [hsched]; exact hget)]
      rfl

/-- With more fuel than allocations not yet in the hull, the search returns. -/
theorem Mobius.extend_hull_search_returns (L : Lib R) (allocs : List (Allocation R)) :
    ∀ (fuel : Nat) (s : Mobius R) (face hull : List (fpoint R)),
      SolverRange s.Solver allocs → unseen hull allocs < fuel →
      Mobius.extend_hull_search L fuel s face hull ≠ none := by
  intro fuel
  induction fuel with
  | zero => intro s face hull _ h; cases h
  | succ fuel ih =>
    intro s face hull hrange hfuel
    unfold Mobius.extend_hull_search
    split
    · simp
    · split
      · simp
      · simp
      · rename_i s1 fp hfe
        obtain ⟨hsol, -, hlt⟩ := s.find_extension_step L s1 face hull fp hfe
        split
        · simp
        · exact ih s1 _ _ (by rw [hsol]; exact hrange) (by have := hlt allocs hrange; omega)
        · simp

/-- The loop of `extend_hull_trace` over the indices of the face keeps a result and
the oracle, when the recursive calls do. -/
theorem trace_fold (L : Lib R) (fuel : Nat) (s : Mobius R) (fp : fpoint R)
    (face hull : List (fpoint R))
    (ih : ∀ (st : Mobius R) (x : List (fpoint R)), st.Solver = s.Solver →
      ∃ r, Mobius.extend_hull_trace L fuel st x hull = some r ∧
        ∀ s1 f, r = .ok (s1, f) → s1.Solver = s.Solver) :
    ∀ (l : List Nat) (acc : Option (Except Fault (Mobius R × List (fpoint R)))),
      (∃ r, acc = some r ∧ ∀ s1 f, r = .ok (s1, f) → s1.Solver = s.Solver) →
      ∃ r,
        l.foldl
            (fun acc idx =>
              match acc with
              | some (.ok (st, frontier)) =>
                match create_candidate_face fp face idx with
                | .error e => some (.error e)
                | .ok x =>
                  match Mobius.extend_hull_trace L fuel st x hull with
                  | some (.ok (st1, fr)) => some (.ok (st1, frontier ++ fr))
                  | other => other
              | other => other)
            acc
          = some r ∧ ∀ s1 f, r = .ok (s1, f) → s1.Solver = s.Solver := by
  intro l
  induction l with
  | nil => intro acc hacc; exact hacc
  | cons idx l ihl =>
    intro acc hacc
    rw [List.foldl_cons]
    apply ihl
    obtain ⟨r, rfl, hr⟩ := hacc
    cases r with
    | error e => exact ⟨.error e, rfl, fun _ _ h => by cases h⟩
    | ok pr =>
      obtain ⟨st, frontier⟩ := pr
      have hst := hr st frontier rfl
      simp only
      cases create_candidate_face fp face idx with
      | error e => exact ⟨.error e, rfl, fun _ _ h => by cases h⟩
      | ok x =>
        obtain ⟨r1, h1, h2⟩ := ih st x hst
        simp only
        rw [h1]
        cases r1 with
        | error e => exact ⟨.error e, rfl, fun _ _ h => by cases h⟩
        | ok pr1 =>
          obtain ⟨st1, fr⟩ := pr1
          refine ⟨.ok (st1, frontier ++ fr), rfl, ?_⟩
          intro s2 f h
          simp only [Except.ok.injEq, Prod.mk.injEq] at h
          rw [← h.1]
          exact h2 st1 fr rfl

/-- With more fuel than allocations not yet in the hull, the trace returns, and the
state that it returns keeps the oracle. -/
theorem Mobius.extend_hull_trace_returns (L : Lib R) (allocs : List (Allocation R)) :
    ∀ (fuel : Nat) (s : Mobius R) (face hull : List (fpoint R)),
      SolverRange s.Solver allocs → unseen hull allocs < fuel →
      ∃ r, Mobius.extend_hull_trace L fuel s face hull = some r ∧
        ∀ s1 f, r = .ok (s1, f) → s1.Solver = s.Solver := by
  intro fuel
  induction fuel with
  | zero => intro s face hull _ h; cases h
  | succ fuel ih =>
    intro s face hull hrange hfuel
    unfold Mobius.extend_hull_trace
    split
    · exact ⟨_, rfl, fun _ _ h => by cases h⟩
    · split
      · refine ⟨_, rfl, ?_⟩
        intro s1 f h
        simp only [Except.ok.injEq, Prod.mk.injEq] at h
        rw [← h.1]
      · exact ⟨_, rfl, fun _ _ h => by cases h⟩
      · rename_i s1 fp hfe
        obtain ⟨hsol, -, hlt⟩ := s.find_extension_step L s1 face hull fp hfe
        have hlt' : unseen (hull ++ [fp]) allocs < fuel := by
          have := hlt allocs hrange; omega
        have hstep : ∀ (st : Mobius R) (x : List (fpoint R)), st.Solver = s1.Solver →
            ∃ r, Mobius.extend_hull_trace L fuel st x (hull ++ [fp]) = some r ∧
              ∀ s2 f, r = .ok (s2, f) → s2.Solver = s1.Solver := by
          intro st x hst
          obtain ⟨r, h1, h2⟩ := ih st x (hull ++ [fp])
            (by rw [hst, hsol]; exact hrange) hlt'
          exact ⟨r, h1, fun s2 f h => by rw [h2 s2 f h, hst]⟩
        obtain ⟨r, h1, h2⟩ := trace_fold L fuel s1 fp face (hull ++ [fp]) hstep
          (List.range face.length) (some (.ok (s1, []))) ⟨_, rfl, fun s2 f h => by
            simp only [Except.ok.injEq, Prod.mk.injEq] at h
            rw [← h.1]⟩
        exact ⟨r, h1, fun s2 f h => by rw [h2 s2 f h, hsol]⟩

/-- C29. Search depth is bounded by the oracle's range: a frontier point that
`find_extension` accepts has an allocation that differs in some app from the
allocation of every point of the hull it was given, which along a recursion path of
`extend_hull_search` or `extend_hull_trace` holds all the points accepted before.
Hence, when the oracle answers only with the `N` allocations of a list, both
recursions are at most `N` calls deep below the first call and return: with fuel for
`N + 1` nested calls neither runs out of fuel. -/
theorem C29_search_terminates (L : Lib R) (s : Mobius R) (face hull : List (fpoint R))
    (allocs : List (Allocation R)) (hrange : SolverRange s.Solver allocs) :
    (∀ s1 fp, s.find_extension L face hull = .ok (s1, fp) →
      ∀ p ∈ hull, ∃ id,
        GoMap.get fp.schedule.Allocation id ≠ GoMap.get p.schedule.Allocation id) ∧
      (∀ fuel, allocs.length < fuel → Mobius.extend_hull_search L fuel s face hull ≠ none) ∧
      (∀ fuel, allocs.length < fuel → Mobius.extend_hull_trace L fuel s face hull ≠ none) := by
  have hle : unseen hull allocs ≤ allocs.length := List.countP_le_length _
  refine ⟨?_, ?_, ?_⟩
  · intro s1 fp h
    exact (s.find_extension_step L s1 face hull fp h).2.1
  · intro fuel hfuel
    exact Mobius.extend_hull_search_returns L allocs fuel s face hull hrange (by omega)
  · intro fuel hfuel
    obtain ⟨r, h, -⟩ :=
      Mobius.extend_hull_trace_returns L allocs fuel s face hull hrange (by omega)
    rw [h]
    simp

/-- The oracle of `onFaceState` answers with the allocation `(1, 1)` only. -/
theorem onFace_range : SolverRange onFaceState.Solver [[(0, 1), (1, 1)]] := by
  intro imw im vehicles horizon capacity init
  exact ⟨[(0, 1), (1, 1)], List.mem_singleton.2 rfl, fun _ => rfl⟩

/-- C29 at the two-app state whose oracle always answers `(1, 1)`. -/
theorem C29_search_terminates_witness :
    SolverRange onFaceState.Solver [[(0, 1), (1, 1)]] ∧
      ((∀ s1 fp, onFaceState.find_extension fmtLib sampleFace sampleFace = .ok (s1, fp) →
        ∀ p ∈ sampleFace, ∃ id,
          GoMap.get fp.schedule.Allocation id ≠ GoMap.get p.schedule.Allocation id) ∧
        (∀ fuel, ([[(0, 1), (1, 1)]] : List (Allocation ℚ)).length < fuel →
          Mobius.extend_hull_search fmtLib fuel onFaceState sampleFace sampleFace ≠ none) ∧
        (∀ fuel, ([[(0, 1), (1, 1)]] : List (Allocation ℚ)).length < fuel →
          Mobius.extend_hull_trace fmtLib fuel onFaceState sampleFace sampleFace ≠ none)) :=
  ⟨onFace_range,
    C29_search_terminates fmtLib onFaceState sampleFace sampleFace [[(0, 1), (1, 1)]]
      onFace_range⟩

end C29

/-! ## C26: the reweighting of the ROI solver -/

section C26

variable {R : Type} [LinearOrderedField R]

/-- The utility of the ROI solver as a sum over the entries of the allocation. -/
theorem RoiSolver.roi_utility_sum (L : Lib R) (r : RoiSolver R) (a : Allocation R)
    (td : Option (TaskData R)) :
    r.utility L a td
      = ((GoMap.keys a).map fun id => phi L r.Alpha (floored (roi_entry a td id))).sum := by
  unfold RoiSolver.utility
  split
  · rename_i h1
    have hstep : (fun (u : R) (id : Int) =>
          if roi_entry a td id > 0 then u + L.Log (roi_entry a td id) else u + L.Log EPSILON)
        = fun u id => u + phi L r.Alpha (floored (roi_entry a td id)) := by
      funext u id
      unfold phi floored
      rw [if_pos h1]
      split <;> rfl
    rw [hstep, foldl_add_eq_sum, zero_add]
  · rename_i h1
    have hstep : (fun (u : R) (id : Int) =>
          if roi_entry a td id > 0 then
            u + L.Pow (roi_entry a td id) (1 - r.Alpha) / (1 - r.Alpha)
          else u + L.Pow EPSILON (1 - r.Alpha) / (1 - r.Alpha))
        = fun u id => u + phi L r.Alpha (floored (roi_entry a td id)) := by
      funext u id
      unfold phi floored
      rw [if_neg h1]
      split <;> rfl
    rw [hstep, foldl_add_eq_sum, zero_add]

/-- The loop of `reweight_alpha` when no task lowers the utility. -/
theorem RoiSolver.reweight_alpha_loop_ok (L : Lib R) (r : RoiSolver R) (im : InterestMap R)
    (h : Allocation R) (curr : R) (tasks : List (Task R)) :
    ∀ imw : InterestMap R,
      (∀ t ∈ tasks, curr ≤ r.utility L h (some ((GoMap.find im t).getD TaskData.zero))) →
      (∀ t d, GoMap.find imw t = some d → 0 ≤ d.Interest) →
      ∃ out, r.reweight_alpha_loop L im h curr tasks imw = .ok out ∧
        (∀ t, t ∈ GoMap.keys out ↔ t ∈ tasks ∨ t ∈ GoMap.keys imw) ∧
        ∀ t d, GoMap.find out t = some d → 0 ≤ d.Interest := by
  induction tasks with
  | nil =>
    intro imw _ hpos
    exact ⟨imw, rfl, fun t => by simp, hpos⟩
  | cons task tasks ih =>
    intro imw hle hpos
    have h0 := hle task (List.mem_cons_self _ _)
    unfold RoiSolver.reweight_alpha_loop
    simp only
    rw [if_neg (not_lt.2 h0)]
    obtain ⟨out, hout, hk, hp⟩ :=
      ih
        (GoMap.set imw task
          { AppID := ((GoMap.find im task).getD TaskData.zero).AppID
            Location := ((GoMap.find im task).getD TaskData.zero).Location
            Destination := ⟨0, 0⟩
            Interest := r.utility L h (some ((GoMap.find im task).getD TaskData.zero)) - curr
            TaskTimeSeconds := ((GoMap.find im task).getD TaskData.zero).TaskTimeSeconds
            RequestTime := 0, FulfillTime := 0 })
        (fun t ht => hle t (List.mem_cons_of_mem _ ht)) (by
          intro t d hf
          by_cases e : task = t
          · subst e
            rw [GoMap.find_set_self] at hf
            simp only [Option.some.injEq] at hf
            rw [← hf]
            exact sub_nonneg.2 h0
          · rw [GoMap.find_set_of_ne _ _ _ _ e] at hf
            exact hpos t d hf)
    refine ⟨out, hout, ?_, hp⟩
    intro t
    rw [hk t, List.mem_cons, GoMap.mem_keys_iff, GoMap.mem_keys_iff]
    constructor
    · rintro (h1 | ⟨v, hv⟩)
      · exact Or.inl (Or.inr h1)
      · rcases List.mem_cons.1 hv with e | e
        · simp only [Prod.mk.injEq] at e
          exact Or.inl (Or.inl e.1)
        · exact Or.inr ⟨v, e⟩
    · rintro ((h1 | h1) | ⟨v, hv⟩)
      · exact Or.inr ⟨_, List.mem_cons.2 (Or.inl (by rw [h1]))⟩
      · exact Or.inl h1
      · exact Or.inr ⟨v, List.mem_cons_of_mem _ hv⟩

/-- Over the reals, a safe step does not lower the floored `φ`. -/
theorem phi_floored_step (L : Lib ℝ) (hlog : L.Log = Real.log) (hpow : L.Pow = fun x y => x ^ y)
    (alpha x i : ℝ) (hi : 0 ≤ i) (hs : safeStep x i) :
    phi L alpha (floored x) ≤ phi L alpha (floored (x + i)) := by
  have heps : (0 : ℝ) < EPSILON := by unfold EPSILON; norm_num
  have hmono : ∀ u v : ℝ, 0 < u → u ≤ v → phi L alpha u ≤ phi L alpha v := by
    intro u v hu huv
    rcases eq_or_lt_of_le huv with e | e
    · rw [e]
    · exact (phi_strictMono L hlog hpow alpha u v hu e).le
  by_cases hx : 0 < x
  · rw [floored, floored, if_pos hx, if_pos (by linarith)]
    exact hmono _ _ hx (by linarith)
  · rcases hs with h | h | h
    · exact absurd h hx
    · rw [floored, floored, if_neg hx, if_pos (by linarith)]
      exact hmono _ _ heps h
    · rw [floored, floored, if_neg hx, if_neg (by linarith)]

/-- Away from the floor `reweight_alpha` does not take the fatal branch: over the
reals, when every task of the interest map has a nonnegative interest `i` and the
historical entry `x` of its app, if there is one, is positive, or `x + i ≥ ε = 0.1`,
or `x + i ≤ 0`, the utility with the task is at least the current utility for every
task, `reweight_alpha` returns, every reweighted interest is nonnegative and the
reweighted map has the tasks of the interest map. -/
theorem RoiSolver.reweight_alpha_safe (L : Lib ℝ) (hlog : L.Log = Real.log)
    (hpow : L.Pow = fun x y => x ^ y) (r : RoiSolver ℝ) (im : InterestMap ℝ)
    (h : Allocation ℝ)
    (hsafe : ∀ t d, GoMap.find im t = some d →
      0 ≤ d.Interest ∧ (d.AppID ∈ GoMap.keys h → safeStep (GoMap.get h d.AppID) d.Interest)) :
    (∀ t d, GoMap.find im t = some d → r.utility L h none ≤ r.utility L h (some d)) ∧
      ∃ imw, r.reweight_alpha L im h = .ok imw ∧
        (∀ t, t ∈ GoMap.keys imw ↔ t ∈ GoMap.keys im) ∧
        ∀ t d, GoMap.find imw t = some d → 0 ≤ d.Interest := by
  have hle : ∀ t d, GoMap.find im t = some d → r.utility L h none ≤ r.utility L h (some d) := by
    intro t d hf
    obtain ⟨hi, hs⟩ := hsafe t d hf
    rw [RoiSolver.roi_utility_sum, RoiSolver.roi_utility_sum]
    apply List.sum_le_sum
    intro id hid
    unfold roi_entry
    simp only
    by_cases e : d.AppID = id
    · rw [if_pos e]
      subst e
      exact phi_floored_step L hlog hpow _ _ _ hi (hs hid)
    · rw [if_neg e]
  refine ⟨hle, ?_⟩
  unfold RoiSolver.reweight_alpha
  obtain ⟨out, hout, hk, hp⟩ := r.reweight_alpha_loop_ok L im h (r.utility L h none)
    (GoMap.keys im) [] (by
      intro t ht
      cases hf : GoMap.find im t with
      | none => exact absurd ht ((GoMap.find_eq_none_iff im t).1 hf)
      | some d => exact hle t d hf)
    (by intro t d hf; cases hf)
  refine ⟨out, hout, ?_, hp⟩
  intro t
  rw [hk t]
  simp [GoMap.keys]

/-- C26, the code at the failing input.  With `α = 1`, the historical allocation 0
for app 1 (the value that `Solve` starts from) and a task of app 1 with the positive
interest 0.05, the current utility is `log 0.1` by the floor and the utility with
the task is `log 0.05`, which is lower: the check `curr_util > next_util` of
`reweight_alpha` holds and the code ends in its own `log.Fatal`. -/
theorem C26_roi_fatal_at_zero_history :
    (0 : ℝ) < roiSolver.Alpha ∧ (∀ id, 0 ≤ GoMap.get ([(1, 0)] : Allocation ℝ) id) ∧
      (roiData (1 / 20)).AppID ∈ GoMap.keys ([(1, 0)] : Allocation ℝ) ∧
      0 < (roiData (1 / 20)).Interest ∧
      roiSolver.utility realLib [(1, 0)] (some (roiData (1 / 20)))
        < roiSolver.utility realLib [(1, 0)] none ∧
      roiSolver.reweight_alpha realLib [(roiTask, roiData (1 / 20))] [(1, 0)]
        = .error (.fatal "[vrp] curr util > next util in ROI") := by
  have hlt : roiSolver.utility realLib [(1, 0)] (some (roiData (1 / 20)))
      < roiSolver.utility realLib [(1, 0)] none := by
    rw [RoiSolver.roi_utility_sum, RoiSolver.roi_utility_sum]
    simp [roi_entry, roiSolver, roiData, realLib, phi, floored, GoMap.get, GoMap.find,
      GoMap.keys, EPSILON]
    apply Real.log_lt_log <;> norm_num
  refine ⟨by simp [roiSolver], ?_, by simp [roiData, GoMap.keys], by simp [roiData], hlt, ?_⟩
  · intro id
    by_cases e : (1 : Int) = id
    · simp [GoMap.get, GoMap.find, e]
    · simp [GoMap.get, GoMap.find, e]
  · unfold RoiSolver.reweight_alpha
    have hk : GoMap.keys [(roiTask, roiData (1 / 20))] = [roiTask] := by simp [GoMap.keys]
    have hf : (GoMap.find [(roiTask, roiData (1 / 20))] roiTask).getD TaskData.zero
        = roiData (1 / 20) := by simp [GoMap.find]
    rw [hk, RoiSolver.reweight_alpha_loop]
    rw [hf, if_pos hlt]

end C26

/-! ## C30: the indexing of the round-robin solver -/

section C30

theorem rr_apps : GetApps rrSolver.interest_map = [1] := by
  simp [GetApps, rrSolver, GoMap.keys, GoMap.set, capTask]

theorem rr_next_task (tt : TravelTime ℚ) (v : Vehicle ℚ) :
    RoundRobinSolver.next_task fmtLib tt v [(capTask, capData)] 1
      = .ok (capData, tt v.Location capTask.Location v.Speed capData.TaskTimeSeconds) := by
  simp [RoundRobinSolver.next_task, FilterByApp, GoMap.keys, GoMap.find, GoMap.set, capTask,
    fmtLib, ratLib]

theorem rr_next_task_empty (tt : TravelTime ℚ) (v : Vehicle ℚ) :
    RoundRobinSolver.next_task fmtLib tt v [] 1
      = .error (.panic "index out of range [0] with length 0") := by
  simp [RoundRobinSolver.next_task, FilterByApp, GoMap.keys, fmtLib, ratLib]

theorem rr_delete : GoMap.delete [(capTask, capData)] capData.GetTask = [] := by
  simp [GoMap.delete, TaskData.GetTask, capTask, capData]

/-- C30, the code at the failing inputs.  The interest map has one task and there is
one vehicle, with the budget 10.  When the travel time to the task is 20, the task
does not fit: the loop leaves with an empty path and reading its last element
panics.  When the travel time is 1, the task is taken and deleted from the working
map, and on the next pass `next_task` reads the first element of an empty task
list, which panics. -/
theorem C30_round_robin_panics (fuel : Nat) :
    rrSolver.interest_map ≠ [] ∧ rrSolver.vehicles ≠ [] ∧
      (∀ a b c d, 0 ≤ slowTravel a b c d) ∧ (∀ a b c d, 0 ≤ fastTravel a b c d) ∧
      RoundRobinSolver.Solve fmtLib slowTravel (fuel + 1) rrSolver
        = some (.error (.panic "index out of range [-1]")) ∧
      RoundRobinSolver.Solve fmtLib fastTravel (fuel + 2) rrSolver
        = some (.error (.panic "index out of range [0] with length 0")) := by
  refine ⟨by simp [rrSolver], by simp [rrSolver], fun _ _ _ _ => by simp [slowTravel],
    fun _ _ _ _ => by simp [fastTravel], ?_, ?_⟩
  · unfold RoundRobinSolver.Solve
    rw [rr_apps]
    simp only [rrSolver, List.enum, List.enumFrom, RoundRobinSolver.solve_vehicles,
      RoundRobinSolver.fill, RoundRobinSolver.visit_apps, rr_next_task, slowTravel]
    rfl
  · unfold RoundRobinSolver.Solve
    rw [rr_apps]
    simp only [rrSolver, List.enum, List.enumFrom, RoundRobinSolver.solve_vehicles,
      RoundRobinSolver.fill, RoundRobinSolver.visit_apps, rr_next_task, fastTravel]
    simp [rr_delete, RoundRobinSolver.fill, RoundRobinSolver.visit_apps, rr_next_task_empty]

end C30

end MobiusSpec
